import Mathlib

/-!
# c_arg_parser: a shallow embedding of `arg_parser.h`

The header-only C library declares flags in a registry (`struct _arg_parser`,
here `arg_parser_t`), walks `argv`, matches every flag-shaped token against the
declared flags, converts the value text and appends `(name, type, value)`
entries to a result list.

Modelling conventions

* A C string is the list of its bytes before the terminating NUL (`CStr`).
  Reading the byte at index `strlen` yields the terminator, `charAt` does that.
* `argv` is the list of its first `*argc` tokens, so `*argc` is its length.
* The registry is passed and returned explicitly; `asize` and `rsize` are the
  lengths of `alist` and `rlist`.  The description strings (`mdesc`, `desc`)
  only feed the usage text and are left out.
* `union ArgUnion` is a tagged value.  The code writes a member chosen by the
  entry's `type` and reads it back under the same `type`.
* A `double` is carried as its bit pattern; the parser never computes with it.
* `strtol`, `strtoll` and `strtod` belong to the C library.  They are taken as
  a parameter (`Libc`): each maps a text to the converted value and the number
  of bytes consumed (`endval - retval`).  `libc` instantiates the two integer
  conversions with a model of ISO C11 7.22.1.4 for base 0 and 64-bit `long`.
* `int` and `uint` counters are natural numbers; no input of realistic size
  makes them wrap.
* The scan loop of `arg_parser_parse` is iterated with fuel.  The entry point
  supplies `*argc` units, and `scan_loop_fuel` shows that this always suffices.
-/

namespace ArgParser

/-- Bytes of a C string, terminator excluded. -/
abbrev CStr := List Nat

/-- Bytes of a string literal. -/
def cs (s : String) : CStr := s.toList.map Char.toNat

/-- Read `s[i]` of a NUL-terminated string; index `strlen s` holds the NUL. -/
def charAt (s : CStr) (i : Nat) : Nat := s.getD i 0

/-- Read `(*argv)[i]`. -/
def argvAt (argv : List CStr) (i : Nat) : CStr := argv.getD i []

/-- Mirror of `enum ArgType`. -/
inductive ArgType where
  | ArgBool
  | ArgString
  | ArgInt
  | ArgLong
  | ArgLongLong
  | ArgDouble
  deriving DecidableEq, Repr

open ArgType

/-- Flag bit `ArgNone = 0`. -/
abbrev ArgNone : Nat := 0
/-- Flag bit `ArgDefault = 0b001`. -/
abbrev ArgDefault : Nat := 1
/-- Flag bit `ArgRequired = 0b010`. -/
abbrev ArgRequired : Nat := 2
/-- Flag bit `ArgFound = 0b100`. -/
abbrev ArgFound : Nat := 4

/-- Mirror of `union ArgUnion`, tagged by the member that was written. -/
inductive ArgUnion where
  | val_bool (b : Bool)
  | val_int (v : Int)
  | val_long (v : Int)
  | val_ll (v : Int)
  | val_double (bits : Nat)
  | val_str (s : Option CStr)
  deriving DecidableEq, Repr

/-- Mirror of `struct _arg_desc` (without the description text). -/
structure arg_desc where
  name : CStr
  dval : ArgUnion
  type : ArgType
  flgs : Nat
  shrt : Nat
  deriving DecidableEq, Repr

/-- Mirror of `struct _arg_rval`. -/
structure arg_rval where
  name : CStr
  rval : ArgUnion
  type : ArgType
  deriving DecidableEq, Repr

/-- Mirror of `struct _arg_parser` (without the main description). -/
structure arg_parser_t where
  alist : List arg_desc
  rlist : List arg_rval
  deriving DecidableEq, Repr

/-- The C library conversions used by the parser: value and bytes consumed. -/
structure Libc where
  strtol : CStr → Int × Nat
  strtoll : CStr → Int × Nat
  strtod : CStr → Nat × Nat

/-- The function `tolower` of the "C" locale. -/
def tolower (c : Nat) : Nat := if 65 ≤ c ∧ c ≤ 90 then c + 32 else c

/-- Mirror of `str_to_arg_name`: `_` becomes `-`, other bytes are lowercased. -/
def str_to_arg_name (name : CStr) : CStr :=
  name.map (fun c => if c = 95 then 45 else tolower c)

/-- Loop of `str_arg_cmp` from index `i` on the remaining bytes of both sides. -/
def str_arg_cmp_from (i : Nat) : CStr → CStr → Nat
  | l :: ls, r :: rs =>
    let lhs_c := tolower l
    let rhs_c := tolower r
    let lhs_c := if lhs_c = 95 then 45 else lhs_c
    let rhs_c := if rhs_c = 95 then 45 else rhs_c
    if lhs_c ≠ rhs_c then i + 1 else str_arg_cmp_from (i + 1) ls rs
  | _, _ => 0

/-- Mirror of `str_arg_cmp`: 0 when the common prefix agrees up to case and
`_`/`-`, else one plus the index of the first difference. -/
def str_arg_cmp (lhs rhs : CStr) : Nat := str_arg_cmp_from 0 lhs rhs

/-- Mirror of `arg_name_cmp`: 0 when the token denotes the flag. -/
def arg_name_cmp (arg_name : CStr) (short_name : Nat) (val_for_comp : CStr) : Nat :=
  let arg_len := arg_name.length
  let val_len := val_for_comp.length
  if val_len ≥ 2 ∧ charAt val_for_comp 0 = 45 ∧ charAt val_for_comp 1 = short_name ∧
      (val_len = 2 ∨ charAt val_for_comp 2 = 61) then 0
  else if arg_len + 2 > val_len then 1
  else if charAt val_for_comp 0 ≠ 45 ∧ charAt val_for_comp 1 ≠ 45 then 2
  else if val_len > arg_len + 2 ∧ charAt val_for_comp (arg_len + 2) ≠ 61 then 3
  else if str_arg_cmp arg_name (val_for_comp.drop 2) ≠ 0 then 4
  else 0

/-- Mirror of `arg_parser_make`. -/
def arg_parser_make : arg_parser_t := { alist := [], rlist := [] }

/-- Mirror of `arg_parser_add_arg`. -/
def arg_parser_add_arg (parser : arg_parser_t) (name : CStr) (short_name : Nat)
    (type : ArgType) (flags : Nat) (default_val : ArgUnion) : arg_parser_t :=
  { parser with
    alist := parser.alist ++
      [{ name := str_to_arg_name name, dval := default_val, type := type,
         flgs := flags, shrt := short_name }] }

/-- The call `strstr(flag, "=")`: the suffix starting at the first `=`. -/
def strstr_eq : CStr → Option CStr
  | [] => none
  | c :: rest => if c = 61 then some (c :: rest) else strstr_eq rest

/-- The literal `"true"`. -/
def str_true : CStr := [116, 114, 117, 101]

/-- The literal `"false"`. -/
def str_false : CStr := [102, 97, 108, 115, 101]

/-- Conversion of a `long` to `int` (two's complement, 32 bits). -/
def long_to_int (v : Int) : Int := (v + 2147483648) % 4294967296 - 2147483648

/-- The `switch (arg->type)` of `arg_parser_parse`: the value written to the
new entry and whether the full-consumption check passed. -/
def convert (L : Libc) (type : ArgType) (retval : CStr) : ArgUnion × Bool :=
  match type with
  | ArgString => (.val_str (some retval), true)
  | ArgBool =>
    if retval = str_true then (.val_bool true, true)
    else if retval = str_false then (.val_bool false, true)
    else ((.val_bool (decide ((L.strtol retval).1 ≠ 0))),
          decide ((L.strtol retval).2 = retval.length))
  | ArgInt =>
    (.val_int (long_to_int (L.strtol retval).1), decide ((L.strtol retval).2 = retval.length))
  | ArgLong =>
    (.val_long (L.strtol retval).1, decide ((L.strtol retval).2 = retval.length))
  | ArgLongLong =>
    (.val_ll (L.strtoll retval).1, decide ((L.strtoll retval).2 = retval.length))
  | ArgDouble =>
    (.val_double (L.strtod retval).1, decide ((L.strtod retval).2 = retval.length))

/-- Inner loop of `arg_parser_parse`: the first descriptor, from `arg_iter` on,
whose name or alias the token denotes, with its index. -/
def find_arg (flag : CStr) : List arg_desc → Nat → Option (Nat × arg_desc)
  | [], _ => none
  | arg :: rest, arg_iter =>
    if arg_name_cmp arg.name arg.shrt flag = 0 then some (arg_iter, arg)
    else find_arg flag rest (arg_iter + 1)

/-- Outcome of one iteration of the scan loop. -/
inductive Step where
  | next (parser : arg_parser_t) (argv : List CStr) (val_iter : Nat)
  | fail (code : Nat) (parser : arg_parser_t) (argv : List CStr)
  deriving DecidableEq, Repr

/-- End of an iteration: with `remove_defined_flags_from_argv` the `counter`
tokens at `val_iter` are shifted out and the index stays, otherwise the index
advances by `counter`. -/
def advance (remove : Bool) (argv : List CStr) (val_iter counter : Nat) : List CStr × Nat :=
  if remove then (argv.take val_iter ++ argv.drop (val_iter + counter), val_iter)
  else (argv, val_iter + counter)

/-- Append the entry, convert, and on success mark the descriptor found. -/
def store_value (L : Libc) (remove : Bool) (parser : arg_parser_t) (argv : List CStr)
    (val_iter arg_iter : Nat) (arg : arg_desc) (retval : CStr) (counter : Nat) : Step :=
  let rlist := parser.rlist ++
    [{ name := arg.name, rval := (convert L arg.type retval).1, type := arg.type }]
  if (convert L arg.type retval).2 = false then
    .fail 4 { parser with rlist := rlist } argv
  else
    .next { alist := parser.alist.set arg_iter { arg with flgs := arg.flgs ||| ArgFound },
            rlist := rlist }
      (advance remove argv val_iter counter).1 (advance remove argv val_iter counter).2

/-- Lines 687-705 of `arg_parser_parse`: the value text of a matched flag and
the number of tokens it takes; `none` is the jump to `NoValueForFlag`. -/
def source_value (type : ArgType) (flag : CStr) (argv : List CStr) (val_iter : Nat) :
    Option (CStr × Nat) :=
  match strstr_eq flag with
  | some r => some (r.tail, 1)
  | none =>
    if val_iter + 1 = argv.length ∧ type ≠ ArgBool then none
    else if type ≠ ArgBool then some (argvAt argv (val_iter + 1), 2)
    else if val_iter + 1 = argv.length ∨ charAt (argvAt argv (val_iter + 1)) 0 = 45 then
      some (str_true, 1)
    else some (argvAt argv (val_iter + 1), 2)

/-- Body of the scan loop of `arg_parser_parse` at index `val_iter`. -/
def scan_step (L : Libc) (ignore remove : Bool) (parser : arg_parser_t) (argv : List CStr)
    (val_iter : Nat) : Step :=
  let flag := argvAt argv val_iter
  if charAt flag 0 ≠ 45 then .next parser argv (val_iter + 1)
  else
    match find_arg flag parser.alist 0 with
    | none =>
      if ignore = false then .fail 2 parser argv
      else .next parser (advance remove argv val_iter 1).1 (advance remove argv val_iter 1).2
    | some (arg_iter, arg) =>
      match source_value arg.type flag argv val_iter with
      | none => .fail 1 parser argv
      | some (retval, counter) =>
        store_value L remove parser argv val_iter arg_iter arg retval counter

/-- Outcome of the whole scan loop. -/
inductive Scan where
  | done (parser : arg_parser_t) (argv : List CStr)
  | fail (code : Nat) (parser : arg_parser_t) (argv : List CStr)
  deriving DecidableEq, Repr

/-- The scan loop `for (val_iter = ...; val_iter < *argc; val_iter += counter)`,
iterated at most `fuel` times; `none` when the fuel runs out. -/
def scan_loop (L : Libc) (ignore remove : Bool) :
    Nat → arg_parser_t → List CStr → Nat → Option Scan
  | fuel, parser, argv, val_iter =>
    if argv.length ≤ val_iter then some (.done parser argv)
    else
      match fuel with
      | 0 => none
      | fuel + 1 =>
        match scan_step L ignore remove parser argv val_iter with
        | .fail code parser1 argv1 => some (.fail code parser1 argv1)
        | .next parser1 argv1 val_iter1 => scan_loop L ignore remove fuel parser1 argv1 val_iter1

/-- The C condition `flgs & bit`. -/
def has_flag (flgs bit : Nat) : Bool := decide (flgs &&& bit ≠ 0)

/-- Second loop of `arg_parser_parse`: inject defaults of the descriptors not
found, stop with code 3 at the first required one without default. -/
def defaults_loop : List arg_desc → List arg_rval → Nat × List arg_rval
  | [], rlist => (0, rlist)
  | arg :: rest, rlist =>
    if has_flag arg.flgs ArgFound = false then
      if has_flag arg.flgs ArgDefault then
        defaults_loop rest (rlist ++ [{ name := arg.name, rval := arg.dval, type := arg.type }])
      else if has_flag arg.flgs ArgRequired then (3, rlist)
      else defaults_loop rest rlist
    else defaults_loop rest rlist

/-- What `arg_parser_parse` leaves behind: return code, registry, `argv`. -/
structure ParseOut where
  code : Nat
  parser : arg_parser_t
  argv : List CStr
  deriving DecidableEq, Repr

/-- Mirror of `arg_parser_parse`. -/
def arg_parser_parse (L : Libc) (parser : arg_parser_t) (argv : List CStr)
    (ignore_not_defined_flags remove_defined_flags_from_argv : Bool) : Option ParseOut :=
  match scan_loop L ignore_not_defined_flags remove_defined_flags_from_argv
      argv.length parser argv 1 with
  | none => none
  | some (.fail code parser1 argv1) => some { code := code, parser := parser1, argv := argv1 }
  | some (.done parser1 argv1) =>
    some { code := (defaults_loop parser1.alist parser1.rlist).1,
           parser := { parser1 with rlist := (defaults_loop parser1.alist parser1.rlist).2 },
           argv := argv1 }

/-- The test `strlen(arg_name) == name_len && str_arg_cmp(arg_name, name) == 0`
shared by `arg_parser_count` and `arg_parser_get_args`. -/
def name_matches (arg_name name : CStr) : Bool :=
  decide (arg_name.length = name.length) && decide (str_arg_cmp arg_name name = 0)

/-- Mirror of `arg_parser_count`. -/
def arg_parser_count (parser : arg_parser_t) (name : CStr) : Nat :=
  parser.rlist.foldl (fun count arg => if name_matches arg.name name then count + 1 else count) 0

/-- Loop of `arg_parser_get_args` over the remaining entries, with the number
`retval` of values copied so far and the caller's buffer `val`. -/
def get_args_loop (name : CStr) (type : ArgType) (count : Int) :
    List arg_rval → Nat → List ArgUnion → Int × List ArgUnion
  | [], retval, val => (retval, val)
  | arg :: rest, retval, val =>
    if (retval : Int) < count then
      if name_matches arg.name name then
        if type ≠ arg.type then (1, val)
        else get_args_loop name type count rest (retval + 1) (val.set retval arg.rval)
      else get_args_loop name type count rest retval val
    else (retval, val)

/-- Mirror of `arg_parser_get_args`: return value and the buffer afterwards. -/
def arg_parser_get_args (parser : arg_parser_t) (name : CStr) (type : ArgType)
    (val : List ArgUnion) (count : Int) : Int × List ArgUnion :=
  get_args_loop name type count parser.rlist 0 val

/-- The function `isspace` of the "C" locale. -/
def isspace (c : Nat) : Bool := decide (c = 32) || (decide (9 ≤ c) && decide (c ≤ 13))

/-- Value of a digit or letter as a digit, as `strtol` reads it. -/
def digit_value (c : Nat) : Option Nat :=
  if 48 ≤ c ∧ c ≤ 57 then some (c - 48)
  else if 97 ≤ c ∧ c ≤ 122 then some (c - 87)
  else if 65 ≤ c ∧ c ≤ 90 then some (c - 55)
  else none

/-- Longest run of digits of `base`: accumulated value and number of digits. -/
def scan_digits (base : Nat) : CStr → Nat → Nat → Nat × Nat
  | [], acc, n => (acc, n)
  | c :: rest, acc, n =>
    match digit_value c with
    | some d => if d < base then scan_digits base rest (acc * base + d) (n + 1) else (acc, n)
    | none => (acc, n)

/-- Model of the C library's `strtol(s, &end, 0)` family (ISO C11 7.22.1.4):
white space, an optional sign, base 16 after `0x`/`0X`, base 8 after `0`, base
10 otherwise, the longest run of digits, the value clamped to `[lo, hi]`.
Returns the value and `end - s`; with no digits that is `(0, 0)`. -/
def strto_int (lo hi : Int) (s : CStr) : Int × Nat :=
  let ws := (s.takeWhile isspace).length
  let s1 := s.drop ws
  let neg := decide (s1.head? = some 45)
  let sg := if s1.head? = some 45 ∨ s1.head? = some 43 then 1 else 0
  let s2 := s1.drop sg
  let hex := decide (s2.head? = some 48) &&
    (decide (charAt s2 1 = 120) || decide (charAt s2 1 = 88)) &&
    (match digit_value (charAt s2 2) with
      | some d => decide (d < 16)
      | none => false)
  let base := if hex then 16 else if s2.head? = some 48 then 8 else 10
  let pre := if hex then 2 else 0
  let r := scan_digits base (s2.drop pre) 0 0
  if r.2 = 0 then (0, 0)
  else
    let v : Int := if neg then -(r.1 : Int) else (r.1 : Int)
    (if v < lo then lo else if hi < v then hi else v, ws + sg + pre + r.2)

/-- The function `strtol` with base 0, for a 64-bit `long`. -/
def strtol (s : CStr) : Int × Nat := strto_int (-9223372036854775808) 9223372036854775807 s

/-- The function `strtoll` with base 0. -/
def strtoll (s : CStr) : Int × Nat := strto_int (-9223372036854775808) 9223372036854775807 s

/-- The C library with the integer conversions above; `strtod` stays a
parameter. -/
def libc (strtod : CStr → Nat × Nat) : Libc :=
  { strtol := strtol, strtoll := strtoll, strtod := strtod }

/-- The C library used in the worked examples; they convert no `double`. -/
def example_libc : Libc := libc (fun _ => (0, 0))

/-- Registry of `check_bool_arg_without_val` in `test.c`: a required boolean
`bool-flag` with alias `b`. -/
def bool_registry : arg_parser_t :=
  arg_parser_add_arg arg_parser_make (cs "bool-flag") 98 ArgBool ArgRequired (.val_bool false)

/-- Command line of `check_bool_arg_without_val` in `test.c`. -/
def bool_argv : List CStr :=
  [cs "program", cs "--some-flag=some-val", cs "-b", cs "--some-other-flag=some-other-value"]

/-- Registry with one integer flag `x` that has the default 5. -/
def int_default_registry : arg_parser_t :=
  arg_parser_add_arg arg_parser_make (cs "x") 0 ArgInt ArgDefault (.val_int 5)

/-- Registry with one string flag `x` that has the default `5`. -/
def str_default_registry : arg_parser_t :=
  arg_parser_add_arg arg_parser_make (cs "x") 0 ArgString ArgDefault (.val_str (some (cs "5")))

/-- Values of the entries that the lookup test accepts for `name`, in store
order. -/
def matching_values (rlist : List arg_rval) (name : CStr) : List ArgUnion :=
  (rlist.filter (fun arg => name_matches arg.name name)).map (fun arg => arg.rval)

/-- The entry that the default pass appends for a descriptor. -/
def default_entry (arg : arg_desc) : arg_rval :=
  { name := arg.name, rval := arg.dval, type := arg.type }

/-- The descriptor is not marked found and has a default. -/
def pending_default (arg : arg_desc) : Bool :=
  !has_flag arg.flgs ArgFound && has_flag arg.flgs ArgDefault

/-- The descriptor is not marked found, has no default and is required. -/
def missing_required (arg : arg_desc) : Bool :=
  !has_flag arg.flgs ArgFound && !has_flag arg.flgs ArgDefault && has_flag arg.flgs ArgRequired

/-- Some token of `tokens` denotes the descriptor. -/
def matched_by (tokens : List CStr) (arg : arg_desc) : Prop :=
  ∃ t ∈ tokens, arg_name_cmp arg.name arg.shrt t = 0

/-- Registry state held by a scan outcome. -/
def Scan.parser : Scan → arg_parser_t
  | .done parser _ => parser
  | .fail _ parser _ => parser

/-- Token stream held by a scan outcome. -/
def Scan.argv : Scan → List CStr
  | .done _ argv => argv
  | .fail _ _ argv => argv

/-- How a scan over `tokens` may change a registry: descriptors keep their
place and content, a found mark is added only where a token denotes the
descriptor, and every appended entry carries the name and type of a descriptor
that a token denotes. -/
def scan_frame (tokens : List CStr) (parser parser1 : arg_parser_t) : Prop :=
  parser1.alist.length = parser.alist.length ∧
  (∀ (k : Nat) (d1 : arg_desc), parser1.alist[k]? = some d1 → ∃ d, parser.alist[k]? = some d ∧
      (d1 = d ∨ (d1 = { d with flgs := d.flgs ||| ArgFound } ∧ matched_by tokens d))) ∧
  ∃ added, parser1.rlist = parser.rlist ++ added ∧
    ∀ e ∈ added, ∃ d ∈ parser.alist, e.name = d.name ∧ e.type = d.type ∧ matched_by tokens d

/-- A registry as `arg_parser_make` and `arg_parser_add_arg` leave it before
the first parse: no result, no found mark, names in normalized form. -/
def fresh (parser : arg_parser_t) : Prop :=
  parser.rlist = [] ∧
  ∀ d ∈ parser.alist, has_flag d.flgs ArgFound = false ∧ str_to_arg_name d.name = d.name

/-- Registry with a required string flag `string-req` (alias `s`) and an
integer flag `int-def` with default 10, two of the flags of `check_arg_flags`
in `test.c`. -/
def req_def_registry : arg_parser_t :=
  arg_parser_add_arg
    (arg_parser_add_arg arg_parser_make (cs "string_req") 115 ArgString ArgRequired
      (.val_str none))
    (cs "int_def") 0 ArgInt ArgDefault (.val_int 10)

/-- Registry of `check_several_values_for_one_flag` in `test.c`: a required
string flag `word` with alias `w`. -/
def word_registry : arg_parser_t :=
  arg_parser_add_arg arg_parser_make (cs "word") 119 ArgString ArgRequired (.val_str none)

/-- Command line of `check_several_values_for_one_flag` in `test.c`. -/
def word_argv : List CStr :=
  [cs "program", cs "--word=alpha", cs "--word", cs "bravo", cs "-w", cs "charlie",
   cs "-w=delta"]

/-- Result store after parsing `word_argv` with `word_registry`. -/
def word_rlist : List arg_rval :=
  [{ name := cs "word", rval := .val_str (some (cs "alpha")), type := ArgString },
   { name := cs "word", rval := .val_str (some (cs "bravo")), type := ArgString },
   { name := cs "word", rval := .val_str (some (cs "charlie")), type := ArgString },
   { name := cs "word", rval := .val_str (some (cs "delta")), type := ArgString }]

/-- The byte is not the `=` that ends the name part of a token. -/
def before_value (c : Nat) : Bool := decide (c ≠ 61)

/-- The name that a flag-shaped token spells: the text after its leading `--`
or `-`, up to the first `=`. -/
def flag_name (token : CStr) : CStr :=
  match token with
  | 45 :: 45 :: rest => rest.takeWhile before_value
  | 45 :: rest => rest.takeWhile before_value
  | rest => rest.takeWhile before_value

/-- Registry with one string flag `z` without alias and with the default `d`. -/
def z_default_registry : arg_parser_t :=
  arg_parser_add_arg arg_parser_make (cs "z") 0 ArgString ArgDefault (.val_str (some (cs "d")))

/-- Whether the flag-shaped token `t` takes the token `next` that follows it as
its value: `t` has no `=` and its first matching descriptor is not boolean, or
is boolean and `next` does not begin with `-`. -/
def takes_next (alist : List arg_desc) (t next : CStr) : Bool :=
  match find_arg t alist 0 with
  | none => false
  | some (_, arg) =>
    (strstr_eq t).isNone && (decide (arg.type ≠ ArgBool) || decide (charAt next 0 ≠ 45))

/-- The tokens that a scan over `tokens` skips as positional, in the words of
the specification: a token not beginning with `-` is positional, a flag-shaped
token is no positional and takes the next token along when that is its value. -/
def positional_tokens (alist : List arg_desc) : List CStr → List CStr
  | [] => []
  | [t] => if charAt t 0 ≠ 45 then [t] else []
  | t :: next :: rest =>
    if charAt t 0 ≠ 45 then t :: positional_tokens alist (next :: rest)
    else if takes_next alist t next then positional_tokens alist rest
    else positional_tokens alist (next :: rest)

/-- Registry of the example scenario of the specification: required string
`string_req` without alias and required integer `int_req` with alias `i`. -/
def scenario_registry : arg_parser_t :=
  arg_parser_add_arg
    (arg_parser_add_arg arg_parser_make (cs "string_req") 0 ArgString ArgRequired
      (.val_str none))
    (cs "int_req") 105 ArgInt ArgRequired (.val_int 0)

/-- Command line of the example scenario of the specification. -/
def scenario_argv : List CStr :=
  [cs "prog", cs "--string-req", cs "hi", cs "-i", cs "5"]

/-- The four ways to supply a value to a flag named `n` with alias `x`:
`--n=v`, `--n v`, `-x v` and `-x=v`. -/
inductive FlagForm where
  | long_eq
  | long_space
  | short_space
  | short_eq
  deriving DecidableEq, Repr

/-- The tokens that supply the value `v` in the given form. -/
def supply (n : CStr) (x : Nat) (form : FlagForm) (v : CStr) : List CStr :=
  match form with
  | .long_eq => [45 :: 45 :: (n ++ 61 :: v)]
  | .long_space => [45 :: 45 :: n, v]
  | .short_space => [[45, x], v]
  | .short_eq => [45 :: x :: 61 :: v]

/-- The tokens of a command line that supplies the listed values in order. -/
def supply_all (n : CStr) (x : Nat) : List (FlagForm × CStr) → List CStr
  | [] => []
  | item :: rest => supply n x item.1 item.2 ++ supply_all n x rest

/-- Registry with one string flag whose name `k=v` contains `=`. -/
def eq_name_registry : arg_parser_t :=
  arg_parser_add_arg arg_parser_make (cs "k=v") 119 ArgString ArgNone (.val_str none)

/-- The loop of `str_to_arg_name` as it is written: `n` iterations are left,
the copy `retval` is updated in place at index `i`. -/
def str_to_arg_name_loop : Nat → Nat → CStr → CStr
  | 0, _, retval => retval
  | n + 1, i, retval =>
    if charAt retval i = 95 then str_to_arg_name_loop n (i + 1) (retval.set i 45)
    else str_to_arg_name_loop n (i + 1) (retval.set i (tolower (charAt retval i)))

/-- Registry with one string flag `a` without alias. -/
def a_registry : arg_parser_t :=
  arg_parser_add_arg arg_parser_make (cs "a") 0 ArgString ArgNone (.val_str none)

/-- What `arg_parser_parse` returns once the scan has ended with the given
outcome: the failure as it is, or the result of the default and required pass. -/
def Scan.finish : Scan → ParseOut
  | .fail code parser argv => { code := code, parser := parser, argv := argv }
  | .done parser argv =>
    { code := (defaults_loop parser.alist parser.rlist).1,
      parser := { parser with rlist := (defaults_loop parser.alist parser.rlist).2 },
      argv := argv }

/-- Registry with two string flags `s` and `t`, neither required. -/
def two_string_registry : arg_parser_t :=
  arg_parser_add_arg
    (arg_parser_add_arg arg_parser_make (cs "s") 0 ArgString ArgNone (.val_str none))
    (cs "t") 0 ArgString ArgNone (.val_str none)

/-- Registry with one integer flag `x` without alias, not required. -/
def int_registry : arg_parser_t :=
  arg_parser_add_arg arg_parser_make (cs "x") 0 ArgInt ArgNone (.val_int 0)

/-- What a scan outcome says about the parse: the error code, if any, and the
registry. -/
def Scan.outcome : Scan → Option Nat × arg_parser_t
  | .done parser _ => (none, parser)
  | .fail code parser _ => (some code, parser)

/-- Registry in which the name `v` is registered twice: first as an integer
flag, then as a string flag. -/
def dup_registry : arg_parser_t :=
  arg_parser_add_arg
    (arg_parser_add_arg arg_parser_make (cs "v") 0 ArgInt ArgNone (.val_int 0))
    (cs "v") 0 ArgString ArgNone (.val_str none)

/-- The value text of a flag-shaped token that takes no following token along:
the text after its first `=`, or `true` for a flag given without value. -/
def token_value (t : CStr) : CStr :=
  match strstr_eq t with
  | some r => r.tail
  | none => str_true

/-- The matched flag tokens of a command line in command-line order, in the
words of the specification: a token not beginning with `-` and a flag-shaped
token that matches no descriptor are no matched flag tokens; a matched flag
token comes with the index and the descriptor of its first match and with its
value text, and the token that it takes as its value is passed over. -/
def flag_tokens (alist : List arg_desc) : List CStr → List (Nat × arg_desc × CStr)
  | [] => []
  | [t] =>
    if charAt t 0 ≠ 45 then []
    else
      match find_arg t alist 0 with
      | none => []
      | some (k, d) => [(k, d, token_value t)]
  | t :: next :: rest =>
    if charAt t 0 ≠ 45 then flag_tokens alist (next :: rest)
    else
      match find_arg t alist 0 with
      | none => flag_tokens alist (next :: rest)
      | some (k, d) =>
        if takes_next alist t next then (k, d, next) :: flag_tokens alist rest
        else (k, d, token_value t) :: flag_tokens alist (next :: rest)

/-- The entry of a matched flag token: name and type of its descriptor and the
converted value text. -/
def token_entry (L : Libc) (m : Nat × arg_desc × CStr) : arg_rval :=
  { name := m.2.1.name, rval := (convert L m.2.1.type m.2.2).1, type := m.2.1.type }

/-- One entry `{name, type, default value}` for each descriptor, from index `j`
on in registration order, that has a default and whose index is not among the
indices `found` of the descriptors found. -/
def default_entries (found : List Nat) : List arg_desc → Nat → List arg_rval
  | [], _ => []
  | d :: rest, j =>
    if has_flag d.flgs ArgDefault = true ∧ j ∉ found then
      default_entry d :: default_entries found rest (j + 1)
    else default_entries found rest (j + 1)

/-- The descriptor list, from index `j` on, with the found mark set on the
descriptors whose index is in `found`. -/
def mark_found (found : List Nat) : List arg_desc → Nat → List arg_desc
  | [], _ => []
  | d :: rest, j =>
    (if j ∈ found then { d with flgs := d.flgs ||| ArgFound } else d) ::
      mark_found found rest (j + 1)

/-- Read of the byte `s[i]` of a C string with bounds check: `none` when `i` is
past the terminator. -/
def read_char (s : CStr) (i : Nat) : Option Nat :=
  if i ≤ s.length then some (charAt s i) else none

/-- Read of the token `(*argv)[i]` with bounds check: `none` when `i` is not in
`[0, *argc)`. -/
def read_token (argv : List CStr) (i : Nat) : Option CStr := argv[i]?

/-- The loop of `str_arg_cmp(lhs, val + off)` with every byte read checked;
`n` iterations are left, `i` is the loop index. -/
def str_arg_cmp_checked (lhs val : CStr) (off : Nat) : Nat → Nat → Option Nat
  | 0, _ => some 0
  | n + 1, i =>
    if i < lhs.length ∧ i < val.length - off then
      (read_char lhs i).bind fun l =>
      (read_char val (off + i)).bind fun r =>
        let lhs_c := tolower l
        let rhs_c := tolower r
        let lhs_c := if lhs_c = 95 then 45 else lhs_c
        let rhs_c := if rhs_c = 95 then 45 else rhs_c
        if lhs_c ≠ rhs_c then some (i + 1) else str_arg_cmp_checked lhs val off n (i + 1)
    else some 0

/-- The function `arg_name_cmp` with every read of the token checked, the
conditions evaluated left to right as `&&` and `||` do. -/
def arg_name_cmp_checked (arg_name : CStr) (short_name : Nat) (val_for_comp : CStr) :
    Option Nat :=
  let arg_len := arg_name.length
  let val_len := val_for_comp.length
  (if val_len ≥ 2 then
    (read_char val_for_comp 0).bind fun c0 =>
      if c0 = 45 then
        (read_char val_for_comp 1).bind fun c1 =>
          if c1 = short_name then
            if val_len = 2 then some true
            else (read_char val_for_comp 2).map fun c2 => decide (c2 = 61)
          else some false
      else some false
   else some false).bind fun is_short =>
  if is_short then some 0
  else if arg_len + 2 > val_len then some 1
  else
    (read_char val_for_comp 0).bind fun c0 =>
    (if c0 ≠ 45 then (read_char val_for_comp 1).map fun c1 => decide (c1 ≠ 45)
     else some false).bind fun no_hyphens =>
    if no_hyphens then some 2
    else
      (if val_len > arg_len + 2 then
        (read_char val_for_comp (arg_len + 2)).map fun c => decide (c ≠ 61)
       else some false).bind fun longer =>
      if longer then some 3
      else
        (if 2 ≤ val_len then str_arg_cmp_checked arg_name val_for_comp 2 arg_len 0
         else none).bind fun cmp =>
        if cmp ≠ 0 then some 4 else some 0
/-- The descriptor loop of `arg_parser_parse` over the checked comparison;
the outer `none` is a read outside the token. -/
def find_arg_checked (flag : CStr) : List arg_desc → Nat → Option (Option (Nat × arg_desc))
  | [], _ => some none
  | arg :: rest, arg_iter =>
    (arg_name_cmp_checked arg.name arg.shrt flag).bind fun c =>
      if c = 0 then some (some (arg_iter, arg)) else find_arg_checked flag rest (arg_iter + 1)

/-- Lines 687-705 of `arg_parser_parse` with the look-ahead `(*argv)[val_iter + 1]`
checked; the outer `none` is an access outside `[0, *argc)`, the inner `none`
the jump to `NoValueForFlag`. -/
def source_value_checked (type : ArgType) (flag : CStr) (argv : List CStr) (val_iter : Nat) :
    Option (Option (CStr × Nat)) :=
  match strstr_eq flag with
  | some r => some (some (r.tail, 1))
  | none =>
    if val_iter + 1 = argv.length ∧ type ≠ ArgBool then some none
    else if type ≠ ArgBool then
      (read_token argv (val_iter + 1)).map fun next => some (next, 2)
    else if val_iter + 1 = argv.length then some (some (str_true, 1))
    else
      (read_token argv (val_iter + 1)).bind fun next =>
        (read_char next 0).map fun c => if c = 45 then some (str_true, 1) else some (next, 2)

/-- The compaction loop `for (i = val_iter; i < *argc - counter; ++i)
(*argv)[i] = (*argv)[i + counter]` with the read and the write checked; `n`
iterations are left. -/
def shift_checked (counter : Nat) : Nat → Nat → List CStr → Option (List CStr)
  | 0, _, argv => some argv
  | n + 1, i, argv =>
    (read_token argv (i + counter)).bind fun v =>
      if i < argv.length then shift_checked counter n (i + 1) (argv.set i v) else none

/-- End of an iteration with the compaction loop as it is written, followed by
`*argc -= counter`. -/
def advance_checked (remove : Bool) (argv : List CStr) (val_iter counter : Nat) :
    Option (List CStr × Nat) :=
  if remove then
    (shift_checked counter (argv.length - counter - val_iter) val_iter argv).map fun a =>
      (a.take (argv.length - counter), val_iter)
  else some (argv, val_iter + counter)

/-- Body of the scan loop with every access to `argv` and to the token
checked; `none` is an access out of bounds. -/
def scan_step_checked (L : Libc) (ignore remove : Bool) (parser : arg_parser_t)
    (argv : List CStr) (val_iter : Nat) : Option Step :=
  (read_token argv val_iter).bind fun flag =>
  (read_char flag 0).bind fun c =>
  if c ≠ 45 then some (.next parser argv (val_iter + 1))
  else
    (find_arg_checked flag parser.alist 0).bind fun found =>
    match found with
    | none =>
      if ignore = false then some (.fail 2 parser argv)
      else (advance_checked remove argv val_iter 1).map fun x => .next parser x.1 x.2
    | some (arg_iter, arg) =>
      (source_value_checked arg.type flag argv val_iter).bind fun sourced =>
      match sourced with
      | none => some (.fail 1 parser argv)
      | some (retval, counter) =>
        if (convert L arg.type retval).2 = false then
          some (.fail 4
            { parser with
              rlist := parser.rlist ++
                [{ name := arg.name, rval := (convert L arg.type retval).1,
                   type := arg.type }] } argv)
        else
          (advance_checked remove argv val_iter counter).map fun x =>
            .next { alist := parser.alist.set arg_iter { arg with flgs := arg.flgs ||| ArgFound },
                    rlist := parser.rlist ++
                      [{ name := arg.name, rval := (convert L arg.type retval).1,
                         type := arg.type }] } x.1 x.2

/-- The scan loop over the checked body: the outer `none` is an access out of
bounds, the inner `none` is the fuel running out. -/
def scan_loop_checked (L : Libc) (ignore remove : Bool) :
    Nat → arg_parser_t → List CStr → Nat → Option (Option Scan)
  | fuel, parser, argv, val_iter =>
    if argv.length ≤ val_iter then some (some (.done parser argv))
    else
      match fuel with
      | 0 => some none
      | fuel + 1 =>
        match scan_step_checked L ignore remove parser argv val_iter with
        | none => none
        | some (.fail code parser1 argv1) => some (some (.fail code parser1 argv1))
        | some (.next parser1 argv1 val_iter1) =>
          scan_loop_checked L ignore remove fuel parser1 argv1 val_iter1

/-- The descriptor at index `k` is the first match of a token of the input
whose value converted: the token at some index `j >= 1` begins with `-`, the
descriptor search on the registry before the call stops at `k`, and the value
text sourced for the token passes the conversion of the descriptor's type. -/
def first_match_converted (L : Libc) (parser : arg_parser_t) (argv : List CStr) (k : Nat)
    (d : arg_desc) : Prop :=
  ∃ j retval counter, 1 ≤ j ∧ j < argv.length ∧ charAt (argvAt argv j) 0 = 45 ∧
    find_arg (argvAt argv j) parser.alist 0 = some (k, d) ∧
    source_value d.type (argvAt argv j) argv j = some (retval, counter) ∧
    (convert L d.type retval).2 = true

/-- The value that the empty text leaves in an entry of a numeric or boolean
flag: 0, and false for a boolean. -/
def empty_value : ArgType → ArgUnion
  | ArgBool => .val_bool false
  | ArgInt => .val_int 0
  | ArgLong => .val_long 0
  | _ => .val_ll 0

/-! ## The scan loop: one iteration, termination -/

theorem found_after_mark (f : Nat) : has_flag (f ||| ArgFound) ArgFound = true := by
  have h : (f ||| ArgFound) &&& ArgFound = ArgFound := by
    apply Nat.eq_of_testBit_eq
    intro i
    simp only [Nat.testBit_and, Nat.testBit_or]
    cases f.testBit i <;> simp
  unfold has_flag
  rw [h]; decide

theorem scan_step_positional (L : Libc) (ignore remove : Bool) (parser : arg_parser_t)
    (argv : List CStr) (val_iter : Nat) (h : charAt (argvAt argv val_iter) 0 ≠ 45) :
    scan_step L ignore remove parser argv val_iter = .next parser argv (val_iter + 1) := by
  simp only [scan_step, h, ne_eq, not_false_eq_true, if_true]

theorem scan_step_unknown (L : Libc) (ignore remove : Bool) (parser : arg_parser_t)
    (argv : List CStr) (val_iter : Nat) (h : charAt (argvAt argv val_iter) 0 = 45)
    (hf : find_arg (argvAt argv val_iter) parser.alist 0 = none) :
    scan_step L ignore remove parser argv val_iter =
      if ignore = false then .fail 2 parser argv
      else .next parser (advance remove argv val_iter 1).1 (advance remove argv val_iter 1).2 := by
  simp only [scan_step, h, hf, ne_eq, not_true_eq_false, if_false]

theorem scan_step_novalue (L : Libc) (ignore remove : Bool) (parser : arg_parser_t)
    (argv : List CStr) (val_iter : Nat) (h : charAt (argvAt argv val_iter) 0 = 45)
    {arg_iter : Nat} {arg : arg_desc}
    (hf : find_arg (argvAt argv val_iter) parser.alist 0 = some (arg_iter, arg))
    (hs : source_value arg.type (argvAt argv val_iter) argv val_iter = none) :
    scan_step L ignore remove parser argv val_iter = .fail 1 parser argv := by
  simp only [scan_step, h, hf, hs, ne_eq, not_true_eq_false, if_false]

theorem scan_step_matched (L : Libc) (ignore remove : Bool) (parser : arg_parser_t)
    (argv : List CStr) (val_iter : Nat) (h : charAt (argvAt argv val_iter) 0 = 45)
    {arg_iter : Nat} {arg : arg_desc} {retval : CStr} {counter : Nat}
    (hf : find_arg (argvAt argv val_iter) parser.alist 0 = some (arg_iter, arg))
    (hs : source_value arg.type (argvAt argv val_iter) argv val_iter = some (retval, counter)) :
    scan_step L ignore remove parser argv val_iter =
      store_value L remove parser argv val_iter arg_iter arg retval counter := by
  simp only [scan_step, h, hf, hs, ne_eq, not_true_eq_false, if_false]

theorem source_value_counter {type : ArgType} {flag : CStr} {argv : List CStr} {val_iter : Nat}
    {retval : CStr} {counter : Nat}
    (h : source_value type flag argv val_iter = some (retval, counter)) :
    counter = 1 ∨ (counter = 2 ∧ val_iter + 1 ≠ argv.length) := by
  unfold source_value at h
  split at h
  · simp at h; omega
  · split_ifs at h with h1 h2 h3 <;> simp at h
    · right; refine ⟨by omega, ?_⟩; intro hl; exact h1 ⟨hl, h2⟩
    · omega
    · right; refine ⟨by omega, ?_⟩; intro hl; exact h3 (Or.inl hl)

theorem advance_measure (remove : Bool) (argv : List CStr) (val_iter counter : Nat)
    (hi : val_iter < argv.length) (hc : 1 ≤ counter) (hb : val_iter + counter ≤ argv.length) :
    (advance remove argv val_iter counter).1.length - (advance remove argv val_iter counter).2
      < argv.length - val_iter := by
  unfold advance
  cases remove <;> simp <;> omega

/-- Every way `scan_step` continues: the token was positional, an ignored
unknown flag, or a matched flag whose value converted. -/
theorem scan_step_next_cases {L : Libc} {ignore remove : Bool} {parser parser1 : arg_parser_t}
    {argv argv1 : List CStr} {val_iter val_iter1 : Nat}
    (h : scan_step L ignore remove parser argv val_iter = .next parser1 argv1 val_iter1) :
    (charAt (argvAt argv val_iter) 0 ≠ 45 ∧ parser1 = parser ∧ argv1 = argv ∧
        val_iter1 = val_iter + 1) ∨
    (charAt (argvAt argv val_iter) 0 = 45 ∧
        find_arg (argvAt argv val_iter) parser.alist 0 = none ∧ ignore = true ∧
        parser1 = parser ∧ argv1 = (advance remove argv val_iter 1).1 ∧
        val_iter1 = (advance remove argv val_iter 1).2) ∨
    (∃ arg_iter arg retval counter,
        charAt (argvAt argv val_iter) 0 = 45 ∧
        find_arg (argvAt argv val_iter) parser.alist 0 = some (arg_iter, arg) ∧
        source_value arg.type (argvAt argv val_iter) argv val_iter = some (retval, counter) ∧
        (convert L arg.type retval).2 = true ∧
        parser1 = { alist := parser.alist.set arg_iter { arg with flgs := arg.flgs ||| ArgFound },
                    rlist := parser.rlist ++
                      [{ name := arg.name, rval := (convert L arg.type retval).1,
                         type := arg.type }] } ∧
        argv1 = (advance remove argv val_iter counter).1 ∧
        val_iter1 = (advance remove argv val_iter counter).2) := by
  by_cases hc : charAt (argvAt argv val_iter) 0 = 45
  · cases hf : find_arg (argvAt argv val_iter) parser.alist 0 with
    | none =>
      rw [scan_step_unknown L ignore remove parser argv val_iter hc hf] at h
      cases ignore
      · simp at h
      · simp at h
        right; left
        exact ⟨hc, rfl, rfl, h.1.symm, h.2.1.symm, h.2.2.symm⟩
    | some ka =>
      obtain ⟨k, arg⟩ := ka
      cases hs : source_value arg.type (argvAt argv val_iter) argv val_iter with
      | none =>
        rw [scan_step_novalue L ignore remove parser argv val_iter hc hf hs] at h
        simp at h
      | some rc =>
        obtain ⟨retval, counter⟩ := rc
        rw [scan_step_matched L ignore remove parser argv val_iter hc hf hs] at h
        unfold store_value at h
        simp only at h
        cases hcv : (convert L arg.type retval).2
        · simp [hcv] at h
        · simp [hcv] at h
          right; right
          exact ⟨k, arg, retval, counter, hc, rfl, hs, hcv, h.1.symm, h.2.1.symm, h.2.2.symm⟩
  · left
    rw [scan_step_positional L ignore remove parser argv val_iter hc] at h
    simp at h
    exact ⟨hc, h.1.symm, h.2.1.symm, h.2.2.symm⟩

theorem scan_step_measure {L : Libc} {ignore remove : Bool} {parser parser1 : arg_parser_t}
    {argv argv1 : List CStr} {val_iter val_iter1 : Nat} (hi : val_iter < argv.length)
    (h : scan_step L ignore remove parser argv val_iter = .next parser1 argv1 val_iter1) :
    argv1.length - val_iter1 < argv.length - val_iter := by
  rcases scan_step_next_cases h with ⟨-, -, rfl, rfl⟩ | ⟨-, -, -, -, rfl, rfl⟩ |
    ⟨k, arg, retval, counter, -, -, hs, -, -, rfl, rfl⟩
  · omega
  · exact advance_measure _ _ _ _ hi (le_refl 1) (by omega)
  · rcases source_value_counter hs with rfl | ⟨rfl, h2⟩
    · exact advance_measure _ _ _ _ hi (le_refl 1) (by omega)
    · exact advance_measure _ _ _ _ hi (by omega) (by omega)

theorem scan_loop_fuel (L : Libc) (ignore remove : Bool) :
    ∀ (fuel : Nat) (parser : arg_parser_t) (argv : List CStr) (val_iter : Nat),
      argv.length - val_iter ≤ fuel →
      ∃ r, scan_loop L ignore remove fuel parser argv val_iter = some r := by
  intro fuel
  induction fuel with
  | zero =>
    intro parser argv val_iter h
    unfold scan_loop
    simp; omega
  | succ fuel ih =>
    intro parser argv val_iter h
    unfold scan_loop
    by_cases hlen : argv.length ≤ val_iter
    · simp [hlen]
    · simp only [hlen, if_false]
      cases hs : scan_step L ignore remove parser argv val_iter with
      | fail code p1 a1 => simp
      | next p1 a1 i1 =>
        simp only
        have := scan_step_measure (by omega) hs
        exact ih p1 a1 i1 (by omega)

/-- Every way `scan_step` fails: unknown flag (2), missing value (1) or a
conversion error (4), the last one after the entry was appended. -/
theorem scan_step_fail_cases {L : Libc} {ignore remove : Bool} {parser parser1 : arg_parser_t}
    {argv argv1 : List CStr} {val_iter code : Nat}
    (h : scan_step L ignore remove parser argv val_iter = .fail code parser1 argv1) :
    charAt (argvAt argv val_iter) 0 = 45 ∧ argv1 = argv ∧ parser1.alist = parser.alist ∧
    ((code = 2 ∧ ignore = false ∧ find_arg (argvAt argv val_iter) parser.alist 0 = none ∧
        parser1 = parser) ∨
     (∃ arg_iter arg, code = 1 ∧
        find_arg (argvAt argv val_iter) parser.alist 0 = some (arg_iter, arg) ∧
        source_value arg.type (argvAt argv val_iter) argv val_iter = none ∧ parser1 = parser) ∨
     (∃ arg_iter arg retval counter, code = 4 ∧
        find_arg (argvAt argv val_iter) parser.alist 0 = some (arg_iter, arg) ∧
        source_value arg.type (argvAt argv val_iter) argv val_iter = some (retval, counter) ∧
        (convert L arg.type retval).2 = false ∧
        parser1.rlist = parser.rlist ++
          [{ name := arg.name, rval := (convert L arg.type retval).1, type := arg.type }])) := by
  by_cases hc : charAt (argvAt argv val_iter) 0 = 45
  · cases hf : find_arg (argvAt argv val_iter) parser.alist 0 with
    | none =>
      rw [scan_step_unknown L ignore remove parser argv val_iter hc hf] at h
      cases ignore
      · simp at h
        obtain ⟨rfl, rfl, rfl⟩ := h
        exact ⟨hc, rfl, rfl, Or.inl ⟨rfl, rfl, rfl, rfl⟩⟩
      · simp at h
    | some ka =>
      obtain ⟨k, arg⟩ := ka
      cases hs : source_value arg.type (argvAt argv val_iter) argv val_iter with
      | none =>
        rw [scan_step_novalue L ignore remove parser argv val_iter hc hf hs] at h
        simp at h
        obtain ⟨rfl, rfl, rfl⟩ := h
        exact ⟨hc, rfl, rfl, Or.inr (Or.inl ⟨k, arg, rfl, rfl, hs, rfl⟩)⟩
      | some rc =>
        obtain ⟨retval, counter⟩ := rc
        rw [scan_step_matched L ignore remove parser argv val_iter hc hf hs] at h
        unfold store_value at h
        simp only at h
        cases hcv : (convert L arg.type retval).2
        · simp [hcv] at h
          obtain ⟨rfl, rfl, rfl⟩ := h
          exact ⟨hc, rfl, rfl, Or.inr (Or.inr ⟨k, arg, retval, counter, rfl, rfl, hs, hcv, rfl⟩)⟩
        · simp [hcv] at h
  · rw [scan_step_positional L ignore remove parser argv val_iter hc] at h
    simp at h

/-- Loop invariant rule for the scan: an invariant kept by every continuing
iteration holds in the state the loop ends in, or in the state whose
iteration failed. -/
theorem scan_loop_invariant {L : Libc} {ignore remove : Bool}
    (Inv : arg_parser_t → List CStr → Nat → Prop)
    (hstep : ∀ parser argv val_iter parser1 argv1 val_iter1, Inv parser argv val_iter →
      val_iter < argv.length →
      scan_step L ignore remove parser argv val_iter = .next parser1 argv1 val_iter1 →
      Inv parser1 argv1 val_iter1) :
    ∀ (fuel : Nat) (parser : arg_parser_t) (argv : List CStr) (val_iter : Nat) (r : Scan),
      Inv parser argv val_iter →
      scan_loop L ignore remove fuel parser argv val_iter = some r →
      ∃ parser0 argv0 val_iter0, Inv parser0 argv0 val_iter0 ∧
        ((argv0.length ≤ val_iter0 ∧ r = .done parser0 argv0) ∨
         (val_iter0 < argv0.length ∧ ∃ code parser1 argv1,
            scan_step L ignore remove parser0 argv0 val_iter0 = .fail code parser1 argv1 ∧
            r = .fail code parser1 argv1)) := by
  intro fuel
  induction fuel with
  | zero =>
    intro parser argv val_iter r hinv h
    unfold scan_loop at h
    by_cases hlen : argv.length ≤ val_iter
    · simp [hlen] at h
      exact ⟨parser, argv, val_iter, hinv, Or.inl ⟨hlen, h.symm⟩⟩
    · simp [hlen] at h
  | succ fuel ih =>
    intro parser argv val_iter r hinv h
    unfold scan_loop at h
    by_cases hlen : argv.length ≤ val_iter
    · simp [hlen] at h
      exact ⟨parser, argv, val_iter, hinv, Or.inl ⟨hlen, h.symm⟩⟩
    · simp only [hlen, if_false] at h
      cases hs : scan_step L ignore remove parser argv val_iter with
      | fail code p1 a1 =>
        simp only [hs, Option.some.injEq] at h
        exact ⟨parser, argv, val_iter, hinv, Or.inr ⟨by omega, code, p1, a1, hs, h.symm⟩⟩
      | next p1 a1 i1 =>
        simp only [hs] at h
        exact ih p1 a1 i1 r (hstep parser argv val_iter p1 a1 i1 hinv (by omega) hs) h

/-- The two ways `arg_parser_parse` returns: the scan failed, or it ended and
the default/required pass produced the code. It always returns. -/
theorem arg_parser_parse_cases (L : Libc) (parser : arg_parser_t) (argv : List CStr)
    (ignore remove : Bool) :
    (∃ code parser1 argv1,
        scan_loop L ignore remove argv.length parser argv 1 = some (.fail code parser1 argv1) ∧
        arg_parser_parse L parser argv ignore remove =
          some { code := code, parser := parser1, argv := argv1 }) ∨
    (∃ parser1 argv1,
        scan_loop L ignore remove argv.length parser argv 1 = some (.done parser1 argv1) ∧
        arg_parser_parse L parser argv ignore remove =
          some { code := (defaults_loop parser1.alist parser1.rlist).1,
                 parser := { parser1 with rlist := (defaults_loop parser1.alist parser1.rlist).2 },
                 argv := argv1 }) := by
  obtain ⟨r, hr⟩ := scan_loop_fuel L ignore remove argv.length parser argv 1 (by omega)
  cases r with
  | done p1 a1 => right; exact ⟨p1, a1, hr, by simp [arg_parser_parse, hr]⟩
  | fail code p1 a1 => left; exact ⟨code, p1, a1, hr, by simp [arg_parser_parse, hr]⟩

theorem advance_keep (argv : List CStr) (val_iter counter : Nat) :
    advance false argv val_iter counter = (argv, val_iter + counter) := by
  simp [advance]

theorem scan_loop_keep_argv {L : Libc} {ignore : Bool} {fuel : Nat} {parser : arg_parser_t}
    {argv : List CStr} {val_iter : Nat} {r : Scan}
    (h : scan_loop L ignore false fuel parser argv val_iter = some r) :
    (∀ parser1 argv1, r = .done parser1 argv1 → argv1 = argv) ∧
    (∀ code parser1 argv1, r = .fail code parser1 argv1 → argv1 = argv) := by
  obtain ⟨p0, a0, i0, hinv, hcase⟩ :=
    @scan_loop_invariant L ignore false
      (fun _ a _ => a = argv)
      (by
        intro p a i p1 a1 i1 hinv _ hs
        rcases scan_step_next_cases hs with ⟨-, -, rfl, -⟩ | ⟨-, -, -, -, rfl, -⟩ |
          ⟨_, _, _, _, -, -, -, -, -, rfl, -⟩
        · exact hinv
        · simpa [advance_keep] using hinv
        · simpa [advance_keep] using hinv)
      fuel parser argv val_iter r rfl h
  subst hinv
  rcases hcase with ⟨-, rfl⟩ | ⟨-, code, p1, a1, hs, rfl⟩
  · constructor
    · intro _ _ h; cases h; rfl
    · intro _ _ _ h; cases h
  · constructor
    · intro _ _ h; cases h
    · intro _ _ _ h; cases h
      exact (scan_step_fail_cases hs).2.1

theorem argvAt_eq_head_drop (argv : List CStr) (i : Nat) :
    argvAt argv i = (argv.drop i).headD [] := by
  induction argv generalizing i with
  | nil => simp [argvAt]
  | cons a as ih =>
    cases i with
    | zero => simp [argvAt]
    | succ i => simp [argvAt]

theorem argvAt_lt_of_flag {argv : List CStr} {i : Nat} (h : charAt (argvAt argv i) 0 = 45) :
    i < argv.length := by
  by_contra hlt
  have : argvAt argv i = [] := by
    unfold argvAt
    exact List.getD_eq_default _ _ (by omega)
  rw [this] at h
  simp [charAt] at h

theorem advance_drop (remove : Bool) (argv : List CStr) (val_iter counter : Nat)
    (hi : val_iter ≤ argv.length) :
    (advance remove argv val_iter counter).1.drop (advance remove argv val_iter counter).2 =
      argv.drop (val_iter + counter) := by
  cases remove
  · simp [advance]
  · simp only [advance, if_true]
    rw [List.drop_append_of_le_length (by simp; omega)]
    rw [List.drop_eq_nil_of_le (by simp)]
    simp

theorem advance_take (remove : Bool) (argv : List CStr) (val_iter counter : Nat)
    (hi : val_iter ≤ argv.length) :
    (advance remove argv val_iter counter).1.take (advance remove argv val_iter counter).2 =
      if remove then argv.take val_iter else argv.take (val_iter + counter) := by
  cases remove
  · simp [advance]
  · simp only [advance, if_true]
    rw [List.take_append_of_le_length (by simp; omega)]
    simp [List.take_take]

/-! ## Result store: counting and typed retrieval -/

theorem count_foldl_eq (name : CStr) (rlist : List arg_rval) (n : Nat) :
    rlist.foldl (fun count arg => if name_matches arg.name name then count + 1 else count) n =
      n + (matching_values rlist name).length := by
  induction rlist generalizing n with
  | nil => simp [matching_values]
  | cons e rest ih =>
    simp only [List.foldl_cons]
    rw [ih]
    by_cases h : name_matches e.name name = true
    · simp [matching_values, h, List.filter_cons]; omega
    · simp [matching_values, h, List.filter_cons]

theorem arg_parser_count_eq (parser : arg_parser_t) (name : CStr) :
    arg_parser_count parser name = (matching_values parser.rlist name).length := by
  simp [arg_parser_count, count_foldl_eq]

theorem matching_values_append (l1 l2 : List arg_rval) (name : CStr) :
    matching_values (l1 ++ l2) name = matching_values l1 name ++ matching_values l2 name := by
  simp [matching_values]

theorem take_succ_set {α : Type} (l : List α) (i : Nat) (a : α) (h : i < l.length) :
    (l.set i a).take (i + 1) = l.take i ++ [a] := by
  rw [List.set_eq_take_append_cons_drop, if_pos h, List.take_append_eq_append_take]
  simp [List.take_take, Nat.min_eq_left (Nat.le_of_lt h)]

theorem get_args_loop_spec (name : CStr) (type : ArgType) (n : Nat) :
    ∀ (rlist : List arg_rval) (retval : Nat) (val : List ArgUnion),
      (∀ e ∈ rlist, name_matches e.name name = true → e.type = type) →
      retval ≤ n → n ≤ val.length →
      get_args_loop name type (n : Int) rlist retval val =
        (((retval + min (n - retval) (matching_values rlist name).length : Nat) : Int),
          val.take retval ++
            (matching_values rlist name).take (min (n - retval) (matching_values rlist name).length)
            ++ val.drop (retval + min (n - retval) (matching_values rlist name).length)) := by
  intro rlist
  induction rlist with
  | nil =>
    intro retval val _ _ _
    simp [get_args_loop, matching_values]
  | cons e rest ih =>
    intro retval val htype hle hbuf
    have htype' : ∀ e ∈ rest, name_matches e.name name = true → e.type = type :=
      fun x hx => htype x (List.mem_cons_of_mem _ hx)
    unfold get_args_loop
    by_cases hlt : (retval : Int) < (n : Int)
    · have hlt' : retval < n := by omega
      simp only [hlt, if_true]
      by_cases hm : name_matches e.name name = true
      · have hty : type = e.type := (htype e (List.mem_cons_self _ _) hm).symm
        simp only [hm, if_true, ne_eq, hty, not_true_eq_false, if_false]
        rw [← hty, ih (retval + 1) (val.set retval e.rval) htype' (by omega) (by simpa using hbuf)]
        have hmv : matching_values (e :: rest) name = e.rval :: matching_values rest name := by
          simp [matching_values, List.filter_cons, hm]
        rw [hmv]
        have hmin : min (n - retval) (e.rval :: matching_values rest name).length =
            min (n - (retval + 1)) (matching_values rest name).length + 1 := by
          simp only [List.length_cons]; omega
        rw [hmin]
        refine Prod.ext (by simp; omega) ?_
        simp only [List.take_succ_cons]
        have h1 : (val.set retval e.rval).take (retval + 1) = val.take retval ++ [e.rval] :=
          take_succ_set val retval e.rval (by omega)
        have h2 : (val.set retval e.rval).drop
              (retval + 1 + min (n - (retval + 1)) (matching_values rest name).length) =
            val.drop (retval + (min (n - (retval + 1)) (matching_values rest name).length + 1)) := by
          rw [List.drop_set_of_lt _ _ (by omega)]
          congr 1; omega
        rw [h1, h2]
        simp
      · have hmv : matching_values (e :: rest) name = matching_values rest name := by
          simp [matching_values, List.filter_cons, hm]
        simp only [hm, Bool.false_eq_true, if_false]
        rw [ih retval val htype' hle hbuf, hmv]
    · have : n - retval = 0 := by omega
      simp [hlt, this]

/-! ## Names: comparison and normalization -/

theorem norm_char_eq (c : Nat) :
    (if tolower c = 95 then 45 else tolower c) = (if c = 95 then 45 else tolower c) := by
  unfold tolower
  split_ifs <;> omega

theorem str_arg_cmp_from_eq_zero_iff :
    ∀ (lhs rhs : CStr) (i : Nat),
      str_arg_cmp_from i lhs rhs = 0 ↔
        str_to_arg_name (lhs.take rhs.length) = str_to_arg_name (rhs.take lhs.length) := by
  intro lhs
  induction lhs with
  | nil => intro rhs i; cases rhs <;> simp [str_arg_cmp_from, str_to_arg_name]
  | cons l ls ih =>
    intro rhs i
    cases rhs with
    | nil => simp [str_arg_cmp_from, str_to_arg_name]
    | cons r rs =>
      simp only [str_arg_cmp_from, norm_char_eq, ne_eq, ite_not]
      by_cases h : (if l = 95 then 45 else tolower l) = (if r = 95 then 45 else tolower r)
      · rw [if_pos h, ih rs (i + 1)]
        simp [str_to_arg_name, h]
      · rw [if_neg h]
        simp [str_to_arg_name, h]

theorem str_to_arg_name_length (name : CStr) : (str_to_arg_name name).length = name.length := by
  simp [str_to_arg_name]

theorem name_matches_iff (arg_name name : CStr) :
    name_matches arg_name name = true ↔ str_to_arg_name arg_name = str_to_arg_name name := by
  unfold name_matches str_arg_cmp
  simp only [Bool.and_eq_true, decide_eq_true_eq]
  constructor
  · rintro ⟨hlen, hcmp⟩
    rw [str_arg_cmp_from_eq_zero_iff, ← hlen, List.take_length, hlen, List.take_length] at hcmp
    exact hcmp
  · intro h
    have hlen : arg_name.length = name.length := by
      have := congrArg List.length h
      simpa [str_to_arg_name_length] using this
    refine ⟨hlen, ?_⟩
    rw [str_arg_cmp_from_eq_zero_iff, ← hlen, List.take_length, hlen, List.take_length]
    exact h

theorem name_matches_canonical {arg_name name : CStr}
    (h1 : str_to_arg_name arg_name = arg_name) (h2 : str_to_arg_name name = name) :
    name_matches arg_name name = true ↔ arg_name = name := by
  rw [name_matches_iff, h1, h2]

theorem name_matches_self (name : CStr) : name_matches name name = true :=
  (name_matches_iff name name).mpr rfl

/-! ## The descriptor search -/

theorem find_arg_some {flag : CStr} :
    ∀ {alist : List arg_desc} {start arg_iter : Nat} {arg : arg_desc},
      find_arg flag alist start = some (arg_iter, arg) →
      start ≤ arg_iter ∧ alist[arg_iter - start]? = some arg ∧
        arg_name_cmp arg.name arg.shrt flag = 0 ∧
        ∀ j d, j < arg_iter - start → alist[j]? = some d →
          arg_name_cmp d.name d.shrt flag ≠ 0 := by
  intro alist
  induction alist with
  | nil => intro start k arg h; simp [find_arg] at h
  | cons a rest ih =>
    intro start k arg h
    unfold find_arg at h
    by_cases hm : arg_name_cmp a.name a.shrt flag = 0
    · simp only [hm, if_true, Option.some.injEq, Prod.mk.injEq] at h
      obtain ⟨rfl, rfl⟩ := h
      refine ⟨le_refl _, by simp, hm, ?_⟩
      intro j d hj
      simp at hj
    · simp only [hm, if_false] at h
      obtain ⟨h1, h2, h3, h4⟩ := ih h
      have hk : k - start = (k - (start + 1)) + 1 := by omega
      refine ⟨by omega, ?_, h3, ?_⟩
      · rw [hk]; simpa using h2
      · intro j d hj hd
        cases j with
        | zero => simp at hd; subst hd; exact hm
        | succ j => exact h4 j d (by omega) (by simpa using hd)

theorem find_arg_none_iff {flag : CStr} :
    ∀ {alist : List arg_desc} {start : Nat},
      find_arg flag alist start = none ↔
        ∀ d ∈ alist, arg_name_cmp d.name d.shrt flag ≠ 0 := by
  intro alist
  induction alist with
  | nil => intro start; simp [find_arg]
  | cons a rest ih =>
    intro start
    unfold find_arg
    by_cases hm : arg_name_cmp a.name a.shrt flag = 0
    · simp [hm]
    · simp [hm, ih]

/-! ## The default and required pass -/

theorem defaults_loop_code_zero_iff (alist : List arg_desc) (rlist : List arg_rval) :
    (defaults_loop alist rlist).1 = 0 ↔ ∀ d ∈ alist, missing_required d = false := by
  induction alist generalizing rlist with
  | nil => simp [defaults_loop]
  | cons a rest ih =>
    unfold defaults_loop
    cases hf : has_flag a.flgs ArgFound <;> cases hd : has_flag a.flgs ArgDefault <;>
      cases hr : has_flag a.flgs ArgRequired <;> simp [hf, hd, hr, ih, missing_required]

theorem defaults_loop_code_three (alist : List arg_desc) (rlist : List arg_rval) :
    (defaults_loop alist rlist).1 = 3 ↔ ∃ d ∈ alist, missing_required d = true := by
  induction alist generalizing rlist with
  | nil => simp [defaults_loop]
  | cons a rest ih =>
    unfold defaults_loop
    cases hf : has_flag a.flgs ArgFound <;> cases hd : has_flag a.flgs ArgDefault <;>
      cases hr : has_flag a.flgs ArgRequired <;> simp [hf, hd, hr, ih, missing_required]

theorem defaults_loop_rlist (alist : List arg_desc) (rlist : List arg_rval)
    (h : (defaults_loop alist rlist).1 = 0) :
    (defaults_loop alist rlist).2 =
      rlist ++ (alist.filter pending_default).map default_entry := by
  induction alist generalizing rlist with
  | nil => simp [defaults_loop]
  | cons a rest ih =>
    unfold defaults_loop at h ⊢
    cases hf : has_flag a.flgs ArgFound <;> cases hd : has_flag a.flgs ArgDefault <;>
      cases hr : has_flag a.flgs ArgRequired <;>
      simp only [hf, hd, hr, if_true, if_false, Bool.false_eq_true, Bool.true_eq_false] at h ⊢ <;>
      first
        | (rw [ih _ h]; simp [List.filter_cons, pending_default, hf, hd, default_entry])
        | simp at h

theorem defaults_loop_prefix (alist : List arg_desc) (rlist : List arg_rval) :
    ∃ added, (defaults_loop alist rlist).2 = rlist ++ added ∧
      ∀ e ∈ added, ∃ d ∈ alist, pending_default d = true ∧ e = default_entry d := by
  induction alist generalizing rlist with
  | nil => exact ⟨[], by simp [defaults_loop]⟩
  | cons a rest ih =>
    have lift : ∀ rl, ∃ added, (defaults_loop rest rl).2 = rl ++ added ∧
        ∀ e ∈ added, ∃ d ∈ a :: rest, pending_default d = true ∧ e = default_entry d := by
      intro rl
      obtain ⟨added, h1, h2⟩ := ih rl
      exact ⟨added, h1, fun e he => by
        obtain ⟨d, hd1, hd2⟩ := h2 e he
        exact ⟨d, List.mem_cons_of_mem _ hd1, hd2⟩⟩
    unfold defaults_loop
    cases hf : has_flag a.flgs ArgFound
    · cases hd : has_flag a.flgs ArgDefault
      · cases hr : has_flag a.flgs ArgRequired
        · simpa [hf, hd, hr] using lift rlist
        · exact ⟨[], by simp [hf, hd, hr]⟩
      · simp only [if_true]
        obtain ⟨added, h1, h2⟩ :=
          lift (rlist ++ [{ name := a.name, rval := a.dval, type := a.type }])
        refine ⟨{ name := a.name, rval := a.dval, type := a.type } :: added, by simp [h1], ?_⟩
        intro e he
        rcases List.mem_cons.mp he with rfl | he
        · exact ⟨a, List.mem_cons_self _ _, by simp [pending_default, hf, hd], rfl⟩
        · exact h2 e he
    · simpa [hf] using lift rlist

/-! ## What the scan does to the registry -/

theorem argvAt_mem_drop {argv : List CStr} {i : Nat} (h1 : 1 ≤ i) (h2 : i < argv.length) :
    argvAt argv i ∈ argv.drop 1 := by
  cases argv with
  | nil => simp at h2
  | cons x xs =>
    cases i with
    | zero => omega
    | succ j =>
      simp only [List.length_cons] at h2
      have hj : j < xs.length := by omega
      simp [argvAt, List.getD_eq_getElem?_getD, List.getElem?_eq_getElem hj]

theorem advance_mem_drop {remove : Bool} {argv : List CStr} {i counter : Nat} {t : CStr}
    (h1 : 1 ≤ i) (h : t ∈ (advance remove argv i counter).1.drop 1) : t ∈ argv.drop 1 := by
  cases remove
  · simpa [advance] using h
  · cases argv with
    | nil => simp [advance] at h
    | cons x xs =>
      cases i with
      | zero => omega
      | succ j =>
        simp only [advance, if_true, List.take_succ_cons, List.cons_append, List.drop_succ_cons,
          List.drop_zero, List.mem_append] at h
        simp only [List.drop_succ_cons, List.drop_zero]
        rcases h with h | h
        · exact List.mem_of_mem_take h
        · rw [show j + 1 + counter = (j + counter) + 1 by omega] at h
          exact List.mem_of_mem_drop h

theorem scan_frame_refl (tokens : List CStr) (parser : arg_parser_t) :
    scan_frame tokens parser parser :=
  ⟨rfl, fun _ d1 h => ⟨d1, h, Or.inl rfl⟩, [], by simp, by simp⟩

theorem scan_frame_origin {tokens : List CStr} {parser parser1 : arg_parser_t}
    (h : scan_frame tokens parser parser1) {flag : CStr} {k : Nat} {arg : arg_desc}
    (hf : find_arg flag parser1.alist 0 = some (k, arg)) (ht : flag ∈ tokens) :
    ∃ d, parser.alist[k]? = some d ∧ d ∈ parser.alist ∧ arg.name = d.name ∧
      arg.type = d.type ∧ arg.shrt = d.shrt ∧ arg.dval = d.dval ∧
      arg.flgs ||| ArgFound = d.flgs ||| ArgFound ∧ matched_by tokens d := by
  obtain ⟨-, hk, hm, -⟩ := find_arg_some hf
  simp only [Nat.sub_zero] at hk
  obtain ⟨d, hd, hrel⟩ := h.2.1 k arg hk
  have hmem : d ∈ parser.alist := List.getElem?_mem hd
  rcases hrel with rfl | ⟨rfl, _⟩
  · exact ⟨arg, hd, hmem, rfl, rfl, rfl, rfl, rfl, flag, ht, hm⟩
  · exact ⟨d, hd, hmem, rfl, rfl, rfl, rfl, by simp [Nat.or_assoc], flag, ht, hm⟩

theorem scan_frame_append {tokens : List CStr} {parser parser1 : arg_parser_t}
    (h : scan_frame tokens parser parser1) {flag : CStr} {k : Nat} {arg : arg_desc}
    (hf : find_arg flag parser1.alist 0 = some (k, arg)) (ht : flag ∈ tokens)
    (v : ArgUnion) :
    scan_frame tokens parser
      { alist := parser1.alist,
        rlist := parser1.rlist ++ [{ name := arg.name, rval := v, type := arg.type }] } := by
  obtain ⟨d, -, hmem, hn, hty, -, -, -, hmatch⟩ := scan_frame_origin h hf ht
  obtain ⟨hlen, hal, added, hrl, hadded⟩ := h
  refine ⟨hlen, hal, added ++ [{ name := arg.name, rval := v, type := arg.type }], ?_, ?_⟩
  · simp [hrl]
  · intro e he
    rcases List.mem_append.mp he with he | he
    · exact hadded e he
    · simp only [List.mem_singleton] at he
      subst he
      exact ⟨d, hmem, hn, hty, hmatch⟩

theorem scan_frame_mark {tokens : List CStr} {parser parser1 : arg_parser_t}
    (h : scan_frame tokens parser parser1) {flag : CStr} {k : Nat} {arg : arg_desc}
    (hf : find_arg flag parser1.alist 0 = some (k, arg)) (ht : flag ∈ tokens)
    (v : ArgUnion) :
    scan_frame tokens parser
      { alist := parser1.alist.set k { arg with flgs := arg.flgs ||| ArgFound },
        rlist := parser1.rlist ++ [{ name := arg.name, rval := v, type := arg.type }] } := by
  obtain ⟨d, hd, hmem, hn, hty, hs, hdv, hfl, hmatch⟩ := scan_frame_origin h hf ht
  obtain ⟨hlen, hal, hrest⟩ := scan_frame_append h hf ht v
  refine ⟨by simpa using hlen, ?_, hrest⟩
  intro j d1 hj
  simp only at hj hal
  rw [List.getElem?_set] at hj
  by_cases hkj : k = j
  · subst hkj
    simp only [if_true] at hj
    split_ifs at hj with hlt
    · simp only [Option.some.injEq] at hj
      subst hj
      refine ⟨d, hd, Or.inr ⟨?_, hmatch⟩⟩
      cases arg; cases d
      simp only at hn hty hs hdv hfl
      simp [hn, hty, hs, hdv, hfl]
  · simp only [hkj, if_false] at hj
    exact hal j d1 hj

/-- The scan keeps the descriptors up to found marks set for tokens of the
input, and appends only entries of descriptors that some token denotes. -/
theorem scan_loop_frame {L : Libc} {ignore remove : Bool} {fuel : Nat} {parser : arg_parser_t}
    {argv : List CStr} {val_iter : Nat} {r : Scan} (h1 : 1 ≤ val_iter)
    (h : scan_loop L ignore remove fuel parser argv val_iter = some r) :
    scan_frame (argv.drop 1) parser r.parser := by
  obtain ⟨p0, a0, i0, ⟨hi0, hsub0, hfr0⟩, hcase⟩ :=
    @scan_loop_invariant L ignore remove
      (fun p1 a1 i1 => 1 ≤ i1 ∧ (∀ t ∈ a1.drop 1, t ∈ argv.drop 1) ∧
        scan_frame (argv.drop 1) parser p1)
      (by
        intro p a i p1 a1 i1 ⟨hi, hsub, hfr⟩ hlt hs
        have hflag : argvAt a i ∈ argv.drop 1 := hsub _ (argvAt_mem_drop hi hlt)
        rcases scan_step_next_cases hs with ⟨-, rfl, rfl, rfl⟩ | ⟨-, -, -, rfl, rfl, rfl⟩ |
          ⟨k, arg, retval, counter, -, hf, -, -, rfl, rfl, rfl⟩
        · exact ⟨by omega, hsub, hfr⟩
        · refine ⟨?_, fun t ht => hsub t (advance_mem_drop hi ht), hfr⟩
          cases remove
          · simp [advance]
          · simpa [advance] using hi
        · refine ⟨?_, fun t ht => hsub t (advance_mem_drop hi ht),
            scan_frame_mark hfr hf hflag _⟩
          cases remove
          · simp only [advance, Bool.false_eq_true, if_false]; omega
          · simpa [advance] using hi)
      fuel parser argv val_iter r ⟨h1, fun t ht => ht, scan_frame_refl _ _⟩ h
  rcases hcase with ⟨-, rfl⟩ | ⟨hlt, code, p1, a1, hs, rfl⟩
  · exact hfr0
  · have hflag : argvAt a0 i0 ∈ argv.drop 1 := hsub0 _ (argvAt_mem_drop hi0 hlt)
    obtain ⟨-, -, hal, hc⟩ := scan_step_fail_cases hs
    rcases hc with ⟨-, -, -, rfl⟩ | ⟨_, _, -, -, -, rfl⟩ | ⟨k, arg, retval, counter, -, hf, -, -, hrl⟩
    · exact hfr0
    · exact hfr0
    · have := scan_frame_append hfr0 hf hflag (convert L arg.type retval).1
      simp only [Scan.parser]
      have hp1 : p1 = { alist := p0.alist, rlist := p0.rlist ++
          [{ name := arg.name, rval := (convert L arg.type retval).1, type := arg.type }] } := by
        cases p1; simp only at hal hrl; simp [hal, hrl]
      rw [hp1]; exact this

/-! ## Fresh registries -/

theorem str_to_arg_name_idem (name : CStr) :
    str_to_arg_name (str_to_arg_name name) = str_to_arg_name name := by
  unfold str_to_arg_name
  rw [List.map_map]
  apply List.map_congr_left
  intro c _
  simp only [Function.comp, tolower]
  split_ifs <;> omega

theorem fresh_make : fresh arg_parser_make := by
  simp [fresh, arg_parser_make]

theorem fresh_add_arg {parser : arg_parser_t} (h : fresh parser) (name : CStr) (short_name : Nat)
    (type : ArgType) (flags : Nat) (default_val : ArgUnion)
    (hflags : has_flag flags ArgFound = false) :
    fresh (arg_parser_add_arg parser name short_name type flags default_val) := by
  refine ⟨h.1, ?_⟩
  intro d hd
  simp only [arg_parser_add_arg, List.mem_append, List.mem_singleton] at hd
  rcases hd with hd | rfl
  · exact h.2 d hd
  · exact ⟨hflags, str_to_arg_name_idem name⟩

theorem scan_loop_fail_code {L : Libc} {ignore remove : Bool} {fuel : Nat} {parser : arg_parser_t}
    {argv : List CStr} {val_iter code : Nat} {parser1 : arg_parser_t} {argv1 : List CStr}
    (h : scan_loop L ignore remove fuel parser argv val_iter = some (.fail code parser1 argv1)) :
    code = 1 ∨ code = 2 ∨ code = 4 := by
  obtain ⟨p0, a0, i0, -, hcase⟩ :=
    @scan_loop_invariant L ignore remove (fun _ _ _ => True)
      (fun _ _ _ _ _ _ _ _ _ => trivial) fuel parser argv val_iter _ trivial h
  rcases hcase with ⟨-, hr⟩ | ⟨-, code', p1, a1, hs, hr⟩
  · cases hr
  · cases hr
    obtain ⟨-, -, -, hc⟩ := scan_step_fail_cases hs
    rcases hc with ⟨rfl, -⟩ | ⟨_, _, rfl, -⟩ | ⟨_, _, _, _, rfl, -⟩ <;> simp

theorem scan_frame_unmatched {tokens : List CStr} {parser parser1 : arg_parser_t}
    (h : scan_frame tokens parser parser1) {d : arg_desc} (hd : d ∈ parser.alist)
    (hun : ¬ matched_by tokens d) : d ∈ parser1.alist := by
  obtain ⟨k, hk⟩ := List.mem_iff_getElem?.mp hd
  have hlt : k < parser1.alist.length := by
    rw [h.1]
    by_contra hge
    rw [List.getElem?_eq_none (by omega)] at hk
    cases hk
  obtain ⟨d0, hd0, hrel⟩ := h.2.1 k _ (List.getElem?_eq_getElem hlt)
  rw [hk] at hd0
  cases hd0
  rcases hrel with heq | ⟨-, hm⟩
  · rw [← heq]; exact List.getElem_mem _
  · exact absurd hm hun

theorem scan_frame_origin_mem {tokens : List CStr} {parser parser1 : arg_parser_t}
    (h : scan_frame tokens parser parser1) {d1 : arg_desc} (hd : d1 ∈ parser1.alist) :
    ∃ d ∈ parser.alist, d1.name = d.name ∧
      (d1 = d ∨ (d1 = { d with flgs := d.flgs ||| ArgFound } ∧ matched_by tokens d)) := by
  obtain ⟨k, hk⟩ := List.mem_iff_getElem?.mp hd
  obtain ⟨d, hd0, hrel⟩ := h.2.1 k d1 hk
  refine ⟨d, List.getElem?_mem hd0, ?_, hrel⟩
  rcases hrel with rfl | ⟨rfl, -⟩ <;> rfl

theorem eq_of_name_eq {alist : List arg_desc} (hdist : (alist.map (fun a => a.name)).Nodup)
    {a b : arg_desc} (ha : a ∈ alist) (hb : b ∈ alist) (h : a.name = b.name) : a = b :=
  List.inj_on_of_nodup_map hdist ha hb h

/-- On a fresh registry with distinct names, a descriptor that no token denotes
gets no entry from the scan, and the default pass gives it at most the entry
of its own default. -/
theorem unmatched_entries {L : Libc} {ignore remove : Bool} {parser : arg_parser_t}
    {argv : List CStr} {out : ParseOut} {d : arg_desc}
    (hfresh : fresh parser) (hdist : (parser.alist.map (fun a => a.name)).Nodup)
    (hd : d ∈ parser.alist) (hun : ¬ matched_by (argv.drop 1) d)
    (hparse : arg_parser_parse L parser argv ignore remove = some out) :
    (∀ e ∈ out.parser.rlist, name_matches e.name d.name = true →
        e = default_entry d ∧ has_flag d.flgs ArgDefault = true) ∧
    (out.code = 0 → has_flag d.flgs ArgDefault = true →
        matching_values out.parser.rlist d.name = [d.dval]) := by
  have key : ∀ p1 : arg_parser_t, scan_frame (argv.drop 1) parser p1 →
      ∀ e ∈ p1.rlist, name_matches e.name d.name = false := by
    intro p1 hfr e he
    obtain ⟨-, -, added, hrl, hadded⟩ := hfr
    rw [hrl, hfresh.1, List.nil_append] at he
    obtain ⟨d', hd', hn, -, hm⟩ := hadded e he
    by_contra hmatch
    rw [Bool.not_eq_false] at hmatch
    rw [hn, name_matches_canonical (hfresh.2 d' hd').2 (hfresh.2 d hd).2] at hmatch
    have := eq_of_name_eq hdist hd' hd hmatch
    subst this
    exact hun hm
  have dflt : ∀ p1 : arg_parser_t, scan_frame (argv.drop 1) parser p1 →
      ∀ a ∈ p1.alist, name_matches a.name d.name = true → a = d := by
    intro p1 hfr a ha hmatch
    obtain ⟨d', hd', hn, hrel⟩ := scan_frame_origin_mem hfr ha
    rw [hn, name_matches_canonical (hfresh.2 d' hd').2 (hfresh.2 d hd).2] at hmatch
    have := eq_of_name_eq hdist hd' hd hmatch
    subst this
    rcases hrel with h | ⟨-, hm⟩
    · exact h
    · exact absurd hm hun
  rcases arg_parser_parse_cases L parser argv ignore remove with
    ⟨code, p1, a1, hs, hp⟩ | ⟨p1, a1, hs, hp⟩
  · rw [hp] at hparse
    cases hparse
    have hfr := scan_loop_frame (le_refl 1) hs
    simp only [Scan.parser] at hfr
    constructor
    · intro e he hm
      rw [key p1 hfr e he] at hm
      cases hm
    · intro hc
      rcases scan_loop_fail_code hs with h | h | h <;> simp only at hc <;> omega
  · rw [hp] at hparse
    cases hparse
    have hfr := scan_loop_frame (le_refl 1) hs
    simp only [Scan.parser] at hfr
    constructor
    · intro e he hm
      simp only at he
      obtain ⟨added, hadd, hmem⟩ := defaults_loop_prefix p1.alist p1.rlist
      rw [hadd] at he
      rcases List.mem_append.mp he with he | he
      · rw [key p1 hfr e he] at hm
        cases hm
      · obtain ⟨a, ha, hpend, rfl⟩ := hmem e he
        have := dflt p1 hfr a ha hm
        subst this
        simp only [pending_default, Bool.and_eq_true] at hpend
        exact ⟨rfl, hpend.2⟩
    · intro hc hdef
      simp only at hc ⊢
      rw [defaults_loop_rlist _ _ hc, matching_values_append]
      have h1 : matching_values p1.rlist d.name = [] := by
        simp only [matching_values, List.map_eq_nil_iff, List.filter_eq_nil_iff]
        intro e he
        simp [key p1 hfr e he]
      have hdmem : d ∈ p1.alist := scan_frame_unmatched hfr hd hun
      have hpend : pending_default d = true := by
        simp [pending_default, (hfresh.2 d hd).1, hdef]
      have hnames : (p1.alist.map (fun a => a.name)).Nodup := by
        have : p1.alist.map (fun a => a.name) = parser.alist.map (fun a => a.name) := by
          apply List.ext_getElem?
          intro k
          simp only [List.getElem?_map]
          by_cases hk : k < p1.alist.length
          · obtain ⟨d0, hd0, hrel⟩ := hfr.2.1 k _ (List.getElem?_eq_getElem hk)
            rw [List.getElem?_eq_getElem hk, hd0]
            rcases hrel with h | ⟨h, -⟩ <;> simp [h]
          · rw [List.getElem?_eq_none (by omega), List.getElem?_eq_none (by rw [← hfr.1]; omega)]
        rw [this]; exact hdist
      have h2 : matching_values ((p1.alist.filter pending_default).map default_entry) d.name =
          [d.dval] := by
        simp only [matching_values, List.filter_map, List.map_map, List.filter_filter]
        have hl : ∀ l : List arg_desc, (l.map (fun a => a.name)).Nodup → d ∈ l →
            (∀ a ∈ l, name_matches a.name d.name = true → a = d) →
            l.filter (fun a => ((fun arg : arg_rval => name_matches arg.name d.name) ∘
              default_entry) a && pending_default a) = [d] := by
          intro l
          induction l with
          | nil => intro _ h; cases h
          | cons x xs ih =>
            intro hnd hmem hall
            simp only [List.map_cons, List.nodup_cons] at hnd
            rw [List.filter_cons]
            by_cases hx : x = d
            · subst hx
              simp only [Function.comp, default_entry, name_matches_self, hpend, Bool.and_self,
                if_true, List.cons.injEq, true_and, List.filter_eq_nil_iff]
              intro a ha
              simp only [Bool.and_eq_true, not_and]
              intro hm
              have := hall a (List.mem_cons_of_mem _ ha) hm
              subst this
              exact absurd (List.mem_map_of_mem (fun a => a.name) ha) hnd.1
            · have hmem' : d ∈ xs := by
                rcases List.mem_cons.mp hmem with h | h
                · exact absurd h.symm hx
                · exact h
              have hxm : name_matches x.name d.name = false := by
                by_contra hc
                rw [Bool.not_eq_false] at hc
                exact hx (hall x (List.mem_cons_self _ _) hc)
              simp only [Function.comp, default_entry, hxm, Bool.false_and, Bool.false_eq_true,
                if_false]
              exact ih hnd.2 hmem' (fun a ha => hall a (List.mem_cons_of_mem _ ha))
        rw [hl p1.alist hnames hdmem (dflt p1 hfr)]
        simp [default_entry]
      rw [h1, h2]; rfl

theorem get_args_loop_no_match (name : CStr) (type : ArgType) (count : Int) :
    ∀ (rlist : List arg_rval) (retval : Nat) (val : List ArgUnion),
      (∀ e ∈ rlist, name_matches e.name name = false) →
      get_args_loop name type count rlist retval val = ((retval : Int), val) := by
  intro rlist
  induction rlist with
  | nil => intro retval val _; simp [get_args_loop]
  | cons e rest ih =>
    intro retval val h
    unfold get_args_loop
    rw [h e (List.mem_cons_self _ _)]
    simp only [Bool.false_eq_true, if_false]
    rw [ih retval val (fun x hx => h x (List.mem_cons_of_mem _ hx))]
    simp

/-! ## Unknown flags -/

theorem take_takeWhile_length (p : Nat → Bool) (l : CStr) :
    l.take (l.takeWhile p).length = l.takeWhile p := by
  induction l with
  | nil => simp
  | cons x xs ih =>
    by_cases h : p x = true
    · simp [List.takeWhile_cons, h, ih]
    · simp [List.takeWhile_cons, h]

theorem charAt_takeWhile_length (l : CStr) (h : (l.takeWhile before_value).length < l.length) :
    charAt l (l.takeWhile before_value).length = 61 := by
  induction l with
  | nil => simp at h
  | cons x xs ih =>
    by_cases hx : x = 61
    · simp [List.takeWhile_cons, hx, charAt, before_value]
    · have htw : (x :: xs).takeWhile before_value = x :: xs.takeWhile before_value := by
        simp [List.takeWhile_cons, before_value, hx]
      rw [htw] at h ⊢
      simp only [List.length_cons] at h ⊢
      simpa [charAt] using ih (by omega)

/-- A long-form token denotes every descriptor whose name the lookup test
identifies with the name the token spells. -/
theorem arg_name_cmp_of_name_matches (arg_name : CStr) (short_name : Nat) (rest : CStr)
    (h : name_matches arg_name (rest.takeWhile before_value) = true) :
    arg_name_cmp arg_name short_name (45 :: 45 :: rest) = 0 := by
  have hlen : arg_name.length = (rest.takeWhile before_value).length := by
    simp only [name_matches, Bool.and_eq_true, decide_eq_true_eq] at h
    exact h.1
  have hle : (rest.takeWhile before_value).length ≤ rest.length :=
    (List.takeWhile_sublist _).length_le
  rw [name_matches_iff] at h
  unfold arg_name_cmp
  simp only
  split_ifs with h1 h2 h3 h4 h5
  · rfl
  · simp only [List.length_cons] at h2; omega
  · simp [charAt] at h3
  · exfalso
    simp only [List.length_cons] at h4
    have := charAt_takeWhile_length rest (by omega)
    apply h4.2
    rw [hlen]
    simpa [charAt] using this
  · exfalso
    apply h5
    unfold str_arg_cmp
    rw [str_arg_cmp_from_eq_zero_iff]
    simp only [List.drop_succ_cons, List.drop_zero]
    rw [List.take_of_length_le (by omega), hlen, take_takeWhile_length]
    exact h
  · rfl

theorem defaults_loop_no_required {alist : List arg_desc} (rlist : List arg_rval)
    (h : ∀ d ∈ alist, has_flag d.flgs ArgRequired = false) :
    defaults_loop alist rlist =
      (0, rlist ++ (alist.filter pending_default).map default_entry) := by
  have hc : (defaults_loop alist rlist).1 = 0 := by
    rw [defaults_loop_code_zero_iff]
    intro d hd
    simp [missing_required, h d hd]
  exact Prod.ext hc (defaults_loop_rlist alist rlist hc)

/-! ## Compaction -/

theorem positional_tokens_cons_positional (alist : List arg_desc) (t : CStr) (s : List CStr)
    (h : charAt t 0 ≠ 45) :
    positional_tokens alist (t :: s) = t :: positional_tokens alist s := by
  cases s <;> simp [positional_tokens, h]

theorem positional_tokens_cons_flag (alist : List arg_desc) (t : CStr) (s : List CStr)
    (h : charAt t 0 = 45) :
    positional_tokens alist (t :: s) =
      if 0 < s.length ∧ takes_next alist t (s.headD []) = true then
        positional_tokens alist (s.drop 1)
      else positional_tokens alist s := by
  cases s with
  | nil => simp [positional_tokens, h]
  | cons n rest => simp [positional_tokens, h]

theorem positional_tokens_not_flag (alist : List arg_desc) :
    ∀ (n : Nat) (s : List CStr), s.length ≤ n →
      ∀ t ∈ positional_tokens alist s, charAt t 0 ≠ 45 := by
  intro n
  induction n with
  | zero =>
    intro s hs t ht
    have : s = [] := List.length_eq_zero.mp (by omega)
    subst this
    simp [positional_tokens] at ht
  | succ n ih =>
    intro s hs t ht
    cases s with
    | nil => simp [positional_tokens] at ht
    | cons x xs =>
      simp only [List.length_cons] at hs
      by_cases hx : charAt x 0 = 45
      · rw [positional_tokens_cons_flag alist x xs hx] at ht
        split_ifs at ht
        · exact ih (xs.drop 1) (by simp; omega) t ht
        · exact ih xs (by omega) t ht
      · rw [positional_tokens_cons_positional alist x xs hx] at ht
        rcases List.mem_cons.mp ht with rfl | ht
        · exact hx
        · exact ih xs (by omega) t ht

theorem positional_tokens_sublist (alist : List arg_desc) :
    ∀ (n : Nat) (s : List CStr), s.length ≤ n →
      List.Sublist (positional_tokens alist s) s := by
  intro n
  induction n with
  | zero =>
    intro s hs
    have : s = [] := List.length_eq_zero.mp (by omega)
    subst this
    simp [positional_tokens]
  | succ n ih =>
    intro s hs
    cases s with
    | nil => simp [positional_tokens]
    | cons x xs =>
      simp only [List.length_cons] at hs
      by_cases hx : charAt x 0 = 45
      · rw [positional_tokens_cons_flag alist x xs hx]
        split_ifs
        · exact ((ih (xs.drop 1) (by simp; omega)).trans (List.drop_sublist 1 xs)).trans
            (List.sublist_cons_self x xs)
        · exact (ih xs (by omega)).trans (List.sublist_cons_self x xs)
      · rw [positional_tokens_cons_positional alist x xs hx]
        exact (ih xs (by omega)).cons₂ x

theorem drop_eq_argvAt_cons {argv : List CStr} {i : Nat} (h : i < argv.length) :
    argv.drop i = argvAt argv i :: argv.drop (i + 1) := by
  rw [argvAt_eq_head_drop]
  have : argv.drop i ≠ [] := by simp; omega
  match hd : argv.drop i with
  | [] => exact absurd hd this
  | x :: xs =>
    have h2 : argv.drop (i + 1) = xs := by
      rw [← List.drop_drop 1 i, hd]; rfl
    rw [h2]; rfl

theorem find_arg_type_congr (flag : CStr) :
    ∀ (alist alist1 : List arg_desc) (start : Nat),
      alist1.map (fun a => (a.name, a.shrt, a.type)) =
        alist.map (fun a => (a.name, a.shrt, a.type)) →
      (find_arg flag alist1 start).map (fun x => x.2.type) =
        (find_arg flag alist start).map (fun x => x.2.type) := by
  intro alist
  induction alist with
  | nil =>
    intro alist1 start h
    simp only [List.map_nil, List.map_eq_nil_iff] at h
    subst h; rfl
  | cons a rest ih =>
    intro alist1 start h
    cases alist1 with
    | nil => simp at h
    | cons b rest1 =>
      simp only [List.map_cons, List.cons.injEq, Prod.mk.injEq] at h
      obtain ⟨⟨hn, hs, ht⟩, hrest⟩ := h
      unfold find_arg
      rw [hn, hs]
      by_cases hm : arg_name_cmp a.name a.shrt flag = 0
      · simp [hm, ht]
      · simp only [hm, if_false]
        exact ih rest1 (start + 1) hrest

theorem scan_frame_keys {tokens : List CStr} {parser parser1 : arg_parser_t}
    (h : scan_frame tokens parser parser1) :
    parser1.alist.map (fun a => (a.name, a.shrt, a.type)) =
      parser.alist.map (fun a => (a.name, a.shrt, a.type)) := by
  apply List.ext_getElem?
  intro k
  simp only [List.getElem?_map]
  by_cases hk : k < parser1.alist.length
  · obtain ⟨d0, hd0, hrel⟩ := h.2.1 k _ (List.getElem?_eq_getElem hk)
    rw [List.getElem?_eq_getElem hk, hd0]
    rcases hrel with h | ⟨h, -⟩ <;> simp [h]
  · rw [List.getElem?_eq_none (by omega), List.getElem?_eq_none (by rw [← h.1]; omega)]

theorem takes_next_congr {tokens : List CStr} {parser parser1 : arg_parser_t}
    (h : scan_frame tokens parser parser1) (t next : CStr) :
    takes_next parser1.alist t next = takes_next parser.alist t next := by
  have := find_arg_type_congr t parser.alist parser1.alist 0 (scan_frame_keys h)
  unfold takes_next
  cases h1 : find_arg t parser1.alist 0 with
  | none =>
    rw [h1] at this
    cases h2 : find_arg t parser.alist 0 with
    | none => rfl
    | some x => rw [h2] at this; simp at this
  | some x =>
    rw [h1] at this
    cases h2 : find_arg t parser.alist 0 with
    | none => rw [h2] at this; simp at this
    | some y =>
      rw [h2] at this
      simp only [Option.map_some', Option.some.injEq] at this
      obtain ⟨_, x⟩ := x
      obtain ⟨_, y⟩ := y
      simp only at this
      simp only [this]

/-- The number of tokens a matched flag takes agrees with `takes_next`. -/
theorem source_value_takes_next {alist : List arg_desc} {argv : List CStr} {i k : Nat}
    {arg : arg_desc} {retval : CStr} {counter : Nat} (hi : i < argv.length)
    (hf : find_arg (argvAt argv i) alist 0 = some (k, arg))
    (hs : source_value arg.type (argvAt argv i) argv i = some (retval, counter)) :
    (counter = 2 ∧ i + 1 < argv.length ∧
        takes_next alist (argvAt argv i) (argvAt argv (i + 1)) = true) ∨
    (counter = 1 ∧ (i + 1 < argv.length →
        takes_next alist (argvAt argv i) (argvAt argv (i + 1)) = false)) := by
  unfold source_value at hs
  unfold takes_next
  rw [hf]
  simp only
  cases hstr : strstr_eq (argvAt argv i) with
  | some r =>
    rw [hstr] at hs
    simp only [Option.some.injEq, Prod.mk.injEq] at hs
    right
    exact ⟨hs.2.symm, fun _ => by simp⟩
  | none =>
    rw [hstr] at hs
    simp only at hs
    split_ifs at hs with h1 h2 h3
    · simp only [Option.some.injEq, Prod.mk.injEq] at hs
      left
      have hne : i + 1 ≠ argv.length := fun h => h1 ⟨h, h2⟩
      exact ⟨hs.2.symm, by omega, by simp [h2]⟩
    · simp only [Option.some.injEq, Prod.mk.injEq] at hs
      right
      refine ⟨hs.2.symm, fun hlt => ?_⟩
      have hb : arg.type = ArgBool := by simpa using h2
      rcases h3 with h3 | h3
      · omega
      · simp [hb, h3]
    · simp only [Option.some.injEq, Prod.mk.injEq] at hs
      left
      have hb : arg.type = ArgBool := by simpa using h2
      have h3' : ¬ (i + 1 = argv.length) ∧ ¬ charAt (argvAt argv (i + 1)) 0 = 45 := by
        constructor
        · exact fun h => h3 (Or.inl h)
        · exact fun h => h3 (Or.inr h)
      exact ⟨hs.2.symm, by omega, by simp [h3'.2]⟩

theorem take_succ_argvAt {argv : List CStr} {i : Nat} (h : i < argv.length) :
    argv.take (i + 1) = argv.take i ++ [argvAt argv i] := by
  have h1 : argv = argv.take i ++ argv.drop i := (List.take_append_drop i argv).symm
  rw [drop_eq_argvAt_cons h] at h1
  conv_lhs => rw [h1]
  have hl : (argv.take i).length = i := by simp; omega
  rw [List.take_append_eq_append_take, hl, List.take_of_length_le (by omega)]
  simp

theorem positional_tokens_skip (alist : List arg_desc) {argv : List CStr} {i : Nat}
    (h : i < argv.length) (hc : charAt (argvAt argv i) 0 ≠ 45) :
    argv.take (i + 1) ++ positional_tokens alist (argv.drop (i + 1)) =
      argv.take i ++ positional_tokens alist (argv.drop i) := by
  rw [take_succ_argvAt h, drop_eq_argvAt_cons h, positional_tokens_cons_positional _ _ _ hc]
  simp

theorem positional_tokens_flag (alist : List arg_desc) {argv : List CStr} {i counter : Nat}
    (h : i < argv.length) (hc : charAt (argvAt argv i) 0 = 45)
    (hk : (counter = 2 ∧ i + 1 < argv.length ∧
            takes_next alist (argvAt argv i) (argvAt argv (i + 1)) = true) ∨
          (counter = 1 ∧ (i + 1 < argv.length →
            takes_next alist (argvAt argv i) (argvAt argv (i + 1)) = false))) :
    positional_tokens alist (argv.drop (i + counter)) =
      positional_tokens alist (argv.drop i) := by
  rw [drop_eq_argvAt_cons h, positional_tokens_cons_flag _ _ _ hc]
  have hhead : (argv.drop (i + 1)).headD [] = argvAt argv (i + 1) :=
    (argvAt_eq_head_drop argv (i + 1)).symm
  have hlen : (argv.drop (i + 1)).length = argv.length - (i + 1) := by simp
  rw [hhead, hlen, List.drop_drop]
  rcases hk with ⟨rfl, h1, h2⟩ | ⟨rfl, h2⟩
  · rw [if_pos ⟨by omega, h2⟩]
  · by_cases h1 : i + 1 < argv.length
    · rw [if_neg (by simp [h2 h1])]
    · rw [if_neg (by omega)]

/-- With compaction and a scan that ends without error, what is left of `argv`
is the tokens before the start index followed by the positional tokens of the
rest. -/
theorem scan_loop_compact {L : Libc} {ignore : Bool} {fuel : Nat} {parser parser1 : arg_parser_t}
    {argv argv1 : List CStr} (hlen : 1 ≤ argv.length)
    (h : scan_loop L ignore true fuel parser argv 1 = some (.done parser1 argv1)) :
    argv1 = argv.take 1 ++ positional_tokens parser.alist (argv.drop 1) := by
  obtain ⟨p0, a0, i0, ⟨hi0, hle0, hfr0, hsub0, heq0⟩, hcase⟩ :=
    @scan_loop_invariant L ignore true
      (fun p1 a1 i1 => 1 ≤ i1 ∧ i1 ≤ a1.length ∧ scan_frame (argv.drop 1) parser p1 ∧
        (∀ t ∈ a1.drop 1, t ∈ argv.drop 1) ∧
        a1.take i1 ++ positional_tokens parser.alist (a1.drop i1) =
          argv.take 1 ++ positional_tokens parser.alist (argv.drop 1))
      (by
        intro p a i p1 a1 i1 ⟨hi, hle, hfr, hsub, heq⟩ hlt hs
        have hflag : argvAt a i ∈ argv.drop 1 := hsub _ (argvAt_mem_drop hi hlt)
        rcases scan_step_next_cases hs with ⟨hc, hp, ha, hi1⟩ | ⟨hc, hf, -, hp, ha, hi1⟩ |
          ⟨k, arg, retval, counter, hc, hf, hsv, -, hp, ha, hi1⟩
        · subst hp ha hi1
          exact ⟨by omega, by omega, hfr, hsub,
            (positional_tokens_skip parser.alist hlt hc).trans heq⟩
        · have hk : (1 = 2 ∧ i + 1 < a.length ∧
              takes_next parser.alist (argvAt a i) (argvAt a (i + 1)) = true) ∨
              (1 = 1 ∧ (i + 1 < a.length →
                takes_next parser.alist (argvAt a i) (argvAt a (i + 1)) = false)) := by
            right
            refine ⟨rfl, fun _ => ?_⟩
            rw [← takes_next_congr hfr]
            simp [takes_next, hf]
          have hpos := positional_tokens_flag parser.alist hlt hc hk
          rw [hp, ha, hi1]
          refine ⟨by simpa [advance] using hi, ?_, hfr,
            fun t ht => hsub t (advance_mem_drop hi ht), ?_⟩
          · simp [advance]; omega
          · rw [advance_take true a i 1 hle, advance_drop true a i 1 hle, if_pos rfl, hpos]
            exact heq
        · have hk := source_value_takes_next hlt hf hsv
          rw [takes_next_congr hfr] at hk
          have hpos := positional_tokens_flag parser.alist hlt hc hk
          have hb : i + counter ≤ a.length := by
            rcases hk with ⟨rfl, h1, -⟩ | ⟨rfl, -⟩ <;> omega
          rw [hp, ha, hi1]
          refine ⟨by simpa [advance] using hi, ?_, scan_frame_mark hfr hf hflag _,
            fun t ht => hsub t (advance_mem_drop hi ht), ?_⟩
          · simp [advance]; omega
          · rw [advance_take true a i counter hle, advance_drop true a i counter hle, if_pos rfl,
              hpos]
            exact heq)
      fuel parser argv 1 _ ⟨le_refl 1, hlen, scan_frame_refl _ _, fun t ht => ht, rfl⟩ h
  rcases hcase with ⟨hge, hr⟩ | ⟨-, code, p1, a1, -, hr⟩
  · cases hr
    have : i0 = argv1.length := by omega
    subst this
    simpa [positional_tokens] using heq0
  · cases hr

/-! ## Repeated flags -/

theorem strstr_eq_none_of_not_mem {s : CStr} (h : 61 ∉ s) : strstr_eq s = none := by
  induction s with
  | nil => rfl
  | cons c rest ih =>
    simp only [List.mem_cons, not_or] at h
    simp only [strstr_eq, if_neg (Ne.symm h.1)]
    exact ih h.2

theorem strstr_eq_append {s : CStr} (h : 61 ∉ s) (v : CStr) :
    strstr_eq (s ++ 61 :: v) = some (61 :: v) := by
  induction s with
  | nil => simp [strstr_eq]
  | cons c rest ih =>
    simp only [List.mem_cons, not_or] at h
    simp only [List.cons_append, strstr_eq, if_neg (Ne.symm h.1)]
    exact ih h.2

theorem not_mem_str_to_arg_name {name : CStr} (h : 61 ∉ name) : 61 ∉ str_to_arg_name name := by
  intro hm
  simp only [str_to_arg_name, List.mem_map] at hm
  obtain ⟨c, hc, heq⟩ := hm
  have : c = 61 := by
    unfold tolower at heq
    split_ifs at heq <;> omega
  exact h (this ▸ hc)

theorem takeWhile_before_value_append {s : CStr} (h : 61 ∉ s) (v : CStr) :
    (s ++ 61 :: v).takeWhile before_value = s := by
  induction s with
  | nil => simp [before_value]
  | cons c rest ih =>
    simp only [List.mem_cons, not_or] at h
    simp [List.takeWhile_cons, before_value, Ne.symm h.1, ih h.2]

theorem takeWhile_before_value_self {s : CStr} (h : 61 ∉ s) :
    s.takeWhile before_value = s := by
  induction s with
  | nil => simp
  | cons c rest ih =>
    simp only [List.mem_cons, not_or] at h
    simp [List.takeWhile_cons, before_value, Ne.symm h.1, ih h.2]

theorem argvAt_append_length (pre : List CStr) (t : CStr) (s : List CStr) :
    argvAt (pre ++ t :: s) pre.length = t := by
  simp [argvAt_eq_head_drop]

theorem argvAt_append_length_succ (pre : List CStr) (t u : CStr) (s : List CStr) :
    argvAt (pre ++ t :: u :: s) (pre.length + 1) = u := by
  have := argvAt_append_length (pre ++ [t]) u s
  simpa using this

/-- Every form of supplying a value denotes the flag. -/
theorem arg_name_cmp_supply (n : CStr) (x : Nat) (hn : 61 ∉ n) (form : FlagForm) (v : CStr) :
    arg_name_cmp n x ((supply n x form v).headD []) = 0 := by
  cases form
  · simp only [supply, List.headD_cons]
    apply arg_name_cmp_of_name_matches
    rw [takeWhile_before_value_append hn]
    exact name_matches_self n
  · simp only [supply, List.headD_cons]
    apply arg_name_cmp_of_name_matches
    rw [takeWhile_before_value_self hn]
    exact name_matches_self n
  · simp [supply, arg_name_cmp, charAt]
  · simp [supply, arg_name_cmp, charAt]

theorem advance_append (remove : Bool) (pre mid s : List CStr) :
    advance remove (pre ++ (mid ++ s)) pre.length mid.length =
      (if remove then pre ++ s else pre ++ (mid ++ s),
       if remove then pre.length else (pre ++ mid).length) := by
  cases remove
  · simp [advance]
  · simp only [advance, if_true, List.take_left, Prod.mk.injEq, and_true, List.append_cancel_left_eq]
    rw [← List.append_assoc, ← List.length_append, List.drop_left]

theorem source_value_supply (n : CStr) (x : Nat) (hn : 61 ∉ n) (hx : x ≠ 61) (form : FlagForm)
    (v : CStr) (pre s : List CStr) :
    source_value ArgString ((supply n x form v).headD []) (pre ++ (supply n x form v ++ s))
      pre.length = some (v, (supply n x form v).length) := by
  have h45 : (61 : Nat) ∉ (45 :: 45 :: n) := by simp [hn]
  cases form
  · have := strstr_eq_append h45 v
    simp only [List.cons_append] at this
    simp [supply, source_value, this]
  · simp only [supply, List.headD_cons, source_value, strstr_eq_none_of_not_mem h45]
    have := argvAt_append_length_succ pre (45 :: 45 :: n) v s
    simp only [List.cons_append, List.nil_append] at this ⊢
    rw [this]
    simp
  · have hs : strstr_eq [45, x] = none := by simp [strstr_eq, hx]
    simp only [supply, List.headD_cons, source_value, hs]
    have := argvAt_append_length_succ pre [45, x] v s
    simp only [List.cons_append, List.nil_append] at this ⊢
    rw [this]
    simp
  · have hs : strstr_eq (45 :: x :: 61 :: v) = some (61 :: v) := by
      simp [strstr_eq, hx]
    simp [supply, source_value, hs]

/-- One iteration on the first token of a supplied value stores the value,
marks the flag found and moves past the tokens of that value. -/
theorem scan_step_supply (L : Libc) (ignore remove : Bool) (n : CStr) (x : Nat)
    (dval : ArgUnion) (f : Nat) (rl : List arg_rval) (hn : 61 ∉ n) (hx : x ≠ 61)
    (form : FlagForm) (v : CStr) (pre s : List CStr) :
    scan_step L ignore remove
        { alist := [{ name := n, dval := dval, type := ArgString, flgs := f, shrt := x }],
          rlist := rl }
        (pre ++ (supply n x form v ++ s)) pre.length =
      .next
        { alist := [{ name := n, dval := dval, type := ArgString, flgs := f ||| ArgFound,
                      shrt := x }],
          rlist := rl ++ [{ name := n, rval := .val_str (some v), type := ArgString }] }
        (if remove then pre ++ s else pre ++ (supply n x form v ++ s))
        (if remove then pre.length else (pre ++ supply n x form v).length) := by
  have hne : supply n x form v ≠ [] := by cases form <;> simp [supply]
  obtain ⟨t, ts, hts⟩ := List.exists_cons_of_ne_nil hne
  have hat : argvAt (pre ++ (supply n x form v ++ s)) pre.length = (supply n x form v).headD [] := by
    rw [hts]
    exact argvAt_append_length pre t (ts ++ s)
  have hc : charAt (argvAt (pre ++ (supply n x form v ++ s)) pre.length) 0 = 45 := by
    rw [hat]
    cases form <;> simp [supply, charAt]
  have hf : find_arg (argvAt (pre ++ (supply n x form v ++ s)) pre.length)
      ({ alist := [{ name := n, dval := dval, type := ArgString, flgs := f, shrt := x }],
         rlist := rl } : arg_parser_t).alist 0 =
      some (0, { name := n, dval := dval, type := ArgString, flgs := f, shrt := x }) := by
    rw [hat]
    simp only [find_arg, arg_name_cmp_supply n x hn form v, if_true]
  have hs := source_value_supply n x hn hx form v pre s
  rw [← hat] at hs
  rw [scan_step_matched L ignore remove _ _ _ hc hf hs]
  simp only [store_value, convert, Bool.true_eq_false, if_false, List.set_cons_zero,
    advance_append]

theorem supply_length_pos (n : CStr) (x : Nat) (form : FlagForm) (v : CStr) :
    1 ≤ (supply n x form v).length := by
  cases form <;> simp [supply]

/-- The scan of a command line that supplies the listed values stores them in
order and ends without error. -/
theorem scan_loop_supply_all (L : Libc) (ignore remove : Bool) (n : CStr) (x : Nat)
    (dval : ArgUnion) (hn : 61 ∉ n) (hx : x ≠ 61) :
    ∀ (items : List (FlagForm × CStr)) (pre : List CStr) (rl : List arg_rval) (f fuel : Nat),
      (supply_all n x items).length ≤ fuel →
      scan_loop L ignore remove fuel
          { alist := [{ name := n, dval := dval, type := ArgString, flgs := f, shrt := x }],
            rlist := rl }
          (pre ++ supply_all n x items) pre.length =
        some (.done
          { alist := [{ name := n, dval := dval, type := ArgString,
                        flgs := if items = [] then f else f ||| ArgFound, shrt := x }],
            rlist := rl ++ items.map
              (fun it => { name := n, rval := .val_str (some it.2), type := ArgString }) }
          (if remove then pre else pre ++ supply_all n x items)) := by
  intro items
  induction items with
  | nil =>
    intro pre rl f fuel _
    unfold scan_loop
    simp [supply_all]
  | cons it rest ih =>
    intro pre rl f fuel hfuel
    simp only [supply_all, List.length_append] at hfuel
    have hpos := supply_length_pos n x it.1 it.2
    obtain ⟨fuel', rfl⟩ : ∃ k, fuel = k + 1 := ⟨fuel - 1, by omega⟩
    unfold scan_loop
    have hlen : ¬ (pre ++ supply_all n x (it :: rest)).length ≤ pre.length := by
      simp only [supply_all, List.length_append]; omega
    simp only [hlen, if_false]
    simp only [supply_all]
    rw [scan_step_supply L ignore remove n x dval f rl hn hx it.1 it.2 pre (supply_all n x rest)]
    simp only
    have hor : (f ||| ArgFound) ||| ArgFound = f ||| ArgFound := by
      rw [Nat.or_assoc, Nat.or_self]
    cases remove
    · simp only [Bool.false_eq_true, if_false]
      rw [← List.append_assoc,
        ih (pre ++ supply n x it.1 it.2) _ (f ||| ArgFound) fuel' (by omega)]
      by_cases hr : rest = [] <;> simp [hr, hor]
    · simp only [if_true]
      rw [ih pre _ (f ||| ArgFound) fuel' (by omega)]
      by_cases hr : rest = [] <;> simp [hr, hor]

theorem matching_values_all_same (n : CStr) (vals : List ArgUnion) :
    matching_values (vals.map (fun v => ({ name := n, rval := v, type := ArgString } : arg_rval)))
      n = vals := by
  induction vals with
  | nil => rfl
  | cons v rest ih =>
    simp only [matching_values, List.map_cons, List.filter_cons, name_matches_self, if_true,
      List.cons.injEq, true_and] at ih ⊢
    exact ih

/-! ## Normalization and lookup -/

theorem str_to_arg_name_loop_eq :
    ∀ (suf pre : CStr),
      str_to_arg_name_loop suf.length pre.length (pre ++ suf) = pre ++ str_to_arg_name suf := by
  intro suf
  induction suf with
  | nil => intro pre; simp [str_to_arg_name_loop, str_to_arg_name]
  | cons c rest ih =>
    intro pre
    have hc : charAt (pre ++ c :: rest) pre.length = c := by
      unfold charAt
      rw [List.getD_eq_getElem?_getD, List.getElem?_append_right (le_refl _)]
      simp
    have hset : ∀ x : Nat, (pre ++ c :: rest).set pre.length x = (pre ++ [x]) ++ rest := by
      intro x; simp
    simp only [List.length_cons, str_to_arg_name_loop, hc, hset]
    have h1 := ih (pre ++ [45])
    have h2 := ih (pre ++ [tolower c])
    simp only [List.length_append, List.length_singleton] at h1 h2
    simp only [List.append_assoc, List.singleton_append] at h1 h2
    by_cases h : c = 95
    · simp only [h, if_true, List.append_assoc, List.singleton_append, h1, str_to_arg_name,
        List.map_cons]
    · simp only [h, if_false, List.append_assoc, List.singleton_append, h2, str_to_arg_name,
        List.map_cons]

theorem str_to_arg_name_charAt (s : CStr) (i : Nat) (h : i < s.length) :
    charAt (str_to_arg_name s) i =
      if charAt s i = 95 then 45 else tolower (charAt s i) := by
  simp [charAt, str_to_arg_name, List.getD_eq_getElem?_getD, List.getElem?_map,
    List.getElem?_eq_getElem h]

/-! ## Long and short form of a token -/

theorem not_mem_of_not_mem_str_to_arg_name {s : CStr} (h : 61 ∉ str_to_arg_name s) : 61 ∉ s := by
  intro hm
  apply h
  simp only [str_to_arg_name, List.mem_map]
  exact ⟨61, hm, by decide⟩

theorem takeWhile_before_value_eq_take (l : CStr) (k : Nat) (hk : k ≤ l.length)
    (h1 : 61 ∉ l.take k) (h2 : k < l.length → charAt l k = 61) :
    l.takeWhile before_value = l.take k := by
  have hsplit : l = l.take k ++ l.drop k := (List.take_append_drop k l).symm
  by_cases hlt : k < l.length
  · have hd : l.drop k = 61 :: l.drop (k + 1) := by
      have h61 := h2 hlt
      unfold charAt at h61
      rw [List.getD_eq_getElem?_getD, List.getElem?_eq_getElem hlt] at h61
      simp only [Option.getD_some] at h61
      rw [← h61]
      exact List.drop_eq_getElem_cons hlt
    conv_lhs => rw [hsplit, hd]
    exact takeWhile_before_value_append h1 _
  · have hall : l.take k = l := List.take_of_length_le (by omega)
    rw [hall] at h1 ⊢
    exact takeWhile_before_value_self h1

/-- A long-form match pins the name part of the token down to the name. -/
theorem name_matches_of_arg_name_cmp (arg_name : CStr) (short_name : Nat) (rest : CStr)
    (hn : 61 ∉ arg_name) (hs : short_name ≠ 45)
    (h : arg_name_cmp arg_name short_name (45 :: 45 :: rest) = 0) :
    name_matches arg_name (rest.takeWhile before_value) = true := by
  unfold arg_name_cmp at h
  simp only at h
  have hb1 : ¬ ((45 :: 45 :: rest).length ≥ 2 ∧ charAt (45 :: 45 :: rest) 0 = 45 ∧
      charAt (45 :: 45 :: rest) 1 = short_name ∧
      ((45 :: 45 :: rest).length = 2 ∨ charAt (45 :: 45 :: rest) 2 = 61)) := by
    rintro ⟨-, -, h1, -⟩
    simp [charAt] at h1
    exact hs h1.symm
  rw [if_neg hb1] at h
  split_ifs at h with h2 h3 h4 h5
  simp only [List.length_cons] at h2 h4
  have hle : arg_name.length ≤ rest.length := by omega
  have hcmp : str_arg_cmp arg_name rest = 0 := by
    simpa using h5
  unfold str_arg_cmp at hcmp
  rw [str_arg_cmp_from_eq_zero_iff, List.take_of_length_le hle] at hcmp
  have h61 : 61 ∉ rest.take arg_name.length := by
    apply not_mem_of_not_mem_str_to_arg_name
    rw [← hcmp]
    exact not_mem_str_to_arg_name hn
  have htw := takeWhile_before_value_eq_take rest arg_name.length hle h61
    (by
      intro hlt
      by_contra hne
      apply h4
      refine ⟨by omega, ?_⟩
      simpa [charAt] using hne)
  rw [htw, name_matches_iff]
  exact hcmp

/-! ## Scanning a command line behind a prefix that scans without error -/

theorem arg_parser_parse_of_scan {L : Libc} {parser : arg_parser_t} {argv : List CStr}
    {ignore remove : Bool} {r : Scan}
    (h : scan_loop L ignore remove argv.length parser argv 1 = some r) :
    arg_parser_parse L parser argv ignore remove = some r.finish := by
  cases r <;> simp [arg_parser_parse, h, Scan.finish]

theorem scan_loop_more_fuel {L : Libc} {ignore remove : Bool} :
    ∀ (fuel : Nat) (parser : arg_parser_t) (argv : List CStr) (val_iter : Nat) (r : Scan)
      (k : Nat), scan_loop L ignore remove fuel parser argv val_iter = some r →
      scan_loop L ignore remove (fuel + k) parser argv val_iter = some r := by
  intro fuel
  induction fuel with
  | zero =>
    intro parser argv val_iter r k h
    unfold scan_loop at h
    by_cases hlen : argv.length ≤ val_iter
    · simp only [hlen, if_true] at h
      unfold scan_loop
      simp only [hlen, if_true, h]
    · simp [hlen] at h
  | succ fuel ih =>
    intro parser argv val_iter r k h
    unfold scan_loop at h
    by_cases hlen : argv.length ≤ val_iter
    · simp only [hlen, if_true] at h
      unfold scan_loop
      simp only [hlen, if_true, h]
    · simp only [hlen, if_false] at h
      rw [show fuel + 1 + k = (fuel + k) + 1 by omega]
      unfold scan_loop
      simp only [hlen, if_false]
      cases hs : scan_step L ignore remove parser argv val_iter with
      | fail code p1 a1 => simpa [hs] using h
      | next p1 a1 i1 =>
        simp only [hs] at h ⊢
        exact ih p1 a1 i1 r k h

theorem argvAt_append_left {a : List CStr} {i : Nat} (h : i < a.length) (s : List CStr) :
    argvAt (a ++ s) i = argvAt a i := by
  unfold argvAt
  rw [List.getD_eq_getElem?_getD, List.getD_eq_getElem?_getD, List.getElem?_append_left h]

theorem source_value_append {type : ArgType} {flag : CStr} {a : List CStr} {i : Nat}
    {rc : CStr × Nat} (t : CStr) (rest : List CStr) (hi : i < a.length)
    (ht : charAt t 0 = 45) (h : source_value type flag a i = some rc) :
    source_value type flag (a ++ t :: rest) i = some rc := by
  unfold source_value at h ⊢
  cases hstr : strstr_eq flag with
  | some r => rw [hstr] at h; exact h
  | none =>
    rw [hstr] at h
    simp only at h ⊢
    have hlen : ¬ (i + 1 = (a ++ t :: rest).length) := by
      simp only [List.length_append, List.length_cons]; omega
    by_cases hlast : i + 1 = a.length
    · have hnext : argvAt (a ++ t :: rest) (i + 1) = t := by
        rw [hlast]; exact argvAt_append_length a t rest
      by_cases hb : type = ArgBool
      · simp only [hlast, hb, ne_eq, not_true_eq_false, and_false, if_false, true_or,
          if_true] at h
        simp only [hlen, hb, ne_eq, not_true_eq_false, and_false, if_false, hnext, ht,
          false_or, if_true]
        exact h
      · simp [hlast, hb] at h
    · have hlt : i + 1 < a.length := by omega
      rw [argvAt_append_left hlt]
      simp only [hlast, false_and, if_false, false_or] at h
      simp only [hlen, false_and, if_false, false_or]
      exact h

theorem advance_append_right (remove : Bool) (a s : List CStr) (i counter : Nat)
    (h : i + counter ≤ a.length) :
    advance remove (a ++ s) i counter =
      ((advance remove a i counter).1 ++ s, (advance remove a i counter).2) := by
  cases remove
  · simp [advance]
  · simp only [advance, if_true, Prod.mk.injEq, and_true]
    rw [List.take_append_of_le_length (by omega), List.drop_append_of_le_length h,
      List.append_assoc]

/-- An iteration that continues on `a` continues in the same way when a
flag-shaped token and more follow `a`. -/
theorem scan_step_append {L : Libc} {ignore remove : Bool} {parser parser1 : arg_parser_t}
    {a a1 : List CStr} {i i1 : Nat} (t : CStr) (rest : List CStr) (hi : i < a.length)
    (ht : charAt t 0 = 45)
    (h : scan_step L ignore remove parser a i = .next parser1 a1 i1) :
    scan_step L ignore remove parser (a ++ t :: rest) i = .next parser1 (a1 ++ t :: rest) i1 ∧
      i1 ≤ a1.length := by
  have hat : argvAt (a ++ t :: rest) i = argvAt a i := argvAt_append_left hi _
  rcases scan_step_next_cases h with ⟨hc, hp, ha, hi1⟩ | ⟨hc, hf, hig, hp, ha, hi1⟩ |
    ⟨k, arg, retval, counter, hc, hf, hsv, hcv, hp, ha, hi1⟩
  · rw [scan_step_positional L ignore remove parser _ i (by rw [hat]; exact hc), hp, ha, hi1]
    exact ⟨rfl, by omega⟩
  · rw [scan_step_unknown L ignore remove parser _ i (by rw [hat]; exact hc)
      (by rw [hat]; exact hf), hig, hp, ha, hi1, advance_append_right remove a _ i 1 (by omega)]
    refine ⟨by simp, ?_⟩
    cases remove <;> simp [advance] <;> omega
  · have hb : i + counter ≤ a.length := by
      rcases source_value_counter hsv with rfl | ⟨rfl, h2⟩ <;> omega
    have hsv' := source_value_append t rest hi ht hsv
    rw [scan_step_matched L ignore remove parser _ i (by rw [hat]; exact hc)
      (by rw [hat]; exact hf) (by rw [hat]; exact hsv')]
    simp only [store_value, hcv, Bool.true_eq_false, if_false, hp, ha, hi1,
      advance_append_right remove a _ i counter hb]
    refine ⟨trivial, ?_⟩
    cases remove <;> simp [advance] <;> omega

/-- If the scan of `a` ends without error in `(parser1, a1)`, the scan of `a`
followed by a flag-shaped token and more does what the scan started at that
token in `(parser1, a1 ++ ...)` does. -/
theorem scan_loop_append {L : Libc} {ignore remove : Bool} (t : CStr) (rest : List CStr)
    (ht : charAt t 0 = 45) :
    ∀ (fuel : Nat) (parser parser1 : arg_parser_t) (a a1 : List CStr) (i : Nat),
      i ≤ a.length →
      scan_loop L ignore remove fuel parser a i = some (.done parser1 a1) →
      ∀ (k : Nat) (r : Scan),
        scan_loop L ignore remove k parser1 (a1 ++ t :: rest) a1.length = some r →
        scan_loop L ignore remove (fuel + k) parser (a ++ t :: rest) i = some r := by
  intro fuel
  induction fuel with
  | zero =>
    intro parser parser1 a a1 i hi h k r hk
    unfold scan_loop at h
    by_cases hlen : a.length ≤ i
    · simp only [hlen, if_true, Option.some.injEq, Scan.done.injEq] at h
      obtain ⟨rfl, rfl⟩ := h
      have : i = a.length := by omega
      subst this
      simpa using hk
    · simp [hlen] at h
  | succ fuel ih =>
    intro parser parser1 a a1 i hi h k r hk
    unfold scan_loop at h
    by_cases hlen : a.length ≤ i
    · simp only [hlen, if_true, Option.some.injEq, Scan.done.injEq] at h
      obtain ⟨rfl, rfl⟩ := h
      have : i = a.length := by omega
      subst this
      rw [Nat.add_comm]
      exact scan_loop_more_fuel k _ _ _ r (fuel + 1) hk
    · simp only [hlen, if_false] at h
      cases hs : scan_step L ignore remove parser a i with
      | fail code p1 a' => simp [hs] at h
      | next p' a' i' =>
        simp only [hs] at h
        obtain ⟨hs', hi'⟩ := scan_step_append t rest (by omega) ht hs
        rw [show fuel + 1 + k = (fuel + k) + 1 by omega]
        unfold scan_loop
        have hlen' : ¬ (a ++ t :: rest).length ≤ i := by
          simp only [List.length_append, List.length_cons]; omega
        simp only [hlen', if_false, hs']
        exact ih p' parser1 a' a1 i' hi' h k r hk

/-- The outcome of parsing `a ++ t :: rest` when the scan of `a` alone ends
without error in `(parser1, a1)`: it is the outcome of the scan that starts at
`t` in that state. -/
theorem arg_parser_parse_behind_prefix {L : Libc} {ignore remove : Bool}
    {parser parser1 : arg_parser_t} {a a1 : List CStr} (t : CStr) (rest : List CStr)
    (hlen : 1 ≤ a.length) (ht : charAt t 0 = 45)
    (hbefore : scan_loop L ignore remove a.length parser a 1 = some (.done parser1 a1)) :
    ∃ r, scan_loop L ignore remove (rest.length + 1) parser1 (a1 ++ t :: rest) a1.length =
        some r ∧
      arg_parser_parse L parser (a ++ t :: rest) ignore remove = some r.finish := by
  obtain ⟨r, hr⟩ := scan_loop_fuel L ignore remove (rest.length + 1) parser1
    (a1 ++ t :: rest) a1.length (by simp)
  refine ⟨r, hr, arg_parser_parse_of_scan ?_⟩
  have := scan_loop_append t rest ht a.length parser parser1 a a1 1 hlen hbefore _ r hr
  simpa [Nat.add_assoc] using this

theorem find_arg_key_congr (flag : CStr) :
    ∀ (alist alist1 : List arg_desc) (start k : Nat) (arg : arg_desc),
      alist1.map (fun a => (a.name, a.shrt, a.type)) =
        alist.map (fun a => (a.name, a.shrt, a.type)) →
      find_arg flag alist start = some (k, arg) →
      ∃ arg1, find_arg flag alist1 start = some (k, arg1) ∧ arg1.name = arg.name ∧
        arg1.shrt = arg.shrt ∧ arg1.type = arg.type := by
  intro alist
  induction alist with
  | nil => intro alist1 start k arg _ h; simp [find_arg] at h
  | cons a rest ih =>
    intro alist1 start k arg hkeys h
    cases alist1 with
    | nil => simp at hkeys
    | cons b rest1 =>
      simp only [List.map_cons, List.cons.injEq, Prod.mk.injEq] at hkeys
      obtain ⟨⟨hn, hs, ht⟩, hrest⟩ := hkeys
      unfold find_arg at h ⊢
      rw [hn, hs]
      by_cases hm : arg_name_cmp a.name a.shrt flag = 0
      · simp only [hm, if_true, Option.some.injEq, Prod.mk.injEq] at h ⊢
        obtain ⟨rfl, rfl⟩ := h
        exact ⟨b, ⟨rfl, rfl⟩, hn, hs, ht⟩
      · simp only [hm, if_false] at h ⊢
        exact ih rest1 (start + 1) k arg hrest h

theorem source_value_at_suffix (type : ArgType) (t : CStr) (pre rest : List CStr) :
    source_value type t (pre ++ t :: rest) pre.length = source_value type t (t :: rest) 0 := by
  unfold source_value
  have h1 : (pre.length + 1 = (pre ++ t :: rest).length) ↔ (0 + 1 = (t :: rest).length) := by
    simp only [List.length_append, List.length_cons]; omega
  have h2 : argvAt (pre ++ t :: rest) (pre.length + 1) = argvAt (t :: rest) (0 + 1) := by
    cases rest with
    | nil =>
      unfold argvAt
      rw [List.getD_eq_default _ _ (by simp), List.getD_eq_default _ _ (by simp)]
    | cons u rest' =>
      rw [argvAt_append_length_succ]
      rfl
  simp only [h1, h2]

theorem scan_loop_done_length {L : Libc} {ignore remove : Bool} {fuel : Nat}
    {parser parser1 : arg_parser_t} {a a1 : List CStr} {i : Nat} (h1 : 1 ≤ i)
    (h2 : i ≤ a.length)
    (h : scan_loop L ignore remove fuel parser a i = some (.done parser1 a1)) :
    1 ≤ a1.length := by
  obtain ⟨p0, a0, i0, ⟨hi0, hle0⟩, hcase⟩ :=
    @scan_loop_invariant L ignore remove (fun _ a' i' => 1 ≤ i' ∧ i' ≤ a'.length)
      (by
        intro p a' i' p1 a1' i1 ⟨hi, hle⟩ hlt hs
        rcases scan_step_next_cases hs with ⟨-, -, ha, hi1⟩ | ⟨-, -, -, -, ha, hi1⟩ |
          ⟨k, arg, retval, counter, -, -, hsv, -, -, ha, hi1⟩
        · rw [ha, hi1]; exact ⟨by omega, by omega⟩
        · rw [ha, hi1]
          cases remove <;> simp [advance] <;> omega
        · have hb : i' + counter ≤ a'.length := by
            rcases source_value_counter hsv with rfl | ⟨rfl, h2⟩ <;> omega
          rw [ha, hi1]
          cases remove <;> simp [advance] <;> omega)
      fuel parser a i _ ⟨h1, h2⟩ h
  rcases hcase with ⟨-, hr⟩ | ⟨-, _, _, _, -, hr⟩
  · cases hr; omega
  · cases hr

theorem finish_rlist_prefix (r : Scan) :
    ∃ tail, r.finish.parser.rlist = r.parser.rlist ++ tail := by
  cases r with
  | fail code p a => exact ⟨[], by simp [Scan.finish, Scan.parser]⟩
  | done p a =>
    obtain ⟨added, h, -⟩ := defaults_loop_prefix p.alist p.rlist
    exact ⟨added, by simp [Scan.finish, Scan.parser, h]⟩

/-- An entry appended by an iteration that continues stays where it is until
`arg_parser_parse` returns. -/
theorem entry_persists {L : Libc} {ignore remove : Bool} {fuel : Nat}
    {parser parser2 : arg_parser_t} {argv a2 : List CStr} {i i2 : Nat} {r : Scan}
    {e : arg_rval} (hi : i < argv.length) (hi2 : 1 ≤ i2)
    (hs : scan_step L ignore remove parser argv i = .next parser2 a2 i2)
    (he : parser2.rlist = parser.rlist ++ [e])
    (h : scan_loop L ignore remove (fuel + 1) parser argv i = some r) :
    ∃ tail, r.finish.parser.rlist = parser.rlist ++ e :: tail := by
  unfold scan_loop at h
  simp only [Nat.not_le.mpr hi, if_false, hs] at h
  obtain ⟨-, -, added, hadd, -⟩ := scan_loop_frame hi2 h
  obtain ⟨tail, ht⟩ := finish_rlist_prefix r
  exact ⟨added ++ tail, by rw [ht, hadd, he]; simp⟩

/-- The iteration at a flag-shaped token `t` that stands right behind `pre`,
in terms of the descriptor found and the value sourced from `t :: rest`. -/
theorem scan_step_at_token {L : Libc} {ignore remove : Bool} {parser : arg_parser_t}
    {pre : List CStr} {t : CStr} {rest : List CStr} {k : Nat} {arg : arg_desc}
    {retval : CStr} {counter : Nat} (ht : charAt t 0 = 45)
    (hf : find_arg t parser.alist 0 = some (k, arg))
    (hsv : source_value arg.type t (t :: rest) 0 = some (retval, counter)) :
    scan_step L ignore remove parser (pre ++ t :: rest) pre.length =
      store_value L remove parser (pre ++ t :: rest) pre.length k arg retval counter := by
  have hat : argvAt (pre ++ t :: rest) pre.length = t := argvAt_append_length pre t rest
  exact scan_step_matched L ignore remove parser _ _ (by rw [hat]; exact ht)
    (by rw [hat]; exact hf) (by rw [hat, source_value_at_suffix]; exact hsv)

/-- The descriptor that a token finds first in the registry as declared is
found first, up to its found mark, in the state a scan has left. -/
theorem find_arg_after_scan {L : Libc} {ignore remove : Bool} {fuel : Nat}
    {parser parser1 : arg_parser_t} {a a1 : List CStr} {t : CStr} {k : Nat} {arg : arg_desc}
    (hscan : scan_loop L ignore remove fuel parser a 1 = some (.done parser1 a1))
    (hf : find_arg t parser.alist 0 = some (k, arg)) :
    ∃ arg1, find_arg t parser1.alist 0 = some (k, arg1) ∧ arg1.name = arg.name ∧
      arg1.shrt = arg.shrt ∧ arg1.type = arg.type := by
  have hfr := scan_loop_frame (le_refl 1) hscan
  simp only [Scan.parser] at hfr
  exact find_arg_key_congr t parser.alist parser1.alist 0 k arg (scan_frame_keys hfr) hf

/-- What parsing does at a flag-shaped token that the scan reaches without an
earlier error: the entry of its first matching descriptor is appended behind
the entries stored so far; a conversion that fails makes the call return 4
with that entry as the last one, a conversion that succeeds lets the scan go
on and the entry stays in its place. -/
theorem arg_parser_parse_at_token {L : Libc} {ignore remove : Bool}
    {parser parser1 : arg_parser_t} {a a1 : List CStr} {t : CStr} {rest : List CStr}
    {k : Nat} {arg : arg_desc} {retval : CStr} {counter : Nat} (hlen : 1 ≤ a.length)
    (hbefore : scan_loop L ignore remove a.length parser a 1 = some (.done parser1 a1))
    (hflag : charAt t 0 = 45) (hfind : find_arg t parser.alist 0 = some (k, arg))
    (hsrc : source_value arg.type t (t :: rest) 0 = some (retval, counter)) :
    ∃ out, arg_parser_parse L parser (a ++ t :: rest) ignore remove = some out ∧
      ((convert L arg.type retval).2 = false →
        out.code = 4 ∧
        out.parser.rlist = parser1.rlist ++
          [{ name := arg.name, rval := (convert L arg.type retval).1, type := arg.type }]) ∧
      ((convert L arg.type retval).2 = true →
        ∃ tail, out.parser.rlist = parser1.rlist ++
          { name := arg.name, rval := (convert L arg.type retval).1, type := arg.type } :: tail) := by
  obtain ⟨r, hr, hp⟩ := arg_parser_parse_behind_prefix t rest hlen hflag hbefore
  obtain ⟨arg1, hf1, hname, -, hty⟩ := find_arg_after_scan hbefore hfind
  have hstep := @scan_step_at_token L ignore remove parser1 a1 t rest k arg1 retval counter
    hflag hf1 (by rw [hty]; exact hsrc)
  have hlt : a1.length < (a1 ++ t :: rest).length := by
    simp only [List.length_append, List.length_cons]; omega
  refine ⟨_, hp, ?_, ?_⟩
  · intro hconv
    unfold scan_loop at hr
    simp only [Nat.not_le.mpr hlt, if_false, hstep, store_value, hty, hname, hconv, if_true,
      Option.some.injEq] at hr
    subst hr
    exact ⟨rfl, rfl⟩
  · intro hconv
    have hstep2 : scan_step L ignore remove parser1 (a1 ++ t :: rest) a1.length =
        .next { alist := parser1.alist.set k { arg1 with flgs := arg1.flgs ||| ArgFound },
                rlist := parser1.rlist ++
                  [{ name := arg.name, rval := (convert L arg.type retval).1,
                     type := arg.type }] }
          (advance remove (a1 ++ t :: rest) a1.length counter).1
          (advance remove (a1 ++ t :: rest) a1.length counter).2 := by
      rw [hstep]
      simp only [store_value, hty, hname, hconv, Bool.true_eq_false, if_false]
    have h1 := scan_loop_done_length (le_refl 1) hlen hbefore
    have hi2 : 1 ≤ (advance remove (a1 ++ t :: rest) a1.length counter).2 := by
      cases remove <;> simp [advance] <;> omega
    exact entry_persists hlt hi2 hstep2 rfl hr

/-! ## Decimal texts and the integer conversions -/

theorem scan_loop_positional {L : Libc} {ignore remove : Bool} :
    ∀ (fuel : Nat) (parser : arg_parser_t) (a : List CStr) (i : Nat),
      a.length - i ≤ fuel → (∀ t ∈ a.drop i, charAt t 0 ≠ 45) →
      scan_loop L ignore remove fuel parser a i = some (.done parser a) := by
  intro fuel
  induction fuel with
  | zero =>
    intro parser a i hf _
    unfold scan_loop
    rw [if_pos (by omega)]
  | succ fuel ih =>
    intro parser a i hf hpos
    unfold scan_loop
    by_cases hle : a.length ≤ i
    · rw [if_pos hle]
    · rw [if_neg hle]
      have hlt : i < a.length := by omega
      have hd := drop_eq_argvAt_cons hlt
      have hc : charAt (argvAt a i) 0 ≠ 45 := hpos _ (by rw [hd]; exact List.mem_cons_self _ _)
      simp only [scan_step_positional L ignore remove parser a i hc]
      exact ih parser a (i + 1) (by omega)
        (fun t ht => hpos t (by rw [hd]; exact List.mem_cons_of_mem _ ht))

theorem scan_loop_stream {L : Libc} {ignore remove : Bool} {fuel : Nat} {parser : arg_parser_t}
    {argv : List CStr} {r : Scan} (hlen : 1 ≤ argv.length)
    (h : scan_loop L ignore remove fuel parser argv 1 = some r) :
    1 ≤ r.argv.length ∧ r.argv.take 1 = argv.take 1 ∧ List.Sublist r.argv argv := by
  obtain ⟨p0, a0, i0, ⟨hi0, hle0, htk0, hsub0⟩, hcase⟩ :=
    @scan_loop_invariant L ignore remove
      (fun _ a' i' => 1 ≤ i' ∧ i' ≤ a'.length ∧ a'.take 1 = argv.take 1 ∧ List.Sublist a' argv)
      (by
        intro p a' i' p1 a1' i1 ⟨hi, hle, htk, hsub⟩ hlt hs
        have key : ∀ counter, i' + counter ≤ a'.length →
            1 ≤ (advance remove a' i' counter).2 ∧
            (advance remove a' i' counter).2 ≤ (advance remove a' i' counter).1.length ∧
            (advance remove a' i' counter).1.take 1 = argv.take 1 ∧
            List.Sublist (advance remove a' i' counter).1 argv := by
          intro counter hb
          cases remove
          · simp only [advance_keep]
            exact ⟨by omega, hb, htk, hsub⟩
          · simp only [advance, if_true]
            refine ⟨hi, ?_, ?_, ?_⟩
            · simp only [List.length_append, List.length_take, List.length_drop]
              omega
            · rw [List.take_append_of_le_length (by simp; omega), List.take_take]
              simpa [Nat.min_eq_left hi] using htk
            · refine List.Sublist.trans ?_ hsub
              conv_rhs => rw [← List.take_append_drop i' a']
              exact List.Sublist.append_left
                (List.drop_sublist_drop_left a' (Nat.le_add_right i' counter)) _
        rcases scan_step_next_cases hs with ⟨-, -, ha, hi1⟩ | ⟨-, -, -, -, ha, hi1⟩ |
          ⟨k, arg, retval, counter, -, -, hsv, -, -, ha, hi1⟩
        · rw [ha, hi1]; exact ⟨by omega, by omega, htk, hsub⟩
        · rw [ha, hi1]; exact key 1 (by omega)
        · have hb : i' + counter ≤ a'.length := by
            rcases source_value_counter hsv with rfl | ⟨rfl, h2⟩ <;> omega
          rw [ha, hi1]; exact key counter hb)
      fuel parser argv 1 _ ⟨le_refl 1, hlen, rfl, List.Sublist.refl _⟩ h
  rcases hcase with ⟨-, hr⟩ | ⟨-, code, p1, a1, hfail, hr⟩
  · subst hr
    exact ⟨by simp only [Scan.argv]; omega, htk0, hsub0⟩
  · subst hr
    obtain ⟨-, ha1, -⟩ := scan_step_fail_cases hfail
    simp only [Scan.argv, ha1]
    exact ⟨by omega, htk0, hsub0⟩

theorem finish_argv (r : Scan) : r.finish.argv = r.argv := by
  cases r <;> rfl

/-! ## The scan depends on the tokens from the index on only -/

theorem argvAt_drop (a : List CStr) (i j : Nat) : argvAt (a.drop i) j = argvAt a (i + j) := by
  unfold argvAt
  rw [List.getD_eq_getElem?_getD, List.getD_eq_getElem?_getD, List.getElem?_drop]

theorem source_value_drop (type : ArgType) (flag : CStr) (a : List CStr) (i : Nat)
    (hi : i < a.length) :
    source_value type flag a i = source_value type flag (a.drop i) 0 := by
  have h1 : (i + 1 = a.length) ↔ (0 + 1 = (a.drop i).length) := by
    rw [List.length_drop]; omega
  have h2 : argvAt (a.drop i) (0 + 1) = argvAt a (i + 1) := argvAt_drop a i 1
  unfold source_value
  simp only [h1, h2]

theorem scan_step_suffix {L : Libc} {ignore : Bool} (remove remove1 : Bool)
    (parser : arg_parser_t) {a b : List CStr} {i j : Nat} (hi : i < a.length)
    (h : a.drop i = b.drop j) :
    (∃ code parser1, scan_step L ignore remove parser a i = .fail code parser1 a ∧
        scan_step L ignore remove1 parser b j = .fail code parser1 b) ∨
    (∃ parser1 a1 i1 b1 j1, scan_step L ignore remove parser a i = .next parser1 a1 i1 ∧
        scan_step L ignore remove1 parser b j = .next parser1 b1 j1 ∧
        a1.drop i1 = b1.drop j1) := by
  have hj : j < b.length := by
    have := congrArg List.length h
    simp only [List.length_drop] at this
    omega
  have hflag : argvAt b j = argvAt a i := by
    have h1 := argvAt_drop a i 0
    have h2 := argvAt_drop b j 0
    rw [Nat.add_zero] at h1 h2
    rw [← h1, ← h2, h]
  have hadv : ∀ counter, (advance remove a i counter).1.drop (advance remove a i counter).2 =
      (advance remove1 b j counter).1.drop (advance remove1 b j counter).2 := by
    intro counter
    rw [advance_drop remove a i counter (by omega), advance_drop remove1 b j counter (by omega),
      ← List.drop_drop, ← List.drop_drop, h]
  by_cases hc : charAt (argvAt a i) 0 = 45
  · cases hf : find_arg (argvAt a i) parser.alist 0 with
    | none =>
      rw [scan_step_unknown L ignore remove parser a i hc hf,
        scan_step_unknown L ignore remove1 parser b j (by rw [hflag]; exact hc)
          (by rw [hflag]; exact hf)]
      cases ignore
      · left; exact ⟨2, parser, by simp, by simp⟩
      · right; exact ⟨parser, _, _, _, _, by simp, by simp, hadv 1⟩
    | some ka =>
      obtain ⟨k, arg⟩ := ka
      have hsv : source_value arg.type (argvAt b j) b j =
          source_value arg.type (argvAt a i) a i := by
        rw [source_value_drop _ _ a i hi, source_value_drop _ _ b j hj, hflag, h]
      cases hs : source_value arg.type (argvAt a i) a i with
      | none =>
        rw [scan_step_novalue L ignore remove parser a i hc hf hs,
          scan_step_novalue L ignore remove1 parser b j (by rw [hflag]; exact hc)
            (by rw [hflag]; exact hf) (by rw [hsv]; exact hs)]
        left; exact ⟨1, parser, rfl, rfl⟩
      | some rc =>
        obtain ⟨retval, counter⟩ := rc
        rw [scan_step_matched L ignore remove parser a i hc hf hs,
          scan_step_matched L ignore remove1 parser b j (by rw [hflag]; exact hc)
            (by rw [hflag]; exact hf) (by rw [hsv]; exact hs)]
        unfold store_value
        cases hcv : (convert L arg.type retval).2
        · simp only [if_true]
          left; exact ⟨4, _, rfl, rfl⟩
        · simp only [Bool.true_eq_false, if_false]
          right; exact ⟨_, _, _, _, _, rfl, rfl, hadv counter⟩
  · rw [scan_step_positional L ignore remove parser a i hc,
      scan_step_positional L ignore remove1 parser b j (by rw [hflag]; exact hc)]
    right
    refine ⟨parser, a, i + 1, b, j + 1, rfl, rfl, ?_⟩
    rw [← List.drop_drop, ← List.drop_drop, h]

theorem scan_loop_suffix {L : Libc} {ignore : Bool} (remove remove1 : Bool) :
    ∀ (fuel : Nat) (parser : arg_parser_t) (a b : List CStr) (i j : Nat),
      a.drop i = b.drop j →
      (scan_loop L ignore remove fuel parser a i).map Scan.outcome =
        (scan_loop L ignore remove1 fuel parser b j).map Scan.outcome := by
  intro fuel
  induction fuel with
  | zero =>
    intro parser a b i j h
    have hl := congrArg List.length h
    simp only [List.length_drop] at hl
    unfold scan_loop
    by_cases hle : a.length ≤ i
    · rw [if_pos hle, if_pos (by omega)]; rfl
    · rw [if_neg hle, if_neg (by omega)]
  | succ fuel ih =>
    intro parser a b i j h
    have hl := congrArg List.length h
    simp only [List.length_drop] at hl
    unfold scan_loop
    by_cases hle : a.length ≤ i
    · rw [if_pos hle, if_pos (by omega)]; rfl
    · rw [if_neg hle, if_neg (by omega)]
      rcases @scan_step_suffix L ignore remove remove1 parser a b i j (by omega) h with
        ⟨code, p1, h1, h2⟩ | ⟨p1, a1, i1, b1, j1, h1, h2, hd⟩
      · simp only [h1, h2]; rfl
      · simp only [h1, h2]
        exact ih p1 a1 b1 i1 j1 hd

theorem finish_outcome {r s : Scan} (h : r.outcome = s.outcome) :
    r.finish.code = s.finish.code ∧ r.finish.parser = s.finish.parser := by
  cases r <;> cases s <;> simp only [Scan.outcome, Prod.mk.injEq] at h
  · obtain ⟨-, rfl⟩ := h; exact ⟨rfl, rfl⟩
  · exact absurd h.1 (by simp)
  · exact absurd h.1 (by simp)
  · obtain ⟨h1, rfl⟩ := h
    simp only [Option.some.injEq] at h1
    subst h1
    exact ⟨rfl, rfl⟩

/-! ## The first matching descriptor -/

theorem find_arg_first {flag : CStr} :
    ∀ (alist : List arg_desc) (start j : Nat) (d : arg_desc),
      alist[j]? = some d → arg_name_cmp d.name d.shrt flag = 0 →
      (∀ i e, i < j → alist[i]? = some e → arg_name_cmp e.name e.shrt flag ≠ 0) →
      find_arg flag alist start = some (start + j, d) := by
  intro alist
  induction alist with
  | nil => intro start j d h; simp at h
  | cons x xs ih =>
    intro start j d h hm hleast
    cases j with
    | zero =>
      simp only [List.getElem?_cons_zero, Option.some.injEq] at h
      subst h
      simp [find_arg, hm]
    | succ j =>
      have hx : arg_name_cmp x.name x.shrt flag ≠ 0 := hleast 0 x (by omega) (by simp)
      simp only [List.getElem?_cons_succ] at h
      simp only [find_arg, hx, if_false]
      rw [ih (start + 1) j d h hm (fun i e hi he => hleast (i + 1) e (by omega) (by simpa using he))]
      congr 2
      omega

/-! ## The store after a successful call -/

theorem flag_tokens_cons (alist : List arg_desc) (t : CStr) (s : List CStr) :
    flag_tokens alist (t :: s) =
      if charAt t 0 ≠ 45 then flag_tokens alist s
      else
        match find_arg t alist 0 with
        | none => flag_tokens alist s
        | some (k, d) =>
          if 0 < s.length ∧ takes_next alist t (s.headD []) = true then
            (k, d, s.headD []) :: flag_tokens alist (s.drop 1)
          else (k, d, token_value t) :: flag_tokens alist s := by
  cases s with
  | nil =>
    simp only [flag_tokens, List.length_nil, Nat.lt_irrefl, false_and, if_false]
  | cons next rest =>
    simp only [flag_tokens, List.length_cons, Nat.zero_lt_succ, true_and, List.headD_cons,
      List.drop_succ_cons, List.drop_zero]

theorem source_value_retval {type : ArgType} {flag : CStr} {argv : List CStr} {i : Nat}
    {retval : CStr} {counter : Nat}
    (h : source_value type flag argv i = some (retval, counter)) :
    (counter = 2 ∧ retval = argvAt argv (i + 1)) ∨ (counter = 1 ∧ retval = token_value flag) := by
  unfold source_value at h
  unfold token_value
  cases hs : strstr_eq flag with
  | some r =>
    simp only [hs, Option.some.injEq, Prod.mk.injEq] at h
    right; exact ⟨h.2.symm, h.1.symm⟩
  | none =>
    simp only [hs] at h
    split_ifs at h <;> simp only [Option.some.injEq, Prod.mk.injEq] at h
    · left; exact ⟨h.2.symm, h.1.symm⟩
    · right; exact ⟨h.2.symm, h.1.symm⟩
    · left; exact ⟨h.2.symm, h.1.symm⟩

theorem flag_tokens_positional (alist : List arg_desc) {argv : List CStr} {i : Nat}
    (h : i < argv.length) (hc : charAt (argvAt argv i) 0 ≠ 45) :
    flag_tokens alist (argv.drop i) = flag_tokens alist (argv.drop (i + 1)) := by
  rw [drop_eq_argvAt_cons h, flag_tokens_cons, if_pos hc]

theorem flag_tokens_unknown (alist : List arg_desc) {argv : List CStr} {i : Nat}
    (h : i < argv.length) (hc : charAt (argvAt argv i) 0 = 45)
    (hf : find_arg (argvAt argv i) alist 0 = none) :
    flag_tokens alist (argv.drop i) = flag_tokens alist (argv.drop (i + 1)) := by
  rw [drop_eq_argvAt_cons h, flag_tokens_cons, if_neg (by simpa using hc)]
  simp only [hf]

theorem flag_tokens_matched (alist : List arg_desc) {argv : List CStr} {i k : Nat}
    {d : arg_desc} {retval : CStr} {counter : Nat} (h : i < argv.length)
    (hc : charAt (argvAt argv i) 0 = 45)
    (hf : find_arg (argvAt argv i) alist 0 = some (k, d))
    (hs : source_value d.type (argvAt argv i) argv i = some (retval, counter)) :
    flag_tokens alist (argv.drop i) =
      (k, d, retval) :: flag_tokens alist (argv.drop (i + counter)) := by
  have hhead : (argv.drop (i + 1)).headD [] = argvAt argv (i + 1) :=
    (argvAt_eq_head_drop argv (i + 1)).symm
  have hlen : 0 < (argv.drop (i + 1)).length ↔ i + 1 < argv.length := by
    rw [List.length_drop]; omega
  rw [drop_eq_argvAt_cons h, flag_tokens_cons, if_neg (by simpa using hc)]
  simp only [hf, hhead, hlen, List.drop_drop]
  rcases source_value_takes_next h hf hs with ⟨hc2, hlt, htn⟩ | ⟨hc1, htn⟩
  · rcases source_value_retval hs with ⟨-, hr⟩ | ⟨hc1, -⟩
    · rw [if_pos ⟨hlt, htn⟩, hr, hc2]
    · omega
  · rcases source_value_retval hs with ⟨hc2, -⟩ | ⟨-, hr⟩
    · omega
    · rw [if_neg (by
        rintro ⟨hlt, htn1⟩
        rw [htn hlt] at htn1
        exact absurd htn1 (by simp)), hr, hc1]
theorem mark_found_congr {ks ks1 : List Nat} :
    ∀ (al : List arg_desc) (j : Nat), (∀ i, j ≤ i → (i ∈ ks ↔ i ∈ ks1)) →
      mark_found ks al j = mark_found ks1 al j := by
  intro al
  induction al with
  | nil => intro j _; rfl
  | cons d rest ih =>
    intro j h
    simp only [mark_found, h j (le_refl j)]
    rw [ih (j + 1) (fun i hi => h i (by omega))]

theorem mark_found_nil : ∀ (al : List arg_desc) (j : Nat), mark_found [] al j = al := by
  intro al
  induction al with
  | nil => intro j; rfl
  | cons d rest ih => intro j; simp [mark_found, ih]

theorem mark_found_keys (ks : List Nat) :
    ∀ (al : List arg_desc) (j : Nat),
      (mark_found ks al j).map (fun a => (a.name, a.shrt, a.type)) =
        al.map (fun a => (a.name, a.shrt, a.type)) := by
  intro al
  induction al with
  | nil => intro j; rfl
  | cons d rest ih =>
    intro j
    simp only [mark_found, List.map_cons, ih]
    split <;> rfl

theorem mark_found_set {ks : List Nat} :
    ∀ (al : List arg_desc) (j k : Nat) (arg1 : arg_desc),
      (mark_found ks al j)[k]? = some arg1 →
      (mark_found ks al j).set k { arg1 with flgs := arg1.flgs ||| ArgFound } =
        mark_found (ks ++ [j + k]) al j := by
  intro al
  induction al with
  | nil => intro j k arg1 h; simp [mark_found] at h
  | cons d rest ih =>
    intro j k arg1 h
    cases k with
    | zero =>
      simp only [mark_found, List.getElem?_cons_zero, Option.some.injEq] at h
      simp only [mark_found, List.set_cons_zero, Nat.add_zero, List.mem_append,
        List.mem_singleton, or_true, if_true]
      rw [@mark_found_congr ks (ks ++ [j]) rest (j + 1) (fun i hi => by
        simp only [List.mem_append, List.mem_singleton]
        constructor
        · intro hm; exact Or.inl hm
        · rintro (hm | hm)
          · exact hm
          · omega)]
      congr 1
      rw [← h]
      split
      · simp only [Nat.or_assoc, Nat.or_self]
      · rfl
    | succ k =>
      simp only [mark_found, List.getElem?_cons_succ] at h
      simp only [mark_found, List.set_cons_succ]
      have hj : (j ∈ ks ++ [j + (k + 1)]) ↔ j ∈ ks := by
        simp only [List.mem_append, List.mem_singleton]
        constructor
        · rintro (hm | hm)
          · exact hm
          · omega
        · intro hm; exact Or.inl hm
      rw [ih (j + 1) k arg1 h, show j + 1 + k = j + (k + 1) by omega]
      simp only [hj]

theorem mark_found_defaults {ks : List Nat} :
    ∀ (al : List arg_desc) (j : Nat), (∀ d ∈ al, has_flag d.flgs ArgFound = false) →
      ((mark_found ks al j).filter pending_default).map default_entry =
        default_entries ks al j := by
  intro al
  induction al with
  | nil => intro j _; rfl
  | cons d rest ih =>
    intro j h
    have hd := h d (List.mem_cons_self _ _)
    have ih1 := ih (j + 1) (fun e he => h e (List.mem_cons_of_mem _ he))
    simp only [mark_found, default_entries]
    by_cases hj : j ∈ ks
    · have hp : pending_default { d with flgs := d.flgs ||| ArgFound } = false := by
        simp [pending_default, found_after_mark]
      simp only [hj, if_true, List.filter_cons, hp, not_true_eq_false, and_false, if_false]
      exact ih1
    · cases hdef : has_flag d.flgs ArgDefault
      · have hp : pending_default d = false := by simp [pending_default, hdef]
        simp only [hj, if_false, List.filter_cons, hp, Bool.false_eq_true, false_and]
        exact ih1
      · have hp : pending_default d = true := by simp [pending_default, hdef, hd]
        simp only [hj, if_false, List.filter_cons, hp, if_true, List.map_cons, not_false_eq_true,
          and_self, ih1]

theorem scan_loop_flag_tokens {L : Libc} {ignore remove : Bool} {fuel : Nat}
    {parser parser1 : arg_parser_t} {argv argv1 : List CStr}
    (h : scan_loop L ignore remove fuel parser argv 1 = some (.done parser1 argv1)) :
    parser1.rlist = parser.rlist ++
        (flag_tokens parser.alist (argv.drop 1)).map (token_entry L) ∧
      parser1.alist =
        mark_found ((flag_tokens parser.alist (argv.drop 1)).map (fun m => m.1))
          parser.alist 0 := by
  obtain ⟨p0, a0, i0, ⟨E, hrl, hE, hal⟩, hcase⟩ :=
    @scan_loop_invariant L ignore remove
      (fun p a i => ∃ E : List (Nat × arg_desc × CStr),
        p.rlist = parser.rlist ++ E.map (token_entry L) ∧
        E ++ flag_tokens parser.alist (a.drop i) = flag_tokens parser.alist (argv.drop 1) ∧
        p.alist = mark_found (E.map (fun m => m.1)) parser.alist 0)
      (by
        intro p a i p1 a1 i1 ⟨E, hrl, hE, hal⟩ hlt hs
        have hkeys : parser.alist.map (fun a => (a.name, a.shrt, a.type)) =
            p.alist.map (fun a => (a.name, a.shrt, a.type)) := by
          rw [hal, mark_found_keys]
        rcases scan_step_next_cases hs with ⟨hc, hp, ha, hi1⟩ | ⟨hc, hf, -, hp, ha, hi1⟩ |
          ⟨k, arg1, retval, counter, hc, hf, hsv, -, hp, ha, hi1⟩
        · refine ⟨E, by rw [hp]; exact hrl, ?_, by rw [hp]; exact hal⟩
          rw [ha, hi1, ← flag_tokens_positional parser.alist hlt hc]
          exact hE
        · have hf0 : find_arg (argvAt a i) parser.alist 0 = none := by
            cases hf0 : find_arg (argvAt a i) parser.alist 0 with
            | none => rfl
            | some kd =>
              obtain ⟨k, d⟩ := kd
              obtain ⟨arg1, hf1, -⟩ := find_arg_key_congr (argvAt a i) parser.alist p.alist 0 k d
                hkeys.symm hf0
              rw [hf] at hf1
              exact absurd hf1 (by simp)
          refine ⟨E, by rw [hp]; exact hrl, ?_, by rw [hp]; exact hal⟩
          rw [ha, hi1, advance_drop remove a i 1 (by omega),
            ← flag_tokens_unknown parser.alist hlt hc hf0]
          exact hE
        · obtain ⟨d, hf0, hname, -, hty⟩ :=
            find_arg_key_congr (argvAt a i) p.alist parser.alist 0 k arg1 hkeys hf
          have hsv0 : source_value d.type (argvAt a i) a i = some (retval, counter) := by
            rw [hty]; exact hsv
          obtain ⟨-, hat, -, -⟩ := find_arg_some hf
          rw [Nat.sub_zero, hal] at hat
          refine ⟨E ++ [(k, d, retval)], ?_, ?_, ?_⟩
          · rw [hp]
            simp only [hrl, List.map_append, List.map_cons, List.map_nil, token_entry, hname, hty,
              List.append_assoc]
          · rw [ha, hi1, advance_drop remove a i counter (by omega), List.append_assoc,
              List.singleton_append, ← flag_tokens_matched parser.alist hlt hc hf0 hsv0]
            exact hE
          · rw [hp]
            simp only [hal, List.map_append, List.map_cons, List.map_nil]
            have := mark_found_set parser.alist 0 k arg1 hat
            rw [Nat.zero_add] at this
            exact this)
      fuel parser argv 1 _ ⟨[], by simp, by simp, by simp [mark_found_nil]⟩ h
  rcases hcase with ⟨hle, hr⟩ | ⟨-, _, _, _, -, hr⟩
  · cases hr
    rw [List.drop_eq_nil_of_le hle] at hE
    simp only [flag_tokens, List.append_nil] at hE
    subst hE
    exact ⟨hrl, hal⟩
  · cases hr

/-! ## Checked reads -/

theorem str_arg_cmp_checked_eq (lhs val : CStr) (off : Nat) :
    ∀ (n i : Nat), lhs.length - i ≤ n →
      str_arg_cmp_checked lhs val off n i =
        some (str_arg_cmp_from i (lhs.drop i) ((val.drop off).drop i)) := by
  intro n
  induction n with
  | zero =>
    intro i h
    have : lhs.drop i = [] := List.drop_eq_nil_of_le (by omega)
    simp [str_arg_cmp_checked, this, str_arg_cmp_from]
  | succ n ih =>
    intro i h
    unfold str_arg_cmp_checked
    by_cases hc : i < lhs.length ∧ i < val.length - off
    · obtain ⟨h1, h2⟩ := hc
      have hl : lhs.drop i = charAt lhs i :: lhs.drop (i + 1) := by
        unfold charAt
        rw [List.getD_eq_getElem?_getD, List.getElem?_eq_getElem h1]
        exact List.drop_eq_getElem_cons h1
      have h3 : i < (val.drop off).length := by rw [List.length_drop]; exact h2
      have hr : (val.drop off).drop i =
          charAt val (off + i) :: (val.drop off).drop (i + 1) := by
        have : charAt val (off + i) = (val.drop off)[i] := by
          unfold charAt
          rw [List.getD_eq_getElem?_getD, List.getElem_drop,
            List.getElem?_eq_getElem (by omega)]
          rfl
        rw [this]
        exact List.drop_eq_getElem_cons h3
      rw [if_pos ⟨h1, h2⟩, hl, hr]
      simp only [read_char, if_pos (Nat.le_of_lt h1), if_pos (show off + i ≤ val.length by omega),
        Option.some_bind, str_arg_cmp_from]
      rw [ih (i + 1) (by omega)]
      exact (apply_ite some _ _ _).symm
    · rw [if_neg hc]
      have : lhs.drop i = [] ∨ (val.drop off).drop i = [] := by
        by_cases h1 : i < lhs.length
        · right
          apply List.drop_eq_nil_of_le
          rw [List.length_drop]
          omega
        · left
          exact List.drop_eq_nil_of_le (by omega)
      rcases this with h0 | h0
      · rw [h0]; simp [str_arg_cmp_from]
      · rw [h0]
        cases lhs.drop i <;> simp [str_arg_cmp_from]

theorem arg_name_cmp_checked_eq (arg_name : CStr) (short_name : Nat) (val : CStr) :
    arg_name_cmp_checked arg_name short_name val =
      some (arg_name_cmp arg_name short_name val) := by
  unfold arg_name_cmp_checked arg_name_cmp
  simp only [read_char, ge_iff_le, gt_iff_lt]
  by_cases h2 : 2 ≤ val.length
  · have r0 : (0 : Nat) ≤ val.length := by omega
    have r1 : (1 : Nat) ≤ val.length := by omega
    simp only [h2, r0, r1, le_refl, if_true, true_and, Option.some_bind, Option.map_some']
    by_cases hs : charAt val 0 = 45 ∧ charAt val 1 = short_name ∧
        (val.length = 2 ∨ charAt val 2 = 61)
    · obtain ⟨a, b, c⟩ := hs
      rcases c with c | c
      · simp [a, b, c]
      · by_cases c2 : val.length = 2
        · simp [a, b, c2]
        · simp [a, b, c, c2, show 2 ≤ val.length by omega]
    · have hshort : (if charAt val 0 = 45 then
            if charAt val 1 = short_name then
              if val.length = 2 then some true
              else Option.map (fun c2 => decide (c2 = 61)) (some (charAt val 2))
            else some false
          else some false) = some false := by
        by_cases a : charAt val 0 = 45
        · by_cases b : charAt val 1 = short_name
          · by_cases c : val.length = 2
            · exact absurd ⟨a, b, Or.inl c⟩ hs
            · by_cases d : charAt val 2 = 61
              · exact absurd ⟨a, b, Or.inr d⟩ hs
              · simp [a, b, c, d]
          · simp [a, b]
        · simp [a]
      have h2' : (2 : Nat) ≤ val.length := h2
      simp only [show (2 : Nat) ≤ val.length from h2, if_true, Option.map_some'] at hshort ⊢
      rw [hshort, if_neg hs]
      simp only [Option.some_bind, Bool.false_eq_true, if_false]
      by_cases hlen : val.length < arg_name.length + 2
      · simp [hlen]
      · simp only [hlen, if_false]
        by_cases hh : charAt val 0 ≠ 45 ∧ charAt val 1 ≠ 45
        · simp [hh.1, hh.2]
        · have hno : (if charAt val 0 ≠ 45 then some (decide (charAt val 1 ≠ 45))
              else some false) = some false := by
            by_cases a : charAt val 0 = 45
            · simp [a]
            · have b : charAt val 1 = 45 := by
                by_contra b; exact hh ⟨a, b⟩
              simp [a, b]
          rw [hno, if_neg hh]
          simp only [Option.some_bind, Bool.false_eq_true, if_false]
          have hle : arg_name.length + 2 ≤ val.length := by omega
          by_cases hl : arg_name.length + 2 < val.length ∧
              charAt val (arg_name.length + 2) ≠ 61
          · simp [hl.1, hl.2, hle]
          · have hlo : (if arg_name.length + 2 < val.length then
                  (if arg_name.length + 2 ≤ val.length then
                    some (charAt val (arg_name.length + 2)) else none).map
                    fun c => decide (c ≠ 61)
                else some false) = some false := by
              by_cases a : arg_name.length + 2 < val.length
              · have b : charAt val (arg_name.length + 2) = 61 := by
                  by_contra b; exact hl ⟨a, b⟩
                simp [a, b, hle]
              · simp [a]
            rw [hlo, if_neg hl]
            simp only [Option.some_bind, Bool.false_eq_true, if_false]
            rw [str_arg_cmp_checked_eq arg_name val 2 arg_name.length 0 (by omega)]
            simp only [Option.some_bind, List.drop_zero, str_arg_cmp]
            split <;> rfl
  · have hs : ¬ (2 ≤ val.length ∧ charAt val 0 = 45 ∧ charAt val 1 = short_name ∧
        (val.length = 2 ∨ charAt val 2 = 61)) := fun h => h2 h.1
    have hlen : val.length < arg_name.length + 2 := by omega
    simp [h2, hlen]
theorem find_arg_checked_eq (flag : CStr) :
    ∀ (alist : List arg_desc) (k : Nat),
      find_arg_checked flag alist k = some (find_arg flag alist k) := by
  intro alist
  induction alist with
  | nil => intro k; rfl
  | cons d rest ih =>
    intro k
    simp only [find_arg_checked, find_arg, arg_name_cmp_checked_eq, Option.some_bind, ih]
    split <;> rfl

theorem source_value_checked_eq (type : ArgType) (flag : CStr) (argv : List CStr) (i : Nat)
    (hi : i < argv.length) :
    source_value_checked type flag argv i = some (source_value type flag argv i) := by
  unfold source_value_checked source_value
  cases strstr_eq flag with
  | some r => rfl
  | none =>
    simp only
    by_cases h1 : i + 1 = argv.length ∧ type ≠ ArgBool
    · rw [if_pos h1, if_pos h1]
    · rw [if_neg h1, if_neg h1]
      by_cases h2 : type ≠ ArgBool
      · have hlt : i + 1 < argv.length := by
          by_contra hc
          exact h1 ⟨by omega, h2⟩
        have hrd : read_token argv (i + 1) = some (argvAt argv (i + 1)) := by
          unfold read_token argvAt
          rw [List.getD_eq_getElem?_getD, List.getElem?_eq_getElem hlt]
          rfl
        rw [if_pos h2, if_pos h2, hrd]
        rfl
      · rw [if_neg h2, if_neg h2]
        by_cases h3 : i + 1 = argv.length
        · simp [h3]
        · have hlt : i + 1 < argv.length := by omega
          have hrd : read_token argv (i + 1) = some (argvAt argv (i + 1)) := by
            unfold read_token argvAt
            rw [List.getD_eq_getElem?_getD, List.getElem?_eq_getElem hlt]
            rfl
          rw [if_neg h3, hrd]
          simp only [Option.some_bind, read_char, Nat.zero_le, if_true, Option.map_some', h3,
            false_or]

theorem shift_checked_eq (counter : Nat) :
    ∀ (n i : Nat) (argv : List CStr), i + n + counter ≤ argv.length →
      ∃ a, shift_checked counter n i argv = some a ∧ a.length = argv.length ∧
        ∀ j, a[j]? = if i ≤ j ∧ j < i + n then argv[j + counter]? else argv[j]? := by
  intro n
  induction n with
  | zero =>
    intro i argv _
    refine ⟨argv, rfl, rfl, ?_⟩
    intro j
    rw [if_neg (by omega)]
  | succ n ih =>
    intro i argv h
    have hlt : i + counter < argv.length := by omega
    have hi : i < argv.length := by omega
    obtain ⟨a, ha, hlen, hget⟩ := ih (i + 1) (argv.set i argv[i + counter])
      (by rw [List.length_set]; omega)
    refine ⟨a, ?_, by rw [hlen, List.length_set], ?_⟩
    · unfold shift_checked
      simp only [read_token, List.getElem?_eq_getElem hlt, Option.some_bind, hi, if_true]
      exact ha
    · intro j
      rw [hget j]
      by_cases h1 : i + 1 ≤ j ∧ j < i + 1 + n
      · rw [if_pos h1, if_pos (by omega), List.getElem?_set_ne (by omega)]
      · rw [if_neg h1]
        by_cases h2 : j = i
        · subst h2
          rw [if_pos (by omega), List.getElem?_set_eq_of_lt _ hi, List.getElem?_eq_getElem hlt]
        · rw [if_neg (by omega), List.getElem?_set_ne (by omega)]

theorem advance_checked_eq (remove : Bool) (argv : List CStr) (i counter : Nat)
    (h : i + counter ≤ argv.length) :
    advance_checked remove argv i counter = some (advance remove argv i counter) := by
  unfold advance_checked advance
  cases remove
  · rfl
  · simp only [if_true]
    obtain ⟨a, ha, hlen, hget⟩ := shift_checked_eq counter (argv.length - counter - i) i argv
      (by omega)
    rw [ha]
    simp only [Option.map_some', Option.some.injEq, Prod.mk.injEq, and_true]
    apply List.ext_getElem?
    intro j
    by_cases hj : j < argv.length - counter
    · rw [List.getElem?_take_of_lt hj, hget j]
      by_cases hij : j < i
      · rw [if_neg (by omega), List.getElem?_append_left (by simp; omega),
          List.getElem?_take_of_lt hij]
      · rw [if_pos (by omega), List.getElem?_append_right (by simp; omega), List.getElem?_drop]
        congr 1
        simp only [List.length_take]
        omega
    · rw [List.getElem?_eq_none (by simp; omega), List.getElem?_eq_none (by simp; omega)]

theorem scan_step_checked_eq (L : Libc) (ignore remove : Bool) (parser : arg_parser_t)
    (argv : List CStr) (i : Nat) (hi : i < argv.length) :
    scan_step_checked L ignore remove parser argv i =
      some (scan_step L ignore remove parser argv i) := by
  have hrd : read_token argv i = some (argvAt argv i) := by
    unfold read_token argvAt
    rw [List.getD_eq_getElem?_getD, List.getElem?_eq_getElem hi]
    rfl
  unfold scan_step_checked
  simp only [hrd, Option.some_bind, read_char, Nat.zero_le, if_true, find_arg_checked_eq]
  by_cases hc : charAt (argvAt argv i) 0 = 45
  · rw [if_neg (by simpa using hc)]
    cases hf : find_arg (argvAt argv i) parser.alist 0 with
    | none =>
      rw [scan_step_unknown L ignore remove parser argv i hc hf]
      simp only [advance_checked_eq remove argv i 1 (by omega), Option.map_some']
      split <;> rfl
    | some ka =>
      obtain ⟨k, arg⟩ := ka
      simp only [source_value_checked_eq arg.type _ argv i hi, Option.some_bind]
      cases hs : source_value arg.type (argvAt argv i) argv i with
      | none =>
        rw [scan_step_novalue L ignore remove parser argv i hc hf hs]
      | some rc =>
        obtain ⟨retval, counter⟩ := rc
        have hb : i + counter ≤ argv.length := by
          rcases source_value_counter hs with rfl | ⟨rfl, h2⟩ <;> omega
        rw [scan_step_matched L ignore remove parser argv i hc hf hs]
        simp only [advance_checked_eq remove argv i counter hb, Option.map_some', store_value]
        split <;> rfl
  · rw [if_pos hc, scan_step_positional L ignore remove parser argv i hc]

theorem scan_loop_checked_eq (L : Libc) (ignore remove : Bool) :
    ∀ (fuel : Nat) (parser : arg_parser_t) (argv : List CStr) (i : Nat),
      scan_loop_checked L ignore remove fuel parser argv i =
        some (scan_loop L ignore remove fuel parser argv i) := by
  intro fuel
  induction fuel with
  | zero =>
    intro parser argv i
    unfold scan_loop_checked scan_loop
    split <;> rfl
  | succ fuel ih =>
    intro parser argv i
    unfold scan_loop_checked scan_loop
    by_cases hle : argv.length ≤ i
    · rw [if_pos hle, if_pos hle]
    · rw [if_neg hle, if_neg hle]
      simp only [scan_step_checked_eq L ignore remove parser argv i (by omega)]
      cases scan_step L ignore remove parser argv i with
      | fail code p1 a1 => rfl
      | next p1 a1 i1 => exact ih p1 a1 i1

/-! ## What a call may change in the descriptor list -/

theorem has_flag_default_mark (f : Nat) :
    has_flag (f ||| ArgFound) ArgDefault = has_flag f ArgDefault := by
  have h : (f ||| 4) &&& 1 = f &&& 1 := by
    apply Nat.eq_of_testBit_eq
    intro i
    simp only [Nat.testBit_and, Nat.testBit_or]
    cases i with
    | zero => simp
    | succ i => simp [Nat.testBit_succ]
  unfold has_flag
  show decide ((f ||| 4) &&& 1 ≠ 0) = decide (f &&& 1 ≠ 0)
  rw [h]

theorem has_flag_required_mark (f : Nat) :
    has_flag (f ||| ArgFound) ArgRequired = has_flag f ArgRequired := by
  have h : (f ||| 4) &&& 2 = f &&& 2 := by
    apply Nat.eq_of_testBit_eq
    intro i
    simp only [Nat.testBit_and, Nat.testBit_or]
    cases i with
    | zero => simp
    | succ i =>
      cases i with
      | zero => simp [Nat.testBit_succ]
      | succ i => simp [Nat.testBit_succ]
  unfold has_flag
  show decide ((f ||| 4) &&& 2 ≠ 0) = decide (f &&& 2 ≠ 0)
  rw [h]

theorem keys_of_pointwise {al al1 : List arg_desc} (hlen : al1.length = al.length)
    (h : ∀ (k : Nat) (d1 : arg_desc), al1[k]? = some d1 → ∃ d : arg_desc, al[k]? = some d ∧
      (d1 = d ∨ d1 = { d with flgs := d.flgs ||| ArgFound })) :
    al1.map (fun a => (a.name, a.shrt, a.type)) = al.map (fun a => (a.name, a.shrt, a.type)) := by
  apply List.ext_getElem?
  intro k
  simp only [List.getElem?_map]
  cases h1 : al1[k]? with
  | none =>
    have : al.length ≤ k := by
      rw [← hlen]; exact List.getElem?_eq_none_iff.mp h1
    rw [List.getElem?_eq_none this]
  | some d1 =>
    obtain ⟨d, hd, hc | hc⟩ := h k d1 h1
    · rw [hd, hc]
    · rw [hd, hc]
      rfl

theorem scan_loop_descriptors {L : Libc} {ignore remove : Bool} {fuel : Nat}
    {parser : arg_parser_t} {argv : List CStr} {r : Scan}
    (h : scan_loop L ignore remove fuel parser argv 1 = some r) :
    r.parser.alist.length = parser.alist.length ∧
    ∀ (k : Nat) (d1 : arg_desc), r.parser.alist[k]? = some d1 → ∃ d : arg_desc, parser.alist[k]? = some d ∧
      (d1 = d ∨ (d1 = { d with flgs := d.flgs ||| ArgFound } ∧
        first_match_converted L parser argv k d)) := by
  obtain ⟨p0, a0, i0, ⟨-, -, hlen0, hpt0⟩, hcase⟩ :=
    @scan_loop_invariant L ignore remove
      (fun p a i => 1 ≤ i ∧ (∃ j, 1 ≤ j ∧ a.drop i = argv.drop j) ∧
        p.alist.length = parser.alist.length ∧
        ∀ (k : Nat) (d1 : arg_desc), p.alist[k]? = some d1 → ∃ d : arg_desc, parser.alist[k]? = some d ∧
          (d1 = d ∨ (d1 = { d with flgs := d.flgs ||| ArgFound } ∧
            first_match_converted L parser argv k d)))
      (by
        intro p a i p1 a1 i1 ⟨hi, ⟨j, hj, hdrop⟩, hlen, hpt⟩ hlt hs
        have hjlt : j < argv.length := by
          have := congrArg List.length hdrop
          simp only [List.length_drop] at this
          omega
        have hadv : ∀ counter, 1 ≤ counter →
            1 ≤ (advance remove a i counter).2 ∧
            ∃ j1, 1 ≤ j1 ∧ (advance remove a i counter).1.drop (advance remove a i counter).2 =
              argv.drop j1 := by
          intro counter hc
          refine ⟨by cases remove <;> simp [advance] <;> omega, j + counter, by omega, ?_⟩
          rw [advance_drop remove a i counter (by omega), ← List.drop_drop, ← List.drop_drop,
            hdrop]
        rcases scan_step_next_cases hs with ⟨-, hp, ha, hi1⟩ | ⟨-, -, -, hp, ha, hi1⟩ |
          ⟨k, arg1, retval, counter, hc, hf, hsv, hconv, hp, ha, hi1⟩
        · subst hp ha hi1
          refine ⟨by omega, ⟨j + 1, by omega, ?_⟩, hlen, hpt⟩
          rw [← List.drop_drop, ← List.drop_drop, hdrop]
        · subst hp ha hi1
          obtain ⟨h1, h2⟩ := hadv 1 (le_refl 1)
          exact ⟨h1, h2, hlen, hpt⟩
        · have hcnt : 1 ≤ counter := by
            rcases source_value_counter hsv with rfl | ⟨rfl, -⟩ <;> omega
          obtain ⟨h1, h2⟩ := hadv counter hcnt
          subst hp ha hi1
          refine ⟨h1, h2, by simp only [List.length_set]; exact hlen, ?_⟩
          have hkeys := keys_of_pointwise hlen (fun k d1 hk => by
            obtain ⟨d, hd, hc1 | hc1⟩ := hpt k d1 hk
            · exact ⟨d, hd, Or.inl hc1⟩
            · exact ⟨d, hd, Or.inr hc1.1⟩)
          obtain ⟨d0, hf0, -, -, hty⟩ :=
            find_arg_key_congr (argvAt a i) p.alist parser.alist 0 k arg1 hkeys.symm hf
          obtain ⟨-, hat, -, -⟩ := find_arg_some hf
          obtain ⟨-, hat0, -, -⟩ := find_arg_some hf0
          rw [Nat.sub_zero] at hat hat0
          have hflag : argvAt a i = argvAt argv j := by
            have e1 := argvAt_drop a i 0
            have e2 := argvAt_drop argv j 0
            rw [Nat.add_zero] at e1 e2
            rw [← e1, ← e2, hdrop]
          have hev : first_match_converted L parser argv k d0 := by
            refine ⟨j, retval, counter, hj, hjlt, by rw [← hflag]; exact hc,
              by rw [← hflag]; exact hf0, ?_, by rw [hty]; exact hconv⟩
            rw [source_value_drop _ _ argv j hjlt, ← hdrop, ← source_value_drop _ _ a i hlt,
              ← hflag, hty]
            exact hsv
          intro k1 d1 hk1
          by_cases hk : k1 = k
          · subst hk
            have hklt : k1 < p.alist.length := by
              have := List.getElem?_eq_some_iff.mp hat
              exact this.1
            rw [List.getElem?_set_eq_of_lt _ hklt] at hk1
            simp only [Option.some.injEq] at hk1
            obtain ⟨d, hd, hc1 | ⟨hc1, -⟩⟩ := hpt k1 arg1 hat
            · have hdd : d = d0 := by
                rw [hat0] at hd
                exact (Option.some.inj hd).symm
              subst hdd
              refine ⟨d, hat0, Or.inr ⟨?_, hev⟩⟩
              rw [← hk1, hc1]
            · have hdd : d = d0 := by
                rw [hat0] at hd
                exact (Option.some.inj hd).symm
              subst hdd
              refine ⟨d, hat0, Or.inr ⟨?_, hev⟩⟩
              rw [← hk1, hc1]
              simp only [Nat.or_assoc, Nat.or_self]
          · rw [List.getElem?_set_ne (Ne.symm hk)] at hk1
            exact hpt k1 d1 hk1)
      fuel parser argv 1 _
      ⟨le_refl 1, ⟨1, le_refl 1, rfl⟩, rfl, fun k d1 hk => ⟨d1, hk, Or.inl rfl⟩⟩ h
  rcases hcase with ⟨-, hr⟩ | ⟨-, code, p1, a1, hfail, hr⟩
  · subst hr
    exact ⟨hlen0, hpt0⟩
  · subst hr
    obtain ⟨-, -, hal, -⟩ := scan_step_fail_cases hfail
    simp only [Scan.parser, hal]
    exact ⟨hlen0, hpt0⟩

theorem finish_alist (r : Scan) : r.finish.parser.alist = r.parser.alist := by
  cases r <;> rfl

/-! ## The empty value text -/

theorem defaults_loop_code (alist : List arg_desc) (rlist : List arg_rval) :
    (defaults_loop alist rlist).1 = 0 ∨ (defaults_loop alist rlist).1 = 3 := by
  by_cases h : ∀ d ∈ alist, missing_required d = false
  · left; exact (defaults_loop_code_zero_iff alist rlist).mpr h
  · right
    rw [defaults_loop_code_three]
    push_neg at h
    obtain ⟨d, hd, hm⟩ := h
    exact ⟨d, hd, by simpa using hm⟩

theorem convert_empty (strtod : CStr → Nat × Nat) {type : ArgType}
    (h : type = ArgInt ∨ type = ArgLong ∨ type = ArgLongLong ∨ type = ArgBool) :
    convert (libc strtod) type [] = (empty_value type, true) := by
  rcases h with h | h | h | h <;> subst h <;> rfl

/-! ## An integer value among other flags -/

/-- C1, as the claim states it, fails when the canonical name contains `=`:
for the flag `k=v` the token `--k=v=alpha` supplies `alpha` in the form
`--n=v`, the call returns 0, and the value retrieved is `v=alpha`. -/
theorem C1_counterexample :
    str_to_arg_name (cs "k=v") = cs "k=v" ∧
    supply_all (cs "k=v") 119 [(FlagForm.long_eq, cs "alpha")] = [cs "--k=v=alpha"] ∧
    ∃ out, arg_parser_parse example_libc eq_name_registry
        (cs "program" :: supply_all (cs "k=v") 119 [(FlagForm.long_eq, cs "alpha")])
        false false = some out ∧
      out.code = 0 ∧
      arg_parser_get_args out.parser (cs "k=v") ArgString [.val_str none] 1 =
        (1, [.val_str (some (cs "v=alpha"))]) ∧
      (arg_parser_get_args out.parser (cs "k=v") ArgString [.val_str none] 1).2 ≠
        [.val_str (some (cs "alpha"))] := by
  refine ⟨by decide, by decide,
    { code := 0,
      parser := { alist := [{ name := cs "k=v", dval := .val_str none, type := ArgString,
                              flgs := ArgNone ||| ArgFound, shrt := 119 }],
                  rlist := [{ name := cs "k=v", rval := .val_str (some (cs "v=alpha")),
                              type := ArgString }] },
      argv := [cs "program", cs "--k=v=alpha"] }, by decide, rfl, by decide, by decide⟩

/-- C1 (amended). On a fresh registry whose only descriptor is a string flag
whose name contains no `=` and whose alias is not `=`, for every list of
values, each supplied as `--n=v`, `--n v`, `-x v` or `-x=v`, and at least one
of them unless the flag is neither required nor has a default:
`arg_parser_parse` returns 0, `arg_parser_count(n)` is the number `N` of
values, and `arg_parser_get_args(n, ArgString, out, N)` returns `N` with the
values in command-line order in the first `N` slots. -/
theorem C1_repeated_flag_accumulation (L : Libc) (name : CStr) (x flags : Nat)
    (dval : ArgUnion) (prog : CStr) (items : List (FlagForm × CStr)) (ignore remove : Bool)
    (hname : 61 ∉ name) (hx : x ≠ 61)
    (hN : items ≠ [] ∨
      (has_flag flags ArgDefault = false ∧ has_flag flags ArgRequired = false)) :
    ∃ out, arg_parser_parse L (arg_parser_add_arg arg_parser_make name x ArgString flags dval)
        (prog :: supply_all (str_to_arg_name name) x items) ignore remove = some out ∧
      out.code = 0 ∧
      arg_parser_count out.parser (str_to_arg_name name) = items.length ∧
      ∀ val : List ArgUnion, items.length ≤ val.length →
        arg_parser_get_args out.parser (str_to_arg_name name) ArgString val items.length =
          ((items.length : Int),
            items.map (fun it => ArgUnion.val_str (some it.2)) ++ val.drop items.length) := by
  have hn := not_mem_str_to_arg_name hname
  simp only [arg_parser_add_arg, arg_parser_make, List.nil_append]
  generalize str_to_arg_name name = n at hn ⊢
  have hscan := scan_loop_supply_all L ignore remove n x dval hn hx items
    [prog] [] flags (prog :: supply_all n x items).length (by simp)
  simp only [List.singleton_append, List.length_singleton, List.nil_append] at hscan
  have hdef : ∀ rl : List arg_rval, defaults_loop
      [{ name := n, dval := dval, type := ArgString,
         flgs := if items = [] then flags else flags ||| ArgFound, shrt := x }] rl = (0, rl) := by
    intro rl
    by_cases hi : items = []
    · rcases hN with h | ⟨h1, h2⟩
      · exact absurd hi h
      · simp only [hi, if_true, defaults_loop, h1, h2]
        cases has_flag flags ArgFound <;> simp
    · simp only [hi, if_false, defaults_loop, found_after_mark]
      simp
  have hmv := matching_values_all_same n (items.map (fun it => ArgUnion.val_str (some it.2)))
  rw [List.map_map] at hmv
  simp only [Function.comp_def] at hmv
  have hp : arg_parser_parse L
      { alist := [{ name := n, dval := dval, type := ArgString, flgs := flags, shrt := x }],
        rlist := [] }
      (prog :: supply_all n x items) ignore remove =
      some { code := 0,
             parser :=
               { alist := [{ name := n, dval := dval, type := ArgString,
                             flgs := if items = [] then flags else flags ||| ArgFound,
                             shrt := x }],
                 rlist := items.map (fun it =>
                   { name := n, rval := ArgUnion.val_str (some it.2), type := ArgString }) },
             argv := if remove = true then [prog] else prog :: supply_all n x items } := by
    simp only [arg_parser_parse, hscan, hdef]
  refine ⟨_, hp, rfl, ?_, ?_⟩
  · simp only [arg_parser_count_eq, hmv, List.length_map]
  · intro val hval
    simp only [arg_parser_get_args]
    rw [get_args_loop_spec n ArgString items.length _ 0 val
      (by
        intro e he _
        simp only [List.mem_map] at he
        obtain ⟨it, -, rfl⟩ := he
        rfl)
      (by omega) hval, hmv]
    simp

/-- Witness of C1 on `check_several_values_for_one_flag` of `test.c`: the four
words in the four forms. -/
theorem C1_repeated_flag_accumulation_witness :
    ∃ out, arg_parser_parse example_libc
        (arg_parser_add_arg arg_parser_make (cs "word") 119 ArgString ArgRequired (.val_str none))
        (cs "program" :: supply_all (str_to_arg_name (cs "word")) 119
          [(FlagForm.long_eq, cs "alpha"), (FlagForm.long_space, cs "bravo"),
           (FlagForm.short_space, cs "charlie"), (FlagForm.short_eq, cs "delta")])
        false false = some out ∧
      out.code = 0 ∧
      arg_parser_count out.parser (str_to_arg_name (cs "word")) =
        [(FlagForm.long_eq, cs "alpha"), (FlagForm.long_space, cs "bravo"),
         (FlagForm.short_space, cs "charlie"), (FlagForm.short_eq, cs "delta")].length ∧
      ∀ val : List ArgUnion,
        [(FlagForm.long_eq, cs "alpha"), (FlagForm.long_space, cs "bravo"),
         (FlagForm.short_space, cs "charlie"), (FlagForm.short_eq, cs "delta")].length
          ≤ val.length →
        arg_parser_get_args out.parser (str_to_arg_name (cs "word")) ArgString val
            [(FlagForm.long_eq, cs "alpha"), (FlagForm.long_space, cs "bravo"),
             (FlagForm.short_space, cs "charlie"), (FlagForm.short_eq, cs "delta")].length =
          (([(FlagForm.long_eq, cs "alpha"), (FlagForm.long_space, cs "bravo"),
             (FlagForm.short_space, cs "charlie"), (FlagForm.short_eq, cs "delta")].length : Int),
            [(FlagForm.long_eq, cs "alpha"), (FlagForm.long_space, cs "bravo"),
             (FlagForm.short_space, cs "charlie"), (FlagForm.short_eq, cs "delta")].map
                (fun it => ArgUnion.val_str (some it.2)) ++
              val.drop [(FlagForm.long_eq, cs "alpha"), (FlagForm.long_space, cs "bravo"),
                (FlagForm.short_space, cs "charlie"), (FlagForm.short_eq, cs "delta")].length) :=
  C1_repeated_flag_accumulation example_libc (cs "word") 119 ArgRequired (.val_str none)
    (cs "program")
    [(FlagForm.long_eq, cs "alpha"), (FlagForm.long_space, cs "bravo"),
     (FlagForm.short_space, cs "charlie"), (FlagForm.short_eq, cs "delta")]
    false false (by decide) (by decide) (Or.inl (by decide))

/-- C2. On a fresh registry with pairwise distinct names, when
`arg_parser_parse` returns 0 and a descriptor with a default is denoted by no
token of the input, the result store holds exactly one entry under its name,
and retrieving one value of its type yields 1 and the default value. -/
theorem C2_defaults_exactly_once (L : Libc) (parser : arg_parser_t) (argv : List CStr)
    (ignore remove : Bool) (d : arg_desc) (out : ParseOut) (val : List ArgUnion)
    (hfresh : fresh parser) (hdist : (parser.alist.map (fun a => a.name)).Nodup)
    (hd : d ∈ parser.alist) (hdef : has_flag d.flgs ArgDefault = true)
    (hun : ∀ t ∈ argv.drop 1, arg_name_cmp d.name d.shrt t ≠ 0)
    (hparse : arg_parser_parse L parser argv ignore remove = some out) (hcode : out.code = 0)
    (hval : 1 ≤ val.length) :
    arg_parser_count out.parser d.name = 1 ∧
    arg_parser_get_args out.parser d.name d.type val 1 = (1, d.dval :: val.drop 1) := by
  obtain ⟨hall, hone⟩ :=
    unmatched_entries hfresh hdist hd (fun ⟨t, ht, hm⟩ => hun t ht hm) hparse
  have hmv := hone hcode hdef
  constructor
  · rw [arg_parser_count_eq, hmv]; rfl
  · have := get_args_loop_spec d.name d.type 1 out.parser.rlist 0 val
      (fun e he hm => by rw [(hall e he hm).1]; rfl) (by omega) hval
    simp only [arg_parser_get_args]
    rw [show (1 : Int) = ((1 : Nat) : Int) from rfl, this, hmv]
    simp

/-- Witness of C2: `int-def` is not on the command line
`program --string-req string`, its default 10 is returned once. -/
theorem C2_defaults_exactly_once_witness :
    arg_parser_count
        { alist := [{ name := cs "string-req", dval := .val_str none, type := ArgString,
                      flgs := ArgRequired ||| ArgFound, shrt := 115 },
                    { name := cs "int-def", dval := .val_int 10, type := ArgInt,
                      flgs := ArgDefault, shrt := 0 }],
          rlist := [{ name := cs "string-req", rval := .val_str (some (cs "string")),
                      type := ArgString },
                    { name := cs "int-def", rval := .val_int 10, type := ArgInt }] }
        (cs "int-def") = 1 ∧
    arg_parser_get_args
        { alist := [{ name := cs "string-req", dval := .val_str none, type := ArgString,
                      flgs := ArgRequired ||| ArgFound, shrt := 115 },
                    { name := cs "int-def", dval := .val_int 10, type := ArgInt,
                      flgs := ArgDefault, shrt := 0 }],
          rlist := [{ name := cs "string-req", rval := .val_str (some (cs "string")),
                      type := ArgString },
                    { name := cs "int-def", rval := .val_int 10, type := ArgInt }] }
        (cs "int-def") ArgInt [.val_int 0] 1 = (1, [.val_int 10]) :=
  C2_defaults_exactly_once example_libc req_def_registry
    [cs "program", cs "--string-req", cs "string"] false false
    { name := cs "int-def", dval := .val_int 10, type := ArgInt, flgs := ArgDefault, shrt := 0 }
    { code := 0,
      parser :=
        { alist := [{ name := cs "string-req", dval := .val_str none, type := ArgString,
                      flgs := ArgRequired ||| ArgFound, shrt := 115 },
                    { name := cs "int-def", dval := .val_int 10, type := ArgInt,
                      flgs := ArgDefault, shrt := 0 }],
          rlist := [{ name := cs "string-req", rval := .val_str (some (cs "string")),
                      type := ArgString },
                    { name := cs "int-def", rval := .val_int 10, type := ArgInt }] },
      argv := [cs "program", cs "--string-req", cs "string"] }
    [.val_int 0]
    (fresh_add_arg (fresh_add_arg fresh_make _ _ _ _ _ (by decide)) _ _ _ _ _ (by decide))
    (by decide) (by decide) (by decide) (by decide) (by decide) rfl (by decide)

/-- C3. On a fresh registry, when the token scan ends without error and a
descriptor that is required, has no default and is denoted by no token of the
input exists, `arg_parser_parse` returns 3 (`FlagNotFound`). -/
theorem C3_required_flag_missing (L : Libc) (parser parser1 : arg_parser_t)
    (argv argv1 : List CStr) (ignore remove : Bool) (d : arg_desc)
    (hfresh : fresh parser) (hd : d ∈ parser.alist)
    (hreq : has_flag d.flgs ArgRequired = true) (hnodef : has_flag d.flgs ArgDefault = false)
    (hun : ∀ t ∈ argv.drop 1, arg_name_cmp d.name d.shrt t ≠ 0)
    (hscan : scan_loop L ignore remove argv.length parser argv 1 = some (.done parser1 argv1)) :
    ∃ out, arg_parser_parse L parser argv ignore remove = some out ∧ out.code = 3 := by
  have hfr := scan_loop_frame (le_refl 1) hscan
  simp only [Scan.parser] at hfr
  have hmem : d ∈ parser1.alist :=
    scan_frame_unmatched hfr hd (fun ⟨t, ht, hm⟩ => hun t ht hm)
  have hp : arg_parser_parse L parser argv ignore remove =
      some { code := (defaults_loop parser1.alist parser1.rlist).1,
             parser := { parser1 with rlist := (defaults_loop parser1.alist parser1.rlist).2 },
             argv := argv1 } := by
    simp only [arg_parser_parse, hscan]
  refine ⟨_, hp, ?_⟩
  simp only
  rw [defaults_loop_code_three]
  exact ⟨d, hmem, by simp [missing_required, (hfresh.2 d hd).1, hnodef, hreq]⟩

/-- Witness of C3: the required flag `string-req` is not on the command line
`program positional`. -/
theorem C3_required_flag_missing_witness :
    ∃ out, arg_parser_parse example_libc req_def_registry [cs "program", cs "positional"]
      false false = some out ∧ out.code = 3 :=
  C3_required_flag_missing example_libc req_def_registry req_def_registry
    [cs "program", cs "positional"] [cs "program", cs "positional"] false false
    { name := cs "string-req", dval := .val_str none, type := ArgString, flgs := ArgRequired,
      shrt := 115 }
    (fresh_add_arg (fresh_add_arg fresh_make _ _ _ _ _ (by decide)) _ _ _ _ _ (by decide))
    (by decide) (by decide) (by decide) (by decide) (by decide)

/-- C4, as the claim states it, fails: the registry holds the flag `z` with
a default and no alias, `-z` begins with `-` and denotes no descriptor, no
flag is required, the call returns 0, and yet one entry is stored under the
name `z` that the token spells. -/
theorem C4_counterexample :
    charAt (cs "-z") 0 = 45 ∧
    (∀ d ∈ z_default_registry.alist, arg_name_cmp d.name d.shrt (cs "-z") ≠ 0) ∧
    (∀ d ∈ z_default_registry.alist, has_flag d.flgs ArgRequired = false) ∧
    ∃ out, arg_parser_parse example_libc z_default_registry [cs "program", cs "-z"] true false =
        some out ∧
      out.code = 0 ∧ arg_parser_count out.parser (flag_name (cs "-z")) = 1 := by
  refine ⟨by decide, by decide, by decide,
    { code := 0,
      parser := { alist := z_default_registry.alist,
                  rlist := [{ name := cs "z", rval := .val_str (some (cs "d")),
                              type := ArgString }] },
      argv := [cs "program", cs "-z"] }, by decide, rfl, by decide⟩

/-- C4 (amended). For a registry without required flags and the input
`[prog, U]`, where `U` begins with `-` and denotes no descriptor: the call
returns 2 and changes nothing when unknown flags are not ignored; when they
are ignored it returns 0 and appends only the default entries of the
descriptors that await one, and if `U` begins with `--` the count of the name
that `U` spells is unchanged, hence 0 on a registry without results. -/
theorem C4_unknown_flag_policy (L : Libc) (parser : arg_parser_t) (prog U : CStr)
    (remove : Bool) (hflag : charAt U 0 = 45)
    (hunknown : ∀ d ∈ parser.alist, arg_name_cmp d.name d.shrt U ≠ 0)
    (hnoreq : ∀ d ∈ parser.alist, has_flag d.flgs ArgRequired = false) :
    arg_parser_parse L parser [prog, U] false remove =
      some { code := 2, parser := parser, argv := [prog, U] } ∧
    ∃ out, arg_parser_parse L parser [prog, U] true remove = some out ∧ out.code = 0 ∧
      out.parser.alist = parser.alist ∧
      out.parser.rlist =
        parser.rlist ++ (parser.alist.filter pending_default).map default_entry ∧
      (charAt U 1 = 45 →
        arg_parser_count out.parser (flag_name U) = arg_parser_count parser (flag_name U) ∧
        (parser.rlist = [] → arg_parser_count out.parser (flag_name U) = 0)) := by
  have hfind : find_arg (argvAt [prog, U] 1) parser.alist 0 = none :=
    find_arg_none_iff.mpr hunknown
  have hc : charAt (argvAt [prog, U] 1) 0 = 45 := hflag
  have hstep := fun ig => scan_step_unknown L ig remove parser [prog, U] 1 hc hfind
  constructor
  · simp only [arg_parser_parse, List.length_cons, List.length_nil]
    unfold scan_loop
    simp [hstep false]
  · have hscan : ∃ argv1, scan_loop L true remove 2 parser [prog, U] 1 =
        some (.done parser argv1) := by
      unfold scan_loop
      simp only [List.length_cons, List.length_nil, hstep true]
      cases remove
      · refine ⟨[prog, U], ?_⟩
        unfold scan_loop
        simp [advance]
      · refine ⟨[prog], ?_⟩
        unfold scan_loop
        simp [advance]
    obtain ⟨argv1, hscan⟩ := hscan
    have hp : arg_parser_parse L parser [prog, U] true remove =
        some { code := (defaults_loop parser.alist parser.rlist).1,
               parser := { parser with rlist := (defaults_loop parser.alist parser.rlist).2 },
               argv := argv1 } := by
      simp only [arg_parser_parse, List.length_cons, List.length_nil]
      rw [show 0 + 1 + 1 = 2 from rfl, hscan]
    rw [defaults_loop_no_required parser.rlist hnoreq] at hp
    refine ⟨_, hp, rfl, rfl, rfl, ?_⟩
    intro h1
    have hU : ∃ rest, U = 45 :: 45 :: rest := by
      match U, hflag, h1 with
      | [], h, _ => simp [charAt] at h
      | [_], _, h => simp [charAt] at h
      | a :: b :: rest, ha, hb =>
        simp [charAt] at ha hb
        exact ⟨rest, by rw [ha, hb]⟩
    obtain ⟨rest, rfl⟩ := hU
    have hnew : matching_values ((parser.alist.filter pending_default).map default_entry)
        (flag_name (45 :: 45 :: rest)) = [] := by
      simp only [matching_values, List.map_eq_nil_iff, List.filter_eq_nil_iff, List.mem_map,
        List.mem_filter]
      rintro e ⟨d, ⟨hd, -⟩, rfl⟩ hm
      exact hunknown d hd (arg_name_cmp_of_name_matches d.name d.shrt rest hm)
    have hcount : arg_parser_count
        { alist := parser.alist,
          rlist := parser.rlist ++ (parser.alist.filter pending_default).map default_entry }
        (flag_name (45 :: 45 :: rest)) = arg_parser_count parser (flag_name (45 :: 45 :: rest)) := by
      rw [arg_parser_count_eq, arg_parser_count_eq, matching_values_append, hnew]
      simp
    refine ⟨hcount, ?_⟩
    intro hnil
    rw [hcount, arg_parser_count_eq, hnil]
    rfl

/-- Witness of C4 on `check_unknown_flag_fail` and `check_unknown_flag_not_fail`
of `test.c`: the empty registry and `program --unknown`. -/
theorem C4_unknown_flag_policy_witness :
    arg_parser_parse example_libc arg_parser_make [cs "program", cs "--unknown"] false false =
      some { code := 2, parser := arg_parser_make, argv := [cs "program", cs "--unknown"] } ∧
    ∃ out, arg_parser_parse example_libc arg_parser_make [cs "program", cs "--unknown"]
        true false = some out ∧ out.code = 0 ∧
      out.parser.alist = arg_parser_make.alist ∧
      out.parser.rlist =
        arg_parser_make.rlist ++
          (arg_parser_make.alist.filter pending_default).map default_entry ∧
      (charAt (cs "--unknown") 1 = 45 →
        arg_parser_count out.parser (flag_name (cs "--unknown")) =
          arg_parser_count arg_parser_make (flag_name (cs "--unknown")) ∧
        (arg_parser_make.rlist = [] →
          arg_parser_count out.parser (flag_name (cs "--unknown")) = 0)) :=
  C4_unknown_flag_policy example_libc arg_parser_make (cs "program") (cs "--unknown") false
    (by decide) (by decide) (by decide)

/-- C5. Boolean look-ahead: a flag-shaped token without `=` whose matching
descriptor is boolean, and which is the last token or is followed by a token
beginning with `-`, stores `true`, marks the descriptor found and takes one
token only: the next iteration starts at the following token. -/
theorem C5_boolean_look_ahead (L : Libc) (ignore remove : Bool) (parser : arg_parser_t)
    (argv : List CStr) (val_iter arg_iter : Nat) (arg : arg_desc)
    (hflag : charAt (argvAt argv val_iter) 0 = 45)
    (heq : strstr_eq (argvAt argv val_iter) = none)
    (hfind : find_arg (argvAt argv val_iter) parser.alist 0 = some (arg_iter, arg))
    (hbool : arg.type = ArgBool)
    (hnext : val_iter + 1 = argv.length ∨ charAt (argvAt argv (val_iter + 1)) 0 = 45) :
    ∃ argv1 val_iter1,
      scan_step L ignore remove parser argv val_iter =
        .next { alist := parser.alist.set arg_iter { arg with flgs := arg.flgs ||| ArgFound },
                rlist := parser.rlist ++
                  [{ name := arg.name, rval := .val_bool true, type := ArgBool }] }
          argv1 val_iter1 ∧
      argv1.drop val_iter1 = argv.drop (val_iter + 1) ∧
      argvAt argv1 val_iter1 = argvAt argv (val_iter + 1) ∧
      (argv1, val_iter1) = (if remove then (argv.eraseIdx val_iter, val_iter)
                            else (argv, val_iter + 1)) ∧
      ∀ fuel, scan_loop L ignore remove (fuel + 1) parser argv val_iter =
        scan_loop L ignore remove fuel
          { alist := parser.alist.set arg_iter { arg with flgs := arg.flgs ||| ArgFound },
            rlist := parser.rlist ++
              [{ name := arg.name, rval := .val_bool true, type := ArgBool }] }
          argv1 val_iter1 := by
  have hlt : val_iter < argv.length := argvAt_lt_of_flag hflag
  have hsrc : source_value arg.type (argvAt argv val_iter) argv val_iter = some (str_true, 1) := by
    simp only [source_value, heq, hbool]
    simp [hnext]
  have hconv : convert L ArgBool str_true = (.val_bool true, true) := by
    simp [convert]
  have hstep := scan_step_matched L ignore remove parser argv val_iter hflag hfind hsrc
  simp only [store_value, hbool, hconv, Bool.true_eq_false, if_false] at hstep
  have hdrop := advance_drop remove argv val_iter 1 (by omega)
  refine ⟨(advance remove argv val_iter 1).1, (advance remove argv val_iter 1).2, ?_, hdrop, ?_,
    ?_, ?_⟩
  · rw [hstep, hbool]
  · rw [argvAt_eq_head_drop, hdrop, ← argvAt_eq_head_drop]
  · cases remove
    · simp [advance]
    · simp [advance, List.eraseIdx_eq_take_drop_succ]
  · intro fuel
    conv_lhs => unfold scan_loop
    simp only [Nat.not_le.mpr hlt, if_false, hstep, hbool]

/-- Witness of C5 on the command line of `check_bool_arg_without_val`: `-b` at
index 2 is followed by `--some-other-flag=some-other-value`. -/
theorem C5_boolean_look_ahead_witness :
    charAt (argvAt bool_argv 2) 0 = 45 ∧
    (∃ argv1 val_iter1,
      scan_step example_libc true false bool_registry bool_argv 2 =
        .next { alist := bool_registry.alist.set 0
                  { name := cs "bool-flag", dval := .val_bool false, type := ArgBool,
                    flgs := ArgRequired ||| ArgFound, shrt := 98 },
                rlist := bool_registry.rlist ++
                  [{ name := cs "bool-flag", rval := .val_bool true, type := ArgBool }] }
          argv1 val_iter1 ∧
      argv1.drop val_iter1 = bool_argv.drop (2 + 1) ∧
      argvAt argv1 val_iter1 = argvAt bool_argv (2 + 1) ∧
      (argv1, val_iter1) = (if false then (bool_argv.eraseIdx 2, 2) else (bool_argv, 2 + 1)) ∧
      ∀ fuel, scan_loop example_libc true false (fuel + 1) bool_registry bool_argv 2 =
        scan_loop example_libc true false fuel
          { alist := bool_registry.alist.set 0
              { name := cs "bool-flag", dval := .val_bool false, type := ArgBool,
                flgs := ArgRequired ||| ArgFound, shrt := 98 },
            rlist := bool_registry.rlist ++
              [{ name := cs "bool-flag", rval := .val_bool true, type := ArgBool }] }
          argv1 val_iter1) :=
  ⟨by decide,
   C5_boolean_look_ahead example_libc true false bool_registry bool_argv 2 0
    { name := cs "bool-flag", dval := .val_bool false, type := ArgBool,
      flgs := ArgRequired, shrt := 98 }
    (by decide) (by decide) (by decide) rfl (Or.inr (by decide))⟩

/-- C6. With `remove_defined_flags_from_argv = true` and
`ignore_not_defined_flags = false`, whenever `arg_parser_parse` returns 0 the
token stream left is the program name followed by exactly the positional
tokens of the input in their original order; none of them begins with `-`,
and the stream is a subsequence of the input. The scenario input
`prog --string-req hi -i 5` is reduced to `prog`. -/
theorem C6_compaction_result (L : Libc) (parser : arg_parser_t) (prog : CStr)
    (rest : List CStr) (out : ParseOut)
    (hparse : arg_parser_parse L parser (prog :: rest) false true = some out)
    (hcode : out.code = 0) :
    out.argv = prog :: positional_tokens parser.alist rest ∧
    (∀ t ∈ out.argv.drop 1, charAt t 0 ≠ 45) ∧
    List.Sublist out.argv (prog :: rest) ∧
    (arg_parser_parse example_libc scenario_registry scenario_argv false true).map
      (fun o => (o.code, o.argv)) = some (0, [cs "prog"]) := by
  have hargv : out.argv = prog :: positional_tokens parser.alist rest := by
    rcases arg_parser_parse_cases L parser (prog :: rest) false true with
      ⟨code, p1, a1, hs, hp⟩ | ⟨p1, a1, hs, hp⟩
    · rw [hp] at hparse
      cases hparse
      rcases scan_loop_fail_code hs with h | h | h <;> simp only at hcode <;> omega
    · rw [hp] at hparse
      cases hparse
      have := scan_loop_compact (by simp) hs
      simpa using this
  refine ⟨hargv, ?_, ?_, by decide⟩
  · rw [hargv]
    intro t ht
    exact positional_tokens_not_flag parser.alist rest.length rest (le_refl _) t
      (by simpa using ht)
  · rw [hargv]
    exact (positional_tokens_sublist parser.alist rest.length rest (le_refl _)).cons₂ prog

/-- Witness of C6 on the command line `prog pos1 --string-req hi pos2 -i 5`:
the two positional tokens stay behind the program name. -/
theorem C6_compaction_result_witness :
    [cs "prog", cs "pos1", cs "pos2"] =
      cs "prog" :: positional_tokens scenario_registry.alist
        [cs "pos1", cs "--string-req", cs "hi", cs "pos2", cs "-i", cs "5"] :=
  (C6_compaction_result example_libc scenario_registry (cs "prog")
    [cs "pos1", cs "--string-req", cs "hi", cs "pos2", cs "-i", cs "5"]
    { code := 0,
      parser :=
        { alist := [{ name := cs "string-req", dval := .val_str none, type := ArgString,
                      flgs := ArgRequired ||| ArgFound, shrt := 0 },
                    { name := cs "int-req", dval := .val_int 0, type := ArgInt,
                      flgs := ArgRequired ||| ArgFound, shrt := 105 }],
          rlist := [{ name := cs "string-req", rval := .val_str (some (cs "hi")),
                      type := ArgString },
                    { name := cs "int-req", rval := .val_int 5, type := ArgInt }] },
      argv := [cs "prog", cs "pos1", cs "pos2"] }
    (by decide) rfl).1

/-- C7 (code evaluated at the failing input). With both policy flags set, the
unknown flag `--unknown` is shifted out of `argv` like a defined one: the call
returns 0 and leaves only the program name. -/
theorem C7_unknown_flag_removed :
    arg_parser_parse example_libc arg_parser_make [cs "program", cs "--unknown"] true true =
      some { code := 0, parser := arg_parser_make, argv := [cs "program"] } := by
  decide

/-- C8. Without `remove_defined_flags_from_argv` the call returns and leaves
`*argc` and every element of `argv` as they were, whatever the return code. -/
theorem C8_no_mutation_without_compaction (L : Libc) (parser : arg_parser_t) (argv : List CStr)
    (ignore : Bool) :
    ∃ out, arg_parser_parse L parser argv ignore false = some out ∧
      out.argv = argv ∧ out.argv.length = argv.length := by
  rcases arg_parser_parse_cases L parser argv ignore false with
    ⟨code, p1, a1, hs, hp⟩ | ⟨p1, a1, hs, hp⟩
  · have := (scan_loop_keep_argv hs).2 code p1 a1 rfl
    subst this
    exact ⟨_, hp, rfl, rfl⟩
  · have := (scan_loop_keep_argv hs).1 p1 a1 rfl
    subst this
    exact ⟨_, hp, rfl, rfl⟩

/-- C9 (code evaluated at the failing input). Asking for the integer flag `x`
as a string returns 1 and writes nothing, the same return value as the
successful retrieval of one string value. -/
theorem C9_type_mismatch_returns_one :
    (∀ out, arg_parser_parse example_libc int_default_registry [cs "program"] false false =
        some out →
      arg_parser_get_args out.parser (cs "x") ArgString [.val_str none] 1 =
        (1, [.val_str none])) ∧
    (∀ out, arg_parser_parse example_libc str_default_registry [cs "program"] false false =
        some out →
      arg_parser_get_args out.parser (cs "x") ArgString [.val_str none] 1 =
        (1, [.val_str (some (cs "5"))])) := by
  constructor
  · intro out h
    have : out = { code := 0,
                   parser := { int_default_registry with
                     rlist := [{ name := cs "x", rval := .val_int 5, type := ArgInt }] },
                   argv := [cs "program"] } := by
      have h2 : arg_parser_parse example_libc int_default_registry [cs "program"] false false =
          some { code := 0,
                 parser := { int_default_registry with
                   rlist := [{ name := cs "x", rval := .val_int 5, type := ArgInt }] },
                 argv := [cs "program"] } := by decide
      rw [h2] at h
      exact (Option.some.inj h).symm
    subst this
    decide
  · intro out h
    have : out = { code := 0,
                   parser := { str_default_registry with
                     rlist := [{ name := cs "x", rval := .val_str (some (cs "5")),
                                 type := ArgString }] },
                   argv := [cs "program"] } := by
      have h2 : arg_parser_parse example_libc str_default_registry [cs "program"] false false =
          some { code := 0,
                 parser := { str_default_registry with
                   rlist := [{ name := cs "x", rval := .val_str (some (cs "5")),
                               type := ArgString }] },
                 argv := [cs "program"] } := by decide
      rw [h2] at h
      exact (Option.some.inj h).symm
    subst this
    decide

/-- C10. When every entry stored under the name has the requested type and the
buffer holds at least `count >= 0` slots, `arg_parser_get_args` returns
`r = min(count, arg_parser_count(name))`, the first `r` slots receive the values
of the first `r` matching entries in store order and the other slots are left
as they were. For a flag declared without default on a fresh registry with
distinct names and denoted by no token, it returns 0 and leaves the buffer
untouched after any parse. -/
theorem C10_typed_retrieval (parser : arg_parser_t) (name : CStr) (type : ArgType)
    (count : Int) (val : List ArgUnion) (hcount : 0 ≤ count) (hbuf : count ≤ val.length)
    (htype : ∀ e ∈ parser.rlist, name_matches e.name name = true → e.type = type) :
    (arg_parser_get_args parser name type val count).1 =
      min count (arg_parser_count parser name) ∧
    (arg_parser_get_args parser name type val count).2 =
      (matching_values parser.rlist name).take
          (min count.toNat (arg_parser_count parser name)) ++
        val.drop (min count.toNat (arg_parser_count parser name)) ∧
    (arg_parser_get_args parser name type val count).2.length = val.length ∧
    (∀ (L : Libc) (parser0 : arg_parser_t) (argv : List CStr) (ignore remove : Bool)
        (out : ParseOut) (d : arg_desc) (ty : ArgType) (n : Int),
      fresh parser0 → (parser0.alist.map (fun a => a.name)).Nodup → d ∈ parser0.alist →
      has_flag d.flgs ArgDefault = false →
      (∀ t ∈ argv.drop 1, arg_name_cmp d.name d.shrt t ≠ 0) →
      arg_parser_parse L parser0 argv ignore remove = some out →
      arg_parser_count out.parser d.name = 0 ∧
      arg_parser_get_args out.parser d.name ty val n = (0, val)) := by
  obtain ⟨n, rfl⟩ := Int.eq_ofNat_of_zero_le hcount
  have hbuf' : n ≤ val.length := by omega
  have hspec := get_args_loop_spec name type n parser.rlist 0 val htype (by omega) hbuf'
  simp only [Nat.sub_zero, Nat.zero_add, List.take_zero, List.nil_append] at hspec
  simp only [arg_parser_get_args, hspec, arg_parser_count_eq, Int.toNat_ofNat]
  refine ⟨by omega, trivial, ?_, ?_⟩
  · simp only [List.length_append, List.length_take, List.length_drop]
    omega
  · intro L parser0 argv ignore remove out d ty m hfresh hdist hd hnodef hun hparse
    obtain ⟨hall, -⟩ :=
      unmatched_entries hfresh hdist hd (fun ⟨t, ht, hm⟩ => hun t ht hm) hparse
    have hno : ∀ e ∈ out.parser.rlist, name_matches e.name d.name = false := by
      intro e he
      by_contra hc
      rw [Bool.not_eq_false] at hc
      have := (hall e he hc).2
      rw [hnodef] at this
      cases this
    constructor
    · simp only [matching_values, List.length_map, List.length_eq_zero, List.filter_eq_nil_iff]
      intro e he
      simp [hno e he]
    · have := get_args_loop_no_match d.name ty m out.parser.rlist 0 val hno
      simpa using this

/-- Witness of C10 on the store of `check_several_values_for_one_flag`: asking
for three of the four words with a buffer of four slots. -/
theorem C10_typed_retrieval_witness :
    (arg_parser_get_args { alist := word_registry.alist, rlist := word_rlist } (cs "word")
        ArgString [.val_str none, .val_str none, .val_str none, .val_str none] 3).1 =
      min 3 (arg_parser_count { alist := word_registry.alist, rlist := word_rlist } (cs "word")) ∧
    (arg_parser_get_args { alist := word_registry.alist, rlist := word_rlist } (cs "word")
        ArgString [.val_str none, .val_str none, .val_str none, .val_str none] 3).2 =
      [.val_str (some (cs "alpha")), .val_str (some (cs "bravo")),
       .val_str (some (cs "charlie")), .val_str none] :=
  ⟨(C10_typed_retrieval { alist := word_registry.alist, rlist := word_rlist } (cs "word")
      ArgString 3 [.val_str none, .val_str none, .val_str none, .val_str none]
      (by decide) (by decide) (by decide)).1,
   ((C10_typed_retrieval { alist := word_registry.alist, rlist := word_rlist } (cs "word")
      ArgString 3 [.val_str none, .val_str none, .val_str none, .val_str none]
      (by decide) (by decide) (by decide)).2.1).trans (by decide)⟩

/-- C11. `arg_parser_count(q)` is the number of entries whose name has the same
normalized form as `q`: the lookup ignores case and the difference between `_`
and `-`, and an entry whose name is shorter or longer than `q`, such as a
proper prefix or a proper extension, is never counted. -/
theorem C11_lookup_name_equality (parser : arg_parser_t) (q : CStr) :
    arg_parser_count parser q =
      (parser.rlist.filter
        (fun e => decide (str_to_arg_name e.name = str_to_arg_name q))).length ∧
    (∀ e ∈ parser.rlist, e.name.length ≠ q.length →
      name_matches e.name q = false ∧ str_to_arg_name e.name ≠ str_to_arg_name q) ∧
    (∀ (name ext : CStr) (rval : ArgUnion) (type : ArgType), ext ≠ [] →
      arg_parser_count { alist := [], rlist := [{ name := name, rval := rval, type := type }] }
          (name ++ ext) = 0 ∧
      arg_parser_count
          { alist := [], rlist := [{ name := name ++ ext, rval := rval, type := type }] }
          name = 0) := by
  have hlen : ∀ a b : CStr, a.length ≠ b.length → str_to_arg_name a ≠ str_to_arg_name b := by
    intro a b hab heq
    apply hab
    have := congrArg List.length heq
    simpa [str_to_arg_name_length] using this
  have hfalse : ∀ a b : CStr, a.length ≠ b.length → name_matches a b = false := by
    intro a b hab
    by_contra hc
    rw [Bool.not_eq_false, name_matches_iff] at hc
    exact hlen a b hab hc
  refine ⟨?_, fun e _ he => ⟨hfalse _ _ he, hlen _ _ he⟩, ?_⟩
  · rw [arg_parser_count_eq]
    simp only [matching_values, List.length_map]
    congr 1
    apply List.filter_congr
    intro e _
    by_cases h : str_to_arg_name e.name = str_to_arg_name q
    · simp [h, (name_matches_iff e.name q).mpr h]
    · have : name_matches e.name q = false := by
        by_contra hc
        rw [Bool.not_eq_false, name_matches_iff] at hc
        exact h hc
      simp [h, this]
  · intro name ext rval type hext
    have hpos : 0 < ext.length := List.length_pos.mpr hext
    have h1 : name.length ≠ (name ++ ext).length := by
      rw [List.length_append]; omega
    constructor
    · simp [arg_parser_count, hfalse name (name ++ ext) h1]
    · simp [arg_parser_count, hfalse (name ++ ext) name (Ne.symm h1)]

/-- C12. `str_to_arg_name(s)` has the length of `s`; each byte is `-` where `s`
has `_` and the lowercase of the byte of `s` elsewhere; the function is
idempotent; `Some_Flag` and `some-flag` both normalize to `some-flag`. The
in-place loop of the source computes the same string. -/
theorem C12_normalization (s : CStr) :
    (str_to_arg_name s).length = s.length ∧
    (∀ i, i < s.length →
      charAt (str_to_arg_name s) i =
        if charAt s i = 95 then 45 else tolower (charAt s i)) ∧
    str_to_arg_name (str_to_arg_name s) = str_to_arg_name s ∧
    str_to_arg_name_loop s.length 0 s = str_to_arg_name s ∧
    str_to_arg_name (cs "Some_Flag") = cs "some-flag" ∧
    str_to_arg_name (cs "some-flag") = cs "some-flag" :=
  ⟨str_to_arg_name_length s, str_to_arg_name_charAt s, str_to_arg_name_idem s,
    by simpa using str_to_arg_name_loop_eq s [], by decide, by decide⟩

/-- C13. For a name without `=`, an alias other than `-` and a token that
begins with `--`, `arg_name_cmp` returns 0 exactly when the text of the token
between the `--` and the first `=` (or the end) has the length of the name and
the same normalized form. `--some-int`, `--SOME_INT` and `--some-int=5` match
the flag registered as `some_int`; `--some-in` and `--some-int2` do not. -/
theorem C13_long_form_exact (n : CStr) (shrt : Nat) (rest : CStr) (hn : 61 ∉ n)
    (hshrt : shrt ≠ 45) :
    (arg_name_cmp n shrt (45 :: 45 :: rest) = 0 ↔
      (flag_name (45 :: 45 :: rest)).length = n.length ∧
        str_to_arg_name (flag_name (45 :: 45 :: rest)) = str_to_arg_name n) ∧
    arg_name_cmp (str_to_arg_name (cs "some_int")) 105 (cs "--some-int") = 0 ∧
    arg_name_cmp (str_to_arg_name (cs "some_int")) 105 (cs "--SOME_INT") = 0 ∧
    arg_name_cmp (str_to_arg_name (cs "some_int")) 105 (cs "--some-int=5") = 0 ∧
    arg_name_cmp (str_to_arg_name (cs "some_int")) 105 (cs "--some-in") ≠ 0 ∧
    arg_name_cmp (str_to_arg_name (cs "some_int")) 105 (cs "--some-int2") ≠ 0 := by
  refine ⟨?_, by decide, by decide, by decide, by decide, by decide⟩
  have hfn : flag_name (45 :: 45 :: rest) = rest.takeWhile before_value := rfl
  rw [hfn]
  constructor
  · intro h
    have hm := name_matches_of_arg_name_cmp n shrt rest hn hshrt h
    have heq := (name_matches_iff _ _).mp hm
    refine ⟨?_, heq.symm⟩
    have := congrArg List.length heq
    simpa [str_to_arg_name_length] using this.symm
  · rintro ⟨-, heq⟩
    exact arg_name_cmp_of_name_matches n shrt rest ((name_matches_iff _ _).mpr heq.symm)

/-- Witness of C13: the flag `some-int` with alias `i` and the token
`--Some_Int=5`. -/
theorem C13_long_form_exact_witness :
    arg_name_cmp (cs "some-int") 105 (45 :: 45 :: cs "Some_Int=5") = 0 ↔
      (flag_name (45 :: 45 :: cs "Some_Int=5")).length = (cs "some-int").length ∧
        str_to_arg_name (flag_name (45 :: 45 :: cs "Some_Int=5")) =
          str_to_arg_name (cs "some-int") :=
  (C13_long_form_exact (cs "some-int") 105 (cs "Some_Int=5") (by decide) (by decide)).1

/-- C14 (code evaluated at the failing input). The flag `a` has no alias, the
token `-xa` is not in short-alias form and its second byte is not `-`, and
`arg_name_cmp` still reports a match; `arg_parser_parse` stores the value that
follows `-xa` under `a`. -/
theorem C14_single_hyphen_matches :
    arg_name_cmp (cs "a") 0 (cs "-xa") = 0 ∧
    charAt (cs "-xa") 1 ≠ 0 ∧ charAt (cs "-xa") 1 ≠ 45 ∧
    arg_parser_parse example_libc a_registry [cs "prog", cs "-xa", cs "v"] false false =
      some { code := 0,
             parser := { alist := [{ name := cs "a", dval := .val_str none, type := ArgString,
                                     flgs := ArgNone ||| ArgFound, shrt := 0 }],
                         rlist := [{ name := cs "a", rval := .val_str (some (cs "v")),
                                     type := ArgString }] },
             argv := [cs "prog", cs "-xa", cs "v"] } := by
  refine ⟨by decide, by decide, by decide, by decide⟩

/-- C15. Whatever the name of the descriptor, `arg_name_cmp` returns 0 for the
token `-x` and for every token `-x=<anything>`, where `x` is the alias. With
the flags of `check_setting_short_flags` of `test.c`, `-s string -i 1 -l 2
-t 3 -b false` is parsed into the five values. -/
theorem C15_short_form (arg_name : CStr) (x : Nat) (anything : CStr) :
    arg_name_cmp arg_name x [45, x] = 0 ∧
    arg_name_cmp arg_name x (45 :: x :: 61 :: anything) = 0 ∧
    (arg_parser_parse example_libc
        (arg_parser_add_arg (arg_parser_add_arg (arg_parser_add_arg (arg_parser_add_arg
          (arg_parser_add_arg arg_parser_make
            (cs "string") 115 ArgString ArgNone (.val_str none))
            (cs "int") 105 ArgInt ArgNone (.val_int 0))
            (cs "long") 108 ArgLong ArgNone (.val_long 0))
            (cs "long_long") 116 ArgLongLong ArgNone (.val_ll 0))
            (cs "bool") 98 ArgBool ArgNone (.val_bool false))
        [cs "program_name", cs "-s", cs "string", cs "-i", cs "1", cs "-l", cs "2",
         cs "-t", cs "3", cs "-b", cs "false"] false false).map
      (fun out => (out.code, out.parser.rlist)) =
      some (0, [{ name := cs "string", rval := .val_str (some (cs "string")), type := ArgString },
                { name := cs "int", rval := .val_int 1, type := ArgInt },
                { name := cs "long", rval := .val_long 2, type := ArgLong },
                { name := cs "long-long", rval := .val_ll 3, type := ArgLongLong },
                { name := cs "bool", rval := .val_bool false, type := ArgBool }]) := by
  refine ⟨?_, ?_, by decide⟩
  · simp [arg_name_cmp, charAt]
  · simp [arg_name_cmp, charAt]

/-- C16, as the claim states it, fails: the last token `--t` contains no `=`,
its first matching descriptor is the string flag `t`, no token causes an
error, and the call returns 0, because `--s` takes `--t` as its value. -/
theorem C16_counterexample :
    strstr_eq (cs "--t") = none ∧
    (find_arg (cs "--t") two_string_registry.alist 0).map (fun x => x.2.type) =
      some ArgString ∧
    arg_parser_parse example_libc two_string_registry [cs "prog", cs "--s", cs "--t"]
        false false =
      some { code := 0,
             parser :=
               { alist := [{ name := cs "s", dval := .val_str none, type := ArgString,
                             flgs := ArgNone ||| ArgFound, shrt := 0 },
                           { name := cs "t", dval := .val_str none, type := ArgString,
                             flgs := ArgNone, shrt := 0 }],
                 rlist := [{ name := cs "s", rval := .val_str (some (cs "--t")),
                             type := ArgString }] },
             argv := [cs "prog", cs "--s", cs "--t"] } := by
  refine ⟨by decide, by decide, by decide⟩

/-- C16 (amended). If the last token begins with `-` and contains no `=`, its
first matching descriptor is not boolean, and the scan of the tokens before it
ends without error (so no earlier token fails and the token before it is not a
flag that waits for a value), then `arg_parser_parse` returns 1 and stores
nothing for that token. -/
theorem C16_missing_value (L : Libc) (ignore remove : Bool) (parser parser1 : arg_parser_t)
    (a a1 : List CStr) (t : CStr) (k : Nat) (arg : arg_desc) (hlen : 1 ≤ a.length)
    (hbefore : scan_loop L ignore remove a.length parser a 1 = some (.done parser1 a1))
    (hflag : charAt t 0 = 45) (heq : strstr_eq t = none)
    (hfind : find_arg t parser.alist 0 = some (k, arg)) (htype : arg.type ≠ ArgBool) :
    ∃ out, arg_parser_parse L parser (a ++ [t]) ignore remove = some out ∧ out.code = 1 ∧
      out.parser = parser1 := by
  obtain ⟨r, hr, hp⟩ := arg_parser_parse_behind_prefix t [] hlen hflag hbefore
  obtain ⟨arg1, hf1, -, -, hty⟩ := find_arg_after_scan hbefore hfind
  have hat : argvAt (a1 ++ [t]) a1.length = t := argvAt_append_length a1 t []
  have hsv : source_value arg1.type t (a1 ++ [t]) a1.length = none := by
    rw [source_value_at_suffix]
    simp [source_value, heq, hty, htype]
  have hstep := scan_step_novalue L ignore remove parser1 (a1 ++ [t]) a1.length
    (by rw [hat]; exact hflag) (by rw [hat]; exact hf1) (by rw [hat]; exact hsv)
  unfold scan_loop at hr
  simp only [List.length_append, List.length_singleton, Nat.not_succ_le_self, if_false,
    List.length_nil, hstep, Option.some.injEq] at hr
  subst hr
  exact ⟨_, hp, rfl, rfl⟩

/-- Witness of C16: the string flag `--t` alone behind the program name. -/
theorem C16_missing_value_witness :
    ∃ out, arg_parser_parse example_libc two_string_registry ([cs "prog"] ++ [cs "--t"])
        false false = some out ∧ out.code = 1 ∧ out.parser = two_string_registry :=
  C16_missing_value example_libc false false two_string_registry two_string_registry
    [cs "prog"] [cs "prog"] (cs "--t") 1
    { name := cs "t", dval := .val_str none, type := ArgString, flgs := ArgNone, shrt := 0 }
    (by decide) (by decide) (by decide) (by decide) (by decide) (by decide)

/-- C17. For a flag of type Int, Long or LongLong that the scan reaches without
an earlier error, if the conversion does not consume the whole value text, as
with `12abc` or `abc`, then `arg_parser_parse` returns 4. -/
theorem C17_conversion_error (L : Libc) (ignore remove : Bool) (parser parser1 : arg_parser_t)
    (a a1 : List CStr) (t : CStr) (rest : List CStr) (k : Nat) (arg : arg_desc)
    (retval : CStr) (counter : Nat) (hlen : 1 ≤ a.length)
    (hbefore : scan_loop L ignore remove a.length parser a 1 = some (.done parser1 a1))
    (hflag : charAt t 0 = 45) (hfind : find_arg t parser.alist 0 = some (k, arg))
    (htype : arg.type = ArgInt ∨ arg.type = ArgLong ∨ arg.type = ArgLongLong)
    (hsrc : source_value arg.type t (t :: rest) 0 = some (retval, counter))
    (hgarbage : (arg.type = ArgLongLong → (L.strtoll retval).2 ≠ retval.length) ∧
      (arg.type ≠ ArgLongLong → (L.strtol retval).2 ≠ retval.length)) :
    ∃ out, arg_parser_parse L parser (a ++ t :: rest) ignore remove = some out ∧
      out.code = 4 := by
  obtain ⟨r, hr, hp⟩ := arg_parser_parse_behind_prefix t rest hlen hflag hbefore
  obtain ⟨arg1, hf1, -, -, hty⟩ := find_arg_after_scan hbefore hfind
  have hstep := @scan_step_at_token L ignore remove parser1 a1 t rest k arg1 retval counter
    hflag hf1 (by rw [hty]; exact hsrc)
  have hconv : (convert L arg1.type retval).2 = false := by
    rw [hty]
    rcases htype with h | h | h
    · simp [h, convert, hgarbage.2 (by rw [h]; decide)]
    · simp [h, convert, hgarbage.2 (by rw [h]; decide)]
    · simp [h, convert, hgarbage.1 h]
  unfold scan_loop at hr
  have hlt : ¬ (a1 ++ t :: rest).length ≤ a1.length := by
    simp only [List.length_append, List.length_cons]; omega
  simp only [hlt, if_false, hstep, store_value, hconv, if_true, Option.some.injEq] at hr
  subst hr
  exact ⟨_, hp, rfl⟩

/-- Witness of C17: the integer flag `x` with the value text `12abc`, of which
`strtol` consumes two bytes. -/
theorem C17_conversion_error_witness :
    ∃ out, arg_parser_parse example_libc int_registry
        ([cs "prog"] ++ cs "--x" :: [cs "12abc"]) false false = some out ∧ out.code = 4 :=
  C17_conversion_error example_libc false false int_registry int_registry
    [cs "prog"] [cs "prog"] (cs "--x") [cs "12abc"] 0
    { name := cs "x", dval := .val_int 0, type := ArgInt, flgs := ArgNone, shrt := 0 }
    (cs "12abc") 2
    (by decide) (by decide) (by decide) (by decide) (Or.inl rfl) (by decide)
    ⟨by decide, fun _ => by decide⟩

/-- C20 (code evaluated at the failing input). The entry is appended before the
value is converted: `--x=12abc` makes `arg_parser_parse` return 4, and the
store that was empty then holds an entry for `x` with the value 12, so
`arg_parser_count` of `x` went from 0 to 1. -/
theorem C20_failed_conversion_leaves_entry :
    arg_parser_parse example_libc int_registry [cs "prog", cs "--x=12abc"] false false =
      some { code := 4,
             parser := { alist := int_registry.alist,
                         rlist := [{ name := cs "x", rval := .val_int 12, type := ArgInt }] },
             argv := [cs "prog", cs "--x=12abc"] } ∧
    arg_parser_count int_registry (cs "x") = 0 ∧
    arg_parser_count
      { alist := int_registry.alist,
        rlist := [{ name := cs "x", rval := .val_int 12, type := ArgInt }] } (cs "x") = 1 := by
  refine ⟨by decide, by decide, by decide⟩

/-- C21. Positional tokens are inert: when no token after the program name
begins with `-` (empty tokens included), `arg_parser_parse` returns the code
and the registry that it returns for the program name alone, and the token
stream is left as it was, with and without compaction. -/
theorem C21_positional_tokens_inert (L : Libc) (parser : arg_parser_t) (prog : CStr)
    (rest : List CStr) (ignore remove : Bool) (hpos : ∀ t ∈ rest, charAt t 0 ≠ 45) :
    ∃ out, arg_parser_parse L parser [prog] ignore remove = some out ∧
      out.argv = [prog] ∧
      arg_parser_parse L parser (prog :: rest) ignore remove =
        some { code := out.code, parser := out.parser, argv := prog :: rest } := by
  have h1 := @scan_loop_positional L ignore remove [prog].length parser [prog] 1 (by simp)
    (by simp)
  have h2 := @scan_loop_positional L ignore remove (prog :: rest).length parser (prog :: rest) 1
    (by simp) (by simpa using hpos)
  exact ⟨_, arg_parser_parse_of_scan h1, rfl, arg_parser_parse_of_scan h2⟩

/-- Witness of C21: two positional tokens, one of them empty, behind the
program name, with compaction requested. -/
theorem C21_positional_tokens_inert_witness :
    ∃ out, arg_parser_parse example_libc int_default_registry [cs "prog"] false true =
        some out ∧
      out.argv = [cs "prog"] ∧
      arg_parser_parse example_libc int_default_registry (cs "prog" :: [cs "file", cs ""])
          false true =
        some { code := out.code, parser := out.parser,
               argv := cs "prog" :: [cs "file", cs ""] } :=
  C21_positional_tokens_inert example_libc int_default_registry (cs "prog") [cs "file", cs ""]
    false true (by decide)

/-- C22. Unknown flags never consume a value: with `ignore_not_defined_flags`
set, for a flag-shaped token `U` that matches no descriptor, parsing
`prog U rest` returns the code and leaves the registry (entries and found
marks) that parsing `prog rest` does; the token after `U` is classified on its
own: in `prog --unknown --x 5` the flag `x` is still stored with 5, and in the
command line of `check_bool_arg_without_val` of `test.c` the flag `-b` is
stored as true. -/
theorem C22_unknown_flag_takes_no_value (L : Libc) (parser : arg_parser_t) (prog U : CStr)
    (rest : List CStr) (remove : Bool) (hflag : charAt U 0 = 45)
    (hunknown : ∀ d ∈ parser.alist, arg_name_cmp d.name d.shrt U ≠ 0) :
    (∃ out out1, arg_parser_parse L parser (prog :: U :: rest) true remove = some out ∧
      arg_parser_parse L parser (prog :: rest) true remove = some out1 ∧
      out.code = out1.code ∧ out.parser = out1.parser) ∧
    (arg_parser_parse example_libc int_registry [cs "prog", cs "--unknown", cs "--x", cs "5"]
        true false).map (fun out => (out.code, out.parser.rlist)) =
      some (0, [{ name := cs "x", rval := .val_int 5, type := ArgInt }]) ∧
    (arg_parser_parse example_libc bool_registry bool_argv true false).map
        (fun out => (out.code, out.parser.rlist)) =
      some (0, [{ name := cs "bool-flag", rval := .val_bool true, type := ArgBool }]) := by
  refine ⟨?_, by decide, by decide⟩
  have hf : find_arg U parser.alist 0 = none := find_arg_none_iff.mpr hunknown
  have hstep : scan_step L true remove parser (prog :: U :: rest) 1 =
      .next parser (advance remove (prog :: U :: rest) 1 1).1
        (advance remove (prog :: U :: rest) 1 1).2 := by
    rw [scan_step_unknown L true remove parser (prog :: U :: rest) 1 (by simpa [argvAt] using hflag)
      (by simpa [argvAt] using hf)]
    simp
  have hdrop : (advance remove (prog :: U :: rest) 1 1).1.drop
      (advance remove (prog :: U :: rest) 1 1).2 = (prog :: rest).drop 1 := by
    rw [advance_drop remove _ 1 1 (by simp)]
    rfl
  obtain ⟨r, hr⟩ := scan_loop_fuel L true remove (prog :: U :: rest).length parser
    (prog :: U :: rest) 1 (by omega)
  obtain ⟨r1, hr1⟩ := scan_loop_fuel L true remove (prog :: rest).length parser
    (prog :: rest) 1 (by omega)
  have hr2 := hr
  simp only [List.length_cons] at hr2
  unfold scan_loop at hr2
  simp only [List.length_cons, show ¬ (rest.length + 1 + 1 ≤ 1) by omega, if_false, hstep] at hr2
  have hsuf := @scan_loop_suffix L true remove remove (rest.length + 1) parser _ _ _ _ hdrop
  simp only [List.length_cons] at hr1
  rw [hr2, hr1] at hsuf
  simp only [Option.map_some', Option.some.injEq] at hsuf
  obtain ⟨hc, hp⟩ := finish_outcome hsuf
  refine ⟨_, _, arg_parser_parse_of_scan hr, arg_parser_parse_of_scan ?_, hc, hp⟩
  simpa using hr1

/-- Witness of C22: the unknown flag `--unknown` in front of `--x 5`. -/
theorem C22_unknown_flag_takes_no_value_witness :
    ∃ out out1, arg_parser_parse example_libc int_registry
        (cs "prog" :: cs "--unknown" :: [cs "--x", cs "5"]) true true = some out ∧
      arg_parser_parse example_libc int_registry (cs "prog" :: [cs "--x", cs "5"]) true true =
        some out1 ∧
      out.code = out1.code ∧ out.parser = out1.parser :=
  (C22_unknown_flag_takes_no_value example_libc int_registry (cs "prog") (cs "--unknown")
    [cs "--x", cs "5"] true (by decide) (by decide)).1

/-- C23. A non-boolean flag in space form always consumes the next token: when
the scan reaches a flag-shaped token `t` without `=` whose first matching
descriptor is a String descriptor and `t` is not the last token, the entry
stored for it holds the next token verbatim, whatever that token looks like,
and the scan goes on behind that token: the index advances by two (with
compaction both tokens are removed and the index stays). -/
theorem C23_space_form_consumes_next (L : Libc) (ignore remove : Bool)
    (parser parser1 : arg_parser_t) (a a1 : List CStr) (t next : CStr) (rest : List CStr)
    (k : Nat) (arg : arg_desc) (hlen : 1 ≤ a.length)
    (hbefore : scan_loop L ignore remove a.length parser a 1 = some (.done parser1 a1))
    (hflag : charAt t 0 = 45) (hnoeq : strstr_eq t = none)
    (hfind : find_arg t parser.alist 0 = some (k, arg)) (hstr : arg.type = ArgString) :
    ∃ arg1 r, find_arg t parser1.alist 0 = some (k, arg1) ∧
      scan_step L ignore remove parser1 (a1 ++ t :: next :: rest) a1.length =
        .next { alist := parser1.alist.set k { arg1 with flgs := arg1.flgs ||| ArgFound },
                rlist := parser1.rlist ++
                  [{ name := arg.name, rval := .val_str (some next), type := ArgString }] }
          (if remove then a1 ++ rest else a1 ++ t :: next :: rest)
          (if remove then a1.length else a1.length + 2) ∧
      scan_loop L ignore remove (rest.length + 1)
          { alist := parser1.alist.set k { arg1 with flgs := arg1.flgs ||| ArgFound },
            rlist := parser1.rlist ++
              [{ name := arg.name, rval := .val_str (some next), type := ArgString }] }
          (if remove then a1 ++ rest else a1 ++ t :: next :: rest)
          (if remove then a1.length else a1.length + 2) = some r ∧
      arg_parser_parse L parser (a ++ t :: next :: rest) ignore remove = some r.finish ∧
      ∃ tail, r.finish.parser.rlist = parser1.rlist ++
        { name := arg.name, rval := .val_str (some next), type := ArgString } :: tail := by
  obtain ⟨r, hr, hp⟩ := arg_parser_parse_behind_prefix t (next :: rest) hlen hflag hbefore
  obtain ⟨arg1, hf1, hname, -, hty⟩ := find_arg_after_scan hbefore hfind
  have hsrc : source_value arg1.type t (t :: next :: rest) 0 = some (next, 2) := by
    simp [source_value, hnoeq, hty, hstr, argvAt]
  have hstep := @scan_step_at_token L ignore remove parser1 a1 t (next :: rest) k arg1 next 2
    hflag hf1 hsrc
  have hadv : advance remove (a1 ++ t :: next :: rest) a1.length 2 =
      (if remove then a1 ++ rest else a1 ++ t :: next :: rest,
       if remove then a1.length else a1.length + 2) := by
    have := advance_append remove a1 [t, next] rest
    simpa using this
  have hstep2 : scan_step L ignore remove parser1 (a1 ++ t :: next :: rest) a1.length =
      .next { alist := parser1.alist.set k { arg1 with flgs := arg1.flgs ||| ArgFound },
              rlist := parser1.rlist ++
                [{ name := arg.name, rval := .val_str (some next), type := ArgString }] }
        (if remove then a1 ++ rest else a1 ++ t :: next :: rest)
        (if remove then a1.length else a1.length + 2) := by
    rw [hstep]
    simp only [store_value, hty, hstr, hname, convert, Bool.true_eq_false, if_false, hadv]
  have hlt : a1.length < (a1 ++ t :: next :: rest).length := by
    simp only [List.length_append, List.length_cons]; omega
  have h1 := scan_loop_done_length (le_refl 1) hlen hbefore
  have hr2 := hr
  simp only [List.length_cons] at hr2
  unfold scan_loop at hr2
  simp only [Nat.not_le.mpr hlt, if_false, hstep2] at hr2
  refine ⟨arg1, r, hf1, hstep2, hr2, hp, ?_⟩
  have hi2 : 1 ≤ (if remove then a1.length else a1.length + 2) := by
    cases remove
    · simp
    · simpa using h1
  exact entry_persists hlt hi2 hstep2 rfl hr

/-- Witness of C23: with the string flags `s` and `t`, `--s` takes the token
`--t` that follows it as its value. -/
theorem C23_space_form_consumes_next_witness :
    ∃ r : Scan, arg_parser_parse example_libc two_string_registry
        ([cs "prog"] ++ cs "--s" :: cs "--t" :: []) false false = some r.finish ∧
      ∃ tail, r.finish.parser.rlist = two_string_registry.rlist ++
        { name := cs "s", rval := .val_str (some (cs "--t")), type := ArgString } :: tail :=
  match C23_space_form_consumes_next example_libc false false two_string_registry
    two_string_registry [cs "prog"] [cs "prog"] (cs "--s") (cs "--t") [] 0
    { name := cs "s", dval := .val_str none, type := ArgString, flgs := ArgNone, shrt := 0 }
    (by decide) (by decide) (by decide) (by decide) (by decide) rfl with
  | ⟨_, r, _, _, _, hp, htail⟩ => ⟨r, hp, htail⟩

/-- C24, as the claim states it, fails when no value is available: the token
`--v` matches both descriptors of the registry, it is the last token and the
earliest of them is not boolean, so `arg_parser_parse` returns 1, creates no
entry and marks no descriptor. -/
theorem C24_counterexample :
    dup_registry.alist.length = 2 ∧
    (∀ d ∈ dup_registry.alist, arg_name_cmp d.name d.shrt (cs "--v") = 0) ∧
    arg_parser_parse example_libc dup_registry [cs "prog", cs "--v"] false false =
      some { code := 1, parser := dup_registry, argv := [cs "prog", cs "--v"] } ∧
    dup_registry.rlist = [] := by
  refine ⟨by decide, by decide, by decide, by decide⟩

/-- C24 (amended). First match wins: when the scan reaches a flag-shaped token
that matches two or more descriptors, a value is available for it and that
value converts, the iteration appends exactly one entry, which carries the name
and type of the earliest-registered matching descriptor, and changes no
descriptor but that one, which it marks found; a later matching descriptor
stays as it was; the entry stays in the store that `arg_parser_parse` leaves. -/
theorem C24_first_match_wins (L : Libc) (ignore remove : Bool) (parser parser1 : arg_parser_t)
    (a a1 : List CStr) (t : CStr) (rest : List CStr) (j1 j2 : Nat) (d1 d2 : arg_desc)
    (retval : CStr) (counter : Nat) (hlen : 1 ≤ a.length)
    (hbefore : scan_loop L ignore remove a.length parser a 1 = some (.done parser1 a1))
    (hflag : charAt t 0 = 45) (hj : j1 < j2)
    (h1 : parser.alist[j1]? = some d1) (h2 : parser.alist[j2]? = some d2)
    (hm1 : arg_name_cmp d1.name d1.shrt t = 0) (hm2 : arg_name_cmp d2.name d2.shrt t = 0)
    (hleast : ∀ i e, i < j1 → parser.alist[i]? = some e → arg_name_cmp e.name e.shrt t ≠ 0)
    (hsrc : source_value d1.type t (t :: rest) 0 = some (retval, counter))
    (hconv : (convert L d1.type retval).2 = true) :
    ∃ arg1 out, parser1.alist[j1]? = some arg1 ∧
      scan_step L ignore remove parser1 (a1 ++ t :: rest) a1.length =
        .next { alist := parser1.alist.set j1 { arg1 with flgs := arg1.flgs ||| ArgFound },
                rlist := parser1.rlist ++
                  [{ name := d1.name, rval := (convert L d1.type retval).1, type := d1.type }] }
          (advance remove (a1 ++ t :: rest) a1.length counter).1
          (advance remove (a1 ++ t :: rest) a1.length counter).2 ∧
      has_flag (arg1.flgs ||| ArgFound) ArgFound = true ∧
      (∀ j, j ≠ j1 →
        (parser1.alist.set j1 { arg1 with flgs := arg1.flgs ||| ArgFound })[j]? =
          parser1.alist[j]?) ∧
      (∃ arg2, parser1.alist[j2]? = some arg2 ∧ arg_name_cmp arg2.name arg2.shrt t = 0 ∧
        (parser1.alist.set j1 { arg1 with flgs := arg1.flgs ||| ArgFound })[j2]? =
          some arg2) ∧
      arg_parser_parse L parser (a ++ t :: rest) ignore remove = some out ∧
      ∃ tail, out.parser.rlist = parser1.rlist ++
        { name := d1.name, rval := (convert L d1.type retval).1, type := d1.type } :: tail := by
  have hfind : find_arg t parser.alist 0 = some (j1, d1) := by
    have := @find_arg_first t parser.alist 0 j1 d1 h1 hm1 hleast
    simpa using this
  obtain ⟨arg1, hf1, hname, -, hty⟩ := find_arg_after_scan hbefore hfind
  obtain ⟨-, hat, -, -⟩ := find_arg_some hf1
  have hstep := @scan_step_at_token L ignore remove parser1 a1 t rest j1 arg1 retval counter
    hflag hf1 (by rw [hty]; exact hsrc)
  obtain ⟨out, hp, -, hok⟩ := arg_parser_parse_at_token hlen hbefore hflag hfind hsrc
  have hkeys := scan_frame_keys (scan_loop_frame (le_refl 1) hbefore)
  have hk2 := congrArg (fun l => l[j2]?) hkeys
  simp only [List.getElem?_map, h2, Option.map_some'] at hk2
  obtain ⟨arg2, ha2, hkey2⟩ := Option.map_eq_some'.mp hk2
  simp only [Prod.mk.injEq] at hkey2
  refine ⟨arg1, out, by simpa using hat, ?_, found_after_mark _, ?_, ⟨arg2, ha2, ?_, ?_⟩, hp,
    hok hconv⟩
  · rw [hstep]
    simp only [store_value, hty, hname, hconv, Bool.true_eq_false, if_false]
  · intro j hne
    exact List.getElem?_set_ne (Ne.symm hne)
  · rw [hkey2.1, hkey2.2.1]; exact hm2
  · rw [List.getElem?_set_ne (by omega)]; exact ha2

/-- Witness of C24: `--v 7` with the name `v` registered as an integer flag and
then as a string flag; the entry is the integer 7 and only the first
descriptor is marked. -/
theorem C24_first_match_wins_witness :
    (arg_parser_parse example_libc dup_registry [cs "prog", cs "--v", cs "7"] false false).map
      (fun out => (out.code, out.parser.rlist, out.parser.alist.map (fun d => d.flgs))) =
      some (0, [{ name := cs "v", rval := .val_int 7, type := ArgInt }],
        [ArgNone ||| ArgFound, ArgNone]) ∧
    ∃ out, arg_parser_parse example_libc dup_registry ([cs "prog"] ++ cs "--v" :: [cs "7"])
        false false = some out ∧
      ∃ tail, out.parser.rlist = dup_registry.rlist ++
        { name := cs "v", rval := (convert example_libc ArgInt (cs "7")).1,
          type := ArgInt } :: tail :=
  ⟨by decide,
   match C24_first_match_wins example_libc false false dup_registry dup_registry
     [cs "prog"] [cs "prog"] (cs "--v") [cs "7"] 0 1
     { name := cs "v", dval := .val_int 0, type := ArgInt, flgs := ArgNone, shrt := 0 }
     { name := cs "v", dval := .val_str none, type := ArgString, flgs := ArgNone, shrt := 0 }
     (cs "7") 2 (by decide) (by decide) (by decide) (by decide) (by decide) (by decide)
     (by decide) (by decide) (by intro i e hi; omega) (by decide) (by decide) with
   | ⟨_, out, _, _, _, _, _, hp, htail⟩ => ⟨out, hp, htail⟩⟩

/-- C25. Result store after success: on a fresh registry `arg_parser_parse`
returns, and when it returns 0 the store is one entry per matched flag token,
in command-line order, followed by one entry `{name, type, default value}` for
each descriptor that has a default and was not found, in registration order,
and nothing else. With a required string flag `string-req` (alias `s`) and an
integer flag `int-def` with default 10, `prog file -s hello` leaves the entry
of `-s hello` followed by the default of `int-def`. -/
theorem C25_store_after_success (L : Libc) (parser : arg_parser_t) (prog : CStr)
    (tokens : List CStr) (ignore remove : Bool) (hfresh : fresh parser) :
    (∃ out, arg_parser_parse L parser (prog :: tokens) ignore remove = some out ∧
      (out.code = 0 →
        out.parser.rlist =
          (flag_tokens parser.alist tokens).map (token_entry L) ++
            default_entries ((flag_tokens parser.alist tokens).map (fun m => m.1))
              parser.alist 0)) ∧
    (flag_tokens req_def_registry.alist [cs "file", cs "-s", cs "hello"]).map
        (fun m => (m.1, m.2.2)) = [(0, cs "hello")] ∧
    (arg_parser_parse example_libc req_def_registry
        [cs "prog", cs "file", cs "-s", cs "hello"] false false).map
      (fun out => (out.code, out.parser.rlist)) =
      some (0, [{ name := cs "string-req", rval := .val_str (some (cs "hello")),
                  type := ArgString },
                { name := cs "int-def", rval := .val_int 10, type := ArgInt }]) := by
  refine ⟨?_, by decide, by decide⟩
  obtain ⟨r, hr⟩ := scan_loop_fuel L ignore remove (prog :: tokens).length parser
    (prog :: tokens) 1 (by omega)
  refine ⟨_, arg_parser_parse_of_scan hr, ?_⟩
  intro hcode
  cases r with
  | fail code p1 a1 =>
    simp only [Scan.finish] at hcode
    rcases scan_loop_fail_code hr with h | h | h <;> omega
  | done p1 a1 =>
    obtain ⟨hrl, hal⟩ := scan_loop_flag_tokens hr
    simp only [Scan.finish] at hcode ⊢
    rw [defaults_loop_rlist _ _ hcode, hrl, hal, hfresh.1, List.nil_append, List.drop_one,
      List.tail_cons, mark_found_defaults parser.alist 0 (fun d hd => (hfresh.2 d hd).1)]

/-- Witness of C25: the registry with `string-req` and `int-def`, fresh as
`arg_parser_add_arg` leaves it. -/
theorem C25_store_after_success_witness :
    ∃ out, arg_parser_parse example_libc req_def_registry
        (cs "prog" :: [cs "file", cs "-s", cs "hello"]) false true = some out ∧
      (out.code = 0 →
        out.parser.rlist =
          (flag_tokens req_def_registry.alist [cs "file", cs "-s", cs "hello"]).map
              (token_entry example_libc) ++
            default_entries
              ((flag_tokens req_def_registry.alist [cs "file", cs "-s", cs "hello"]).map
                (fun m => m.1))
              req_def_registry.alist 0) :=
  (C25_store_after_success example_libc req_def_registry (cs "prog")
    [cs "file", cs "-s", cs "hello"] false true
    (fresh_add_arg (fresh_add_arg fresh_make _ _ _ _ _ (by decide)) _ _ _ _ _ (by decide))).1

/-- C26. The result store is append-only: whatever the registry, the input and
the options, `arg_parser_parse` returns, and the store afterwards is the store
before followed by the entries of this call, on success and on every failure;
a second call on the returned registry keeps the entries of the first. Parsing
`--word=alpha` and then `--word=bravo` with the registry of
`check_several_values_for_one_flag` leaves both entries. -/
theorem C26_result_store_append_only (L : Libc) (parser : arg_parser_t) (argv : List CStr)
    (ignore remove : Bool) :
    (∃ out tail, arg_parser_parse L parser argv ignore remove = some out ∧
      out.parser.rlist = parser.rlist ++ tail ∧
      ∀ (argv2 : List CStr) (ignore2 remove2 : Bool),
        ∃ out2 tail2, arg_parser_parse L out.parser argv2 ignore2 remove2 = some out2 ∧
          out2.parser.rlist = parser.rlist ++ tail ++ tail2) ∧
    ((arg_parser_parse example_libc word_registry [cs "program", cs "--word=alpha"]
        false false).bind
      (fun out => arg_parser_parse example_libc out.parser [cs "program", cs "--word=bravo"]
        false false)).map (fun out => (out.code, out.parser.rlist)) =
      some (0, [{ name := cs "word", rval := .val_str (some (cs "alpha")), type := ArgString },
                { name := cs "word", rval := .val_str (some (cs "bravo")),
                  type := ArgString }]) := by
  have once : ∀ (p : arg_parser_t) (a : List CStr) (ig rm : Bool),
      ∃ out tail, arg_parser_parse L p a ig rm = some out ∧
        out.parser.rlist = p.rlist ++ tail := by
    intro p a ig rm
    obtain ⟨r, hr⟩ := scan_loop_fuel L ig rm a.length p a 1 (by omega)
    obtain ⟨-, -, added, hadd, -⟩ := scan_loop_frame (le_refl 1) hr
    obtain ⟨tail, htail⟩ := finish_rlist_prefix r
    exact ⟨_, added ++ tail, arg_parser_parse_of_scan hr, by
      rw [htail, hadd, List.append_assoc]⟩
  refine ⟨?_, by decide⟩
  obtain ⟨out, tail, hp, hrl⟩ := once parser argv ignore remove
  refine ⟨out, tail, hp, hrl, ?_⟩
  intro argv2 ignore2 remove2
  obtain ⟨out2, tail2, hp2, hrl2⟩ := once out.parser argv2 ignore2 remove2
  exact ⟨out2, tail2, hp2, by rw [hrl2, hrl]⟩

/-- C27. Termination: for every registry, every input and all four
combinations of the options, `arg_parser_parse` returns (the scan loop needs at
most one iteration per token of the input); on every iteration that continues
the loop the quantity `*argc - val_iter` strictly decreases, with compaction
too, where the index stays and `*argc` shrinks. -/
theorem C27_termination (L : Libc) (parser : arg_parser_t) (argv : List CStr)
    (ignore remove : Bool) :
    (∃ out, arg_parser_parse L parser argv ignore remove = some out) ∧
    (∀ (p p1 : arg_parser_t) (a a1 : List CStr) (i i1 : Nat), i < a.length →
      scan_step L ignore remove p a i = .next p1 a1 i1 → a1.length - i1 < a.length - i) ∧
    (∀ (fuel : Nat) (p : arg_parser_t) (a : List CStr) (i : Nat), a.length - i ≤ fuel →
      ∃ r, scan_loop L ignore remove fuel p a i = some r) := by
  refine ⟨?_, ?_, ?_⟩
  · obtain ⟨r, hr⟩ := scan_loop_fuel L ignore remove argv.length parser argv 1 (by omega)
    exact ⟨_, arg_parser_parse_of_scan hr⟩
  · intro p p1 a a1 i i1 hi hs
    exact scan_step_measure hi hs
  · exact scan_loop_fuel L ignore remove

/-- C28. Stream consistency: for every input with `*argc >= 1` and every
outcome of `arg_parser_parse` (success or failure, with or without
compaction), the final `*argc` is at least 1 and at most the original one,
`argv[0]` is the original program name, and the final stream is a subsequence
of the original stream. -/
theorem C28_stream_consistency (L : Libc) (parser : arg_parser_t) (argv : List CStr)
    (ignore remove : Bool) (hlen : 1 ≤ argv.length) :
    ∃ out, arg_parser_parse L parser argv ignore remove = some out ∧
      1 ≤ out.argv.length ∧ out.argv.length ≤ argv.length ∧
      argvAt out.argv 0 = argvAt argv 0 ∧ List.Sublist out.argv argv := by
  obtain ⟨r, hr⟩ := scan_loop_fuel L ignore remove argv.length parser argv 1 (by omega)
  obtain ⟨h1, htk, hsub⟩ := scan_loop_stream hlen hr
  refine ⟨_, arg_parser_parse_of_scan hr, ?_, ?_, ?_, ?_⟩
  · rw [finish_argv]; exact h1
  · rw [finish_argv]; exact hsub.length_le
  · rw [finish_argv]
    have h0 : ∀ l : List CStr, argvAt l 0 = (l.take 1).headD [] := by
      intro l; cases l <;> simp [argvAt]
    rw [h0, h0, htk]
  · rw [finish_argv]; exact hsub

/-- Witness of C28: with compaction, `--x=1` is removed, `file` is kept, and
the conversion of `--x=zz` fails; the stream left behind is
`prog file --x=zz`. -/
theorem C28_stream_consistency_witness :
    (arg_parser_parse example_libc int_registry
        [cs "prog", cs "--x=1", cs "file", cs "--x=zz"] false true).map
      (fun out => (out.code, out.argv)) = some (4, [cs "prog", cs "file", cs "--x=zz"]) ∧
    ∃ out, arg_parser_parse example_libc int_registry
        [cs "prog", cs "--x=1", cs "file", cs "--x=zz"] false true = some out ∧
      1 ≤ out.argv.length ∧
      out.argv.length ≤ [cs "prog", cs "--x=1", cs "file", cs "--x=zz"].length ∧
      argvAt out.argv 0 = argvAt [cs "prog", cs "--x=1", cs "file", cs "--x=zz"] 0 ∧
      List.Sublist out.argv [cs "prog", cs "--x=1", cs "file", cs "--x=zz"] :=
  ⟨by decide,
   C28_stream_consistency example_libc int_registry
     [cs "prog", cs "--x=1", cs "file", cs "--x=zz"] false true (by decide)⟩

/-- C29. Compaction does not change what is parsed: for every registry, input
and value of `ignore_not_defined_flags`, `arg_parser_parse` returns with
`remove_defined_flags_from_argv` set the code and leaves the registry (result
entries and found marks) that it does without it. -/
theorem C29_compaction_same_parse (L : Libc) (parser : arg_parser_t) (argv : List CStr)
    (ignore : Bool) :
    ∃ out out1, arg_parser_parse L parser argv ignore true = some out ∧
      arg_parser_parse L parser argv ignore false = some out1 ∧
      out.code = out1.code ∧ out.parser.rlist = out1.parser.rlist ∧
      out.parser.alist = out1.parser.alist := by
  obtain ⟨r, hr⟩ := scan_loop_fuel L ignore true argv.length parser argv 1 (by omega)
  obtain ⟨r1, hr1⟩ := scan_loop_fuel L ignore false argv.length parser argv 1 (by omega)
  have hsuf := @scan_loop_suffix L ignore true false argv.length parser argv argv 1 1 rfl
  rw [hr, hr1] at hsuf
  simp only [Option.map_some', Option.some.injEq] at hsuf
  obtain ⟨hc, hp⟩ := finish_outcome hsuf
  exact ⟨_, _, arg_parser_parse_of_scan hr, arg_parser_parse_of_scan hr1, hc, by rw [hp],
    by rw [hp]⟩

/-- C30. Bounds safety of the scan: in the model of `arg_parser_parse` in which
every read and write of `argv` outside `[0, *argc)` and every read of a token
past its terminator fails, no access fails: the checked loop computes what the
scan loop computes, from every state, and delivers the result of
`arg_parser_parse`; the look-ahead `argv[i + 1]` and the compaction reads
`argv[i + counter]` stay below `*argc`, and `arg_name_cmp` reads the token
only up to its terminator. The checks are real: a read at `*argc`, a read
behind the terminator and an iteration at index `*argc` fail. -/
theorem C30_bounds_safety (L : Libc) (ignore remove : Bool) (parser : arg_parser_t)
    (argv : List CStr) :
    (∀ fuel i, scan_loop_checked L ignore remove fuel parser argv i =
      some (scan_loop L ignore remove fuel parser argv i)) ∧
    (∃ r, scan_loop_checked L ignore remove argv.length parser argv 1 = some (some r) ∧
      arg_parser_parse L parser argv ignore remove = some r.finish) ∧
    (∀ i, i < argv.length →
      scan_step_checked L ignore remove parser argv i =
        some (scan_step L ignore remove parser argv i)) ∧
    (∀ type flag i, i < argv.length →
      source_value_checked type flag argv i = some (source_value type flag argv i)) ∧
    (∀ i counter, i + counter ≤ argv.length →
      advance_checked remove argv i counter = some (advance remove argv i counter)) ∧
    (∀ name x t, arg_name_cmp_checked name x t = some (arg_name_cmp name x t)) ∧
    read_token argv argv.length = none ∧
    (∀ t : CStr, read_char t (t.length + 1) = none) ∧
    scan_step_checked L ignore remove parser argv argv.length = none := by
  refine ⟨fun fuel i => scan_loop_checked_eq L ignore remove fuel parser argv i, ?_,
    fun i hi => scan_step_checked_eq L ignore remove parser argv i hi,
    fun type flag i hi => source_value_checked_eq type flag argv i hi,
    fun i counter h => advance_checked_eq remove argv i counter h,
    arg_name_cmp_checked_eq, ?_, ?_, ?_⟩
  · obtain ⟨r, hr⟩ := scan_loop_fuel L ignore remove argv.length parser argv 1 (by omega)
    exact ⟨r, by rw [scan_loop_checked_eq, hr], arg_parser_parse_of_scan hr⟩
  · simp [read_token]
  · intro t
    simp [read_char]
  · simp [scan_step_checked, read_token]

/-- C31. Descriptor frame: `arg_parser_parse` returns, and it changes the
descriptor list only by setting found marks: the number of descriptors and the
name, alias, type, default value and the has-default and required attributes of
each descriptor are as before, the flags are the old flags or the old flags
with the found mark added, a found mark that was set stays set, and a found
mark is newly set only on a descriptor that is the first match of a token of
the input whose value converted. A second call without flags keeps the mark of
the first; a value that does not convert sets no mark. -/
theorem C31_descriptor_frame (L : Libc) (parser : arg_parser_t) (argv : List CStr)
    (ignore remove : Bool) :
    (∃ out, arg_parser_parse L parser argv ignore remove = some out ∧
      out.parser.alist.length = parser.alist.length ∧
      ∀ (k : Nat) (d1 : arg_desc), out.parser.alist[k]? = some d1 →
        ∃ d : arg_desc, parser.alist[k]? = some d ∧
          d1.name = d.name ∧ d1.shrt = d.shrt ∧ d1.type = d.type ∧ d1.dval = d.dval ∧
          has_flag d1.flgs ArgDefault = has_flag d.flgs ArgDefault ∧
          has_flag d1.flgs ArgRequired = has_flag d.flgs ArgRequired ∧
          (d1.flgs = d.flgs ∨ d1.flgs = d.flgs ||| ArgFound) ∧
          (has_flag d.flgs ArgFound = true → has_flag d1.flgs ArgFound = true) ∧
          (has_flag d.flgs ArgFound = false → has_flag d1.flgs ArgFound = true →
            first_match_converted L parser argv k d)) ∧
    ((arg_parser_parse example_libc int_registry [cs "prog", cs "--x=1"] false false).bind
        (fun out => arg_parser_parse example_libc out.parser [cs "prog"] false false)).map
      (fun out => out.parser.alist.map (fun d => d.flgs)) = some [ArgNone ||| ArgFound] ∧
    (arg_parser_parse example_libc int_registry [cs "prog", cs "--x=zz"] false false).map
      (fun out => (out.code, out.parser.alist.map (fun d => d.flgs))) = some (4, [ArgNone]) := by
  refine ⟨?_, by decide, by decide⟩
  obtain ⟨r, hr⟩ := scan_loop_fuel L ignore remove argv.length parser argv 1 (by omega)
  obtain ⟨hlen, hpt⟩ := scan_loop_descriptors hr
  refine ⟨_, arg_parser_parse_of_scan hr, by rw [finish_alist]; exact hlen, ?_⟩
  intro k d1 hk
  rw [finish_alist] at hk
  obtain ⟨d, hd, hc | ⟨hc, hev⟩⟩ := hpt k d1 hk
  · subst hc
    refine ⟨d1, hd, rfl, rfl, rfl, rfl, rfl, rfl, Or.inl rfl, fun h => h, ?_⟩
    intro h1 h2
    rw [h1] at h2
    exact absurd h2 (by simp)
  · subst hc
    exact ⟨d, hd, rfl, rfl, rfl, rfl, has_flag_default_mark _, has_flag_required_mark _,
      Or.inr rfl, fun _ => found_after_mark _, fun _ _ => hev⟩

/-- C32. An empty joined value is accepted for numeric and boolean flags: for a
token `--name=` that the scan reaches and whose first matching descriptor has
type Int, Long, LongLong or Bool, the value text is empty, the integer
conversion of the C library consumes zero characters of it and returns 0, the
full-consumption check passes, and the entry stored holds 0 (false for Bool);
when the token is the last one the call does not return 4. With a single flag
`x` of each of the four types, `prog --x=` returns 0. -/
theorem C32_empty_joined_value (strtod : CStr → Nat × Nat) (ignore remove : Bool)
    (parser parser1 : arg_parser_t) (a a1 : List CStr) (n : CStr) (rest : List CStr) (k : Nat)
    (arg : arg_desc) (hlen : 1 ≤ a.length)
    (hbefore : scan_loop (libc strtod) ignore remove a.length parser a 1 =
      some (.done parser1 a1))
    (hn : 61 ∉ n)
    (hfind : find_arg (45 :: 45 :: (n ++ [61])) parser.alist 0 = some (k, arg))
    (htype : arg.type = ArgInt ∨ arg.type = ArgLong ∨ arg.type = ArgLongLong ∨
      arg.type = ArgBool) :
    (libc strtod).strtol [] = (0, 0) ∧ (libc strtod).strtoll [] = (0, 0) ∧
    source_value arg.type (45 :: 45 :: (n ++ [61])) ((45 :: 45 :: (n ++ [61])) :: rest) 0 =
      some ([], 1) ∧
    convert (libc strtod) arg.type [] = (empty_value arg.type, true) ∧
    (∃ out tail, arg_parser_parse (libc strtod) parser (a ++ (45 :: 45 :: (n ++ [61])) :: rest)
        ignore remove = some out ∧
      out.parser.rlist = parser1.rlist ++
        { name := arg.name, rval := empty_value arg.type, type := arg.type } :: tail ∧
      (rest = [] → out.code = 0 ∨ out.code = 3)) ∧
    (∀ type ∈ [ArgInt, ArgLong, ArgLongLong, ArgBool],
      (arg_parser_parse example_libc
          (arg_parser_add_arg arg_parser_make (cs "x") 0 type ArgNone (empty_value type))
          [cs "prog", cs "--x="] false false).map
        (fun out => (out.code, out.parser.rlist)) =
        some (0, [{ name := cs "x", rval := empty_value type, type := type }])) := by
  have hflag : charAt (45 :: 45 :: (n ++ [61])) 0 = 45 := rfl
  have hstr : strstr_eq (45 :: 45 :: (n ++ [61])) = some [61] := by
    have := @strstr_eq_append (45 :: 45 :: n) (by simpa using hn) []
    simpa using this
  have hsrc : source_value arg.type (45 :: 45 :: (n ++ [61]))
      ((45 :: 45 :: (n ++ [61])) :: rest) 0 = some ([], 1) := by
    simp [source_value, hstr]
  have hconv := convert_empty strtod htype
  refine ⟨rfl, rfl, hsrc, hconv, ?_, by decide⟩
  obtain ⟨out, hp, -, hok⟩ := arg_parser_parse_at_token hlen hbefore hflag hfind hsrc
  obtain ⟨tail, htail⟩ := hok (by rw [hconv])
  rw [hconv] at htail
  refine ⟨out, tail, hp, htail, ?_⟩
  intro hrest
  subst hrest
  obtain ⟨r, hr, hp2⟩ := arg_parser_parse_behind_prefix (45 :: 45 :: (n ++ [61])) [] hlen hflag
    hbefore
  rw [hp2] at hp
  have hout : out = r.finish := (Option.some.inj hp).symm
  obtain ⟨arg1, hf1, -, -, hty⟩ := find_arg_after_scan hbefore hfind
  have hstep := @scan_step_at_token (libc strtod) ignore remove parser1 a1
    (45 :: 45 :: (n ++ [61])) [] k arg1 [] 1 hflag hf1 (by rw [hty]; exact hsrc)
  have hlt : a1.length < (a1 ++ [45 :: 45 :: (n ++ [61])]).length := by
    simp only [List.length_append, List.length_singleton]; omega
  have hadv : (advance remove (a1 ++ [45 :: 45 :: (n ++ [61])]) a1.length 1).1.length ≤
      (advance remove (a1 ++ [45 :: 45 :: (n ++ [61])]) a1.length 1).2 := by
    cases remove <;> simp [advance]
  simp only [List.length_nil, Nat.zero_add] at hr
  unfold scan_loop at hr
  simp only [Nat.not_le.mpr hlt, if_false, hstep, store_value, hty, hconv, Bool.true_eq_false]
    at hr
  unfold scan_loop at hr
  rw [if_pos hadv] at hr
  rw [hout, ← Option.some.inj hr]
  exact defaults_loop_code _ _

/-- Witness of C32: the integer flag `x` and the command line `prog --x=`. -/
theorem C32_empty_joined_value_witness :
    ∃ out tail, arg_parser_parse (libc (fun _ => (0, 0))) int_registry
        ([cs "prog"] ++ (45 :: 45 :: (cs "x" ++ [61])) :: []) false false = some out ∧
      out.parser.rlist = int_registry.rlist ++
        { name := cs "x", rval := empty_value ArgInt, type := ArgInt } :: tail ∧
      (([] : List CStr) = [] → out.code = 0 ∨ out.code = 3) :=
  (C32_empty_joined_value (fun _ => (0, 0)) false false int_registry int_registry
    [cs "prog"] [cs "prog"] (cs "x") [] 0
    { name := cs "x", dval := .val_int 0, type := ArgInt, flgs := ArgNone, shrt := 0 }
    (by decide) (by decide) (by decide) (by decide) (Or.inl rfl)).2.2.2.2.1

end ArgParser
